import Mathlib

/-!
Shallow embedding of the dynamic-programming border engine for Steiner-tree
subproblems, translated from applications/STP/src/dpborder_util.c.
Partition characters (DPB_Ptype) are modelled as Int, SCIP_Real as the
rationals, C arrays as Lean lists, and the in-place writes of the partition
builders as pure state-passing functions returning the updated arrays.
-/

set_option maxHeartbeats 1000000
set_option linter.unusedVariables false

/-- Modelled from the spec: the "infinity" cost sentinel FARAWAY and the
comparison macros LT/GE live in a portability header that is not part of the
excerpt; FARAWAY is modelled as the rational constant 10^15 and LT/GE as the
exact order on the rationals. -/
def FARAWAY : ℚ := 10 ^ 15

/-- Loop of dpborder_partIsValid that rejects two consecutive delimiter
characters (dpborder_util.c lines 111-118), translated structurally. -/
def noAdjacentDelim (delimiter : Int) : List Int → Bool
  | a :: b :: rest =>
      !(a == delimiter && b == delimiter) && noAdjacentDelim delimiter (b :: rest)
  | _ => true

/-- Duplicate scan of dpborder_partIsValid (lines 120-142): a non-delimiter
character may not occur at two different positions. -/
def noDupNonDelim (delimiter : Int) : List Int → Bool
  | [] => true
  | c :: rest => (c == delimiter || !(rest.contains c)) && noDupNonDelim delimiter rest

/-- Translation of dpborder_partIsValid (dpborder_util.c lines 89-145); a
partition is given by its character list together with its delimiter. -/
def dpborder_partIsValid (partitionchars : List Int) (delimiter : Int) : Bool :=
  !(partitionchars.getD 0 0 == delimiter) &&
  !(partitionchars.getD (partitionchars.length - 1) 0 == delimiter) &&
  noAdjacentDelim delimiter partitionchars &&
  partitionchars.all (fun c => decide (c ≤ delimiter)) &&
  noDupNonDelim delimiter partitionchars

/-- Adjacency condition used by the validity characterization: positions a, b
may not both hold the delimiter. -/
def NotBothDelim (d a b : Int) : Prop := ¬(a = d ∧ b = d)

/-- Structured reformulation of the conditions checked by dpborder_partIsValid:
nonempty, no leading, trailing or adjacent delimiter, all characters at most
the delimiter, non-delimiter characters pairwise distinct. -/
def ValidSpec (chars : List Int) (d : Int) : Prop :=
  chars ≠ [] ∧ chars.head? ≠ some d ∧ chars.getLast? ≠ some d ∧
    List.Chain' (NotBothDelim d) chars ∧
    (∀ x ∈ chars, x ≤ d) ∧ (chars.filter (· != d)).Nodup

theorem noAdjacentDelim_iff (d : Int) : ∀ l : List Int,
    (noAdjacentDelim d l = true ↔ List.Chain' (NotBothDelim d) l)
  | [] => by simp [noAdjacentDelim]
  | [a] => by simp [noAdjacentDelim]
  | a :: b :: rest => by
      have ih := noAdjacentDelim_iff d (b :: rest)
      simp only [noAdjacentDelim, Bool.and_eq_true, Bool.not_eq_true',
        Bool.and_eq_false_iff, List.chain'_cons, ih, beq_eq_false_iff_ne,
        ne_eq, beq_iff_eq, NotBothDelim]
      tauto

theorem noDupNonDelim_iff (d : Int) : ∀ l : List Int,
    (noDupNonDelim d l = true ↔ (l.filter (· != d)).Nodup)
  | [] => by simp [noDupNonDelim]
  | c :: rest => by
      have ih := noDupNonDelim_iff d rest
      by_cases hc : c = d
      · subst hc
        simp [noDupNonDelim, ih, List.filter_cons]
      · rw [List.filter_cons_of_pos (by simp [hc])]
        simp only [noDupNonDelim, Bool.and_eq_true, Bool.or_eq_true,
          beq_iff_eq, hc, false_or, Bool.not_eq_true', ih, List.nodup_cons,
          List.mem_filter]
        have hcont : (rest.contains c = false) ↔ c ∉ rest := by
          simp
        rw [hcont]
        simp [hc]

theorem getD_last_eq_getLast (a : Int) (l : List Int) :
    (a :: l).getD ((a :: l).length - 1) 0 = (a :: l).getLast (by simp) := by
  rw [List.getD_eq_getElem?_getD, List.getLast_eq_getElem]
  simp

theorem partIsValid_iff_validSpec (chars : List Int) (d : Int) (h : chars ≠ []) :
    dpborder_partIsValid chars d = true ↔ ValidSpec chars d := by
  obtain ⟨a, l, rfl⟩ := List.exists_cons_of_ne_nil h
  have hlast : (a :: l).getLast? = some ((a :: l).getLast (by simp)) :=
    List.getLast?_eq_getLast _ (by simp)
  have hne : (a :: l) ≠ [] := by simp
  unfold dpborder_partIsValid ValidSpec
  rw [getD_last_eq_getLast, hlast]
  simp only [Bool.and_eq_true, Bool.not_eq_true', beq_eq_false_iff_ne, ne_eq,
    List.getD_cons_zero, noAdjacentDelim_iff, noDupNonDelim_iff,
    List.all_eq_true, decide_eq_true_eq, List.head?_cons, Option.some_inj]
  tauto

/-- C10: dpborder_partIsValid does not enforce nonnegativity.  For a nonempty
character list it returns false exactly when the partition has a leading,
trailing or repeated-adjacent delimiter, a character strictly greater than the
delimiter, or a duplicated non-delimiter character; in particular it returns
true on chars = [-2] (size 1) with delimiter 3. -/
theorem C10_partIsValid_no_nonneg_check :
    (∀ (chars : List Int) (d : Int), chars ≠ [] →
      (dpborder_partIsValid chars d = false ↔
        (chars.head? = some d ∨ chars.getLast? = some d ∨
          ¬ List.Chain' (NotBothDelim d) chars ∨
          (∃ x ∈ chars, d < x) ∨ ¬ (chars.filter (· != d)).Nodup))) ∧
    dpborder_partIsValid [-2] 3 = true := by
  constructor
  · intro chars d h
    have hiff := partIsValid_iff_validSpec chars d h
    rw [← Bool.not_eq_true, hiff]
    unfold ValidSpec
    constructor
    · intro hn
      by_contra hcon
      push_neg at hcon
      obtain ⟨h1, h2, h3, h4, h5⟩ := hcon
      exact hn ⟨h, h1, h2, h3, h4, h5⟩
    · rintro hcase ⟨-, h1, h2, h3, h4, h5⟩
      rcases hcase with hc | hc | hc | ⟨x, hx, hlt⟩ | hc
      · exact h1 hc
      · exact h2 hc
      · exact hc h3
      · exact absurd (h4 x hx) (not_le.mpr hlt)
      · exact hc h5
  · decide

/-- Closed witness for C10 at concrete inputs. -/
theorem C10_partIsValid_no_nonneg_check_witness :
    (dpborder_partIsValid [3] 3 = false ↔
      (([3] : List Int).head? = some 3 ∨ ([3] : List Int).getLast? = some 3 ∨
        ¬ List.Chain' (NotBothDelim 3) ([3] : List Int) ∨
        (∃ x ∈ ([3] : List Int), 3 < x) ∨
        ¬ (([3] : List Int).filter (· != 3)).Nodup)) ∧
    dpborder_partIsValid [-2] 3 = true :=
  ⟨C10_partIsValid_no_nonneg_check.1 [3] 3 (by decide),
    C10_partIsValid_no_nonneg_check.2⟩

/-- Inner insertion step of partitionSortSubsets (dpborder_util.c lines 55-66):
insert the current character into the already sorted prefix of its subset. -/
def insertSorted (curr : Int) : List Int → List Int
  | [] => [curr]
  | y :: ys => if curr < y then curr :: y :: ys else y :: insertSorted curr ys

/-- Insertion sort of one subset, processing its entries left to right as the
loop at dpborder_util.c lines 44-70 does. -/
def insertionSortC (l : List Int) : List Int :=
  l.foldl (fun acc x => insertSorted x acc) []

/-- Decomposition of a partition into its delimiter-separated subsets, with
subset boundaries as found by the scan at dpborder_util.c lines 47-51. -/
def splitSubsets (d : Int) : List Int → List (List Int)
  | [] => [[]]
  | c :: rest =>
      if c = d then [] :: splitSubsets d rest
      else
        match splitSubsets d rest with
        | [] => [[c]]
        | s :: ss => (c :: s) :: ss

/-- Inverse of splitSubsets: rejoin the subsets with single delimiters. -/
def joinSubsets (d : Int) : List (List Int) → List Int
  | [] => []
  | [s] => s
  | s :: ss => s ++ d :: joinSubsets d ss

/-- Translation of partitionSortSubsets (dpborder_util.c lines 35-81): each
delimiter-delimited subset is insertion-sorted in place and the delimiters
stay where they are.  The transient sentinel negation at index -1 in the C
code (lines 54, 68) only stops the insertion scan at the subset boundary and
has no observable effect; the spec (section 4.3) explicitly allows a
bounds-checked equivalent. -/
def partitionSortSubsets (delimiter : Int) (partition : List Int) : List Int :=
  joinSubsets delimiter ((splitSubsets delimiter partition).map insertionSortC)

theorem splitSubsets_ne_nil (d : Int) : ∀ l : List Int, splitSubsets d l ≠ []
  | [] => by simp [splitSubsets]
  | c :: rest => by
      unfold splitSubsets
      by_cases hc : c = d
      · simp [hc]
      · simp only [hc, if_false]
        cases splitSubsets d rest <;> simp

theorem joinSubsets_cons (d : Int) (s : List Int) (ss : List (List Int))
    (h : ss ≠ []) : joinSubsets d (s :: ss) = s ++ d :: joinSubsets d ss := by
  cases ss with
  | nil => exact absurd rfl h
  | cons t ts => rfl

theorem joinSubsets_splitSubsets (d : Int) :
    ∀ l : List Int, joinSubsets d (splitSubsets d l) = l
  | [] => by simp [splitSubsets, joinSubsets]
  | c :: rest => by
      have ih := joinSubsets_splitSubsets d rest
      unfold splitSubsets
      by_cases hc : c = d
      · simp only [hc, if_true]
        rw [joinSubsets_cons d _ _ (splitSubsets_ne_nil d rest)]
        simp [ih, hc]
      · simp only [hc, if_false]
        cases hs : splitSubsets d rest with
        | nil => exact absurd hs (splitSubsets_ne_nil d rest)
        | cons s ss =>
            rw [hs] at ih
            cases ss with
            | nil => simpa [joinSubsets] using ih
            | cons t ts =>
                rw [joinSubsets_cons d _ _ (by simp)] at ih ⊢
                simpa using ih

theorem mem_splitSubsets_ne_delim (d : Int) :
    ∀ l : List Int, ∀ s ∈ splitSubsets d l, ∀ x ∈ s, x ≠ d
  | [] => by simp [splitSubsets]
  | c :: rest => by
      have ih := mem_splitSubsets_ne_delim d rest
      unfold splitSubsets
      by_cases hc : c = d
      · simp only [hc, if_true]
        intro s hs
        rcases List.mem_cons.mp hs with hs | hs
        · simp [hs]
        · exact ih s hs
      · simp only [hc, if_false]
        cases hsp : splitSubsets d rest with
        | nil => exact absurd hsp (splitSubsets_ne_nil d rest)
        | cons t ts =>
            intro s hs x hx
            rcases List.mem_cons.mp hs with hs | hs
            · subst hs
              rcases List.mem_cons.mp hx with hx | hx
              · simpa [hx] using hc
              · exact ih t (by simp [hsp]) x hx
            · refine ih s ?_ x hx
              rw [hsp]
              exact List.mem_cons_of_mem t hs

theorem insertSorted_perm (x : Int) :
    ∀ l : List Int, (insertSorted x l).Perm (x :: l)
  | [] => by simp [insertSorted]
  | y :: ys => by
      unfold insertSorted
      by_cases h : x < y
      · simp [h]
      · simp only [h, if_false]
        exact ((insertSorted_perm x ys).cons y).trans (List.Perm.swap x y ys)

theorem insertSorted_sorted (x : Int) :
    ∀ l : List Int, l.Sorted (· ≤ ·) → (insertSorted x l).Sorted (· ≤ ·)
  | [] => by simp [insertSorted]
  | y :: ys => by
      intro hs
      rw [List.sorted_cons] at hs
      unfold insertSorted
      by_cases h : x < y
      · rw [if_pos h, List.sorted_cons]
        refine ⟨?_, List.sorted_cons.mpr hs⟩
        intro b hb
        rcases List.mem_cons.mp hb with hb | hb
        · exact hb ▸ le_of_lt h
        · exact le_trans (le_of_lt h) (hs.1 b hb)
      · rw [if_neg h, List.sorted_cons]
        refine ⟨?_, insertSorted_sorted x ys hs.2⟩
        intro b hb
        rcases List.mem_cons.mp ((insertSorted_perm x ys).mem_iff.mp hb) with hb | hb
        · exact hb ▸ le_of_not_lt h
        · exact hs.1 b hb

theorem sortFold_sorted : ∀ (l acc : List Int), acc.Sorted (· ≤ ·) →
    (l.foldl (fun a x => insertSorted x a) acc).Sorted (· ≤ ·)
  | [], _ => fun h => h
  | x :: l, acc => fun h =>
      sortFold_sorted l (insertSorted x acc) (insertSorted_sorted x acc h)

theorem sortFold_perm : ∀ (l acc : List Int),
    (l.foldl (fun a x => insertSorted x a) acc).Perm (acc ++ l)
  | [], acc => by simp
  | x :: l, acc => by
      have ih := sortFold_perm l (insertSorted x acc)
      refine ih.trans ?_
      refine (((insertSorted_perm x acc).append_right l).trans ?_)
      exact (List.perm_middle).symm.trans (by simp)

theorem insertionSortC_sorted (l : List Int) :
    (insertionSortC l).Sorted (· ≤ ·) :=
  sortFold_sorted l [] (by simp)

theorem insertionSortC_perm (l : List Int) : (insertionSortC l).Perm l := by
  simpa using sortFold_perm l []

theorem insertionSortC_sorted_lt (l : List Int) (h : l.Nodup) :
    (insertionSortC l).Sorted (· < ·) :=
  List.Sorted.lt_of_le (insertionSortC_sorted l) ((insertionSortC_perm l).nodup_iff.mpr h)

theorem splitSubsets_cons_ne (d c : Int) (l : List Int) (hc : c ≠ d)
    (s : List Int) (ss : List (List Int)) (h : splitSubsets d l = s :: ss) :
    splitSubsets d (c :: l) = (c :: s) :: ss := by
  simp only [splitSubsets]
  rw [if_neg hc, h]

theorem splitSubsets_append_delim (d : Int) :
    ∀ s rest : List Int, (∀ x ∈ s, x ≠ d) →
      splitSubsets d (s ++ d :: rest) = s :: splitSubsets d rest
  | [], rest => by
      intro _
      simp [splitSubsets]
  | c :: s, rest => by
      intro h
      have hc : c ≠ d := h c (by simp)
      have ih := splitSubsets_append_delim d s rest (fun x hx => h x (by simp [hx]))
      rw [List.cons_append]
      exact splitSubsets_cons_ne d c _ hc _ _ ih

theorem splitSubsets_dfree (d : Int) :
    ∀ s : List Int, (∀ x ∈ s, x ≠ d) → splitSubsets d s = [s]
  | [] => by intro _; rfl
  | c :: s => by
      intro h
      have hc : c ≠ d := h c (by simp)
      have ih := splitSubsets_dfree d s (fun x hx => h x (by simp [hx]))
      exact splitSubsets_cons_ne d c _ hc _ _ ih

theorem splitSubsets_joinSubsets (d : Int) :
    ∀ ss : List (List Int), ss ≠ [] → (∀ s ∈ ss, ∀ x ∈ s, x ≠ d) →
      splitSubsets d (joinSubsets d ss) = ss
  | [], h => absurd rfl h
  | [s], _ => fun hd => by
      simpa [joinSubsets] using splitSubsets_dfree d s (hd s (by simp))
  | s :: t :: ts, _ => fun hd => by
      rw [joinSubsets_cons d _ _ (by simp)]
      rw [splitSubsets_append_delim d s _ (hd s (by simp))]
      rw [splitSubsets_joinSubsets d (t :: ts) (by simp)
        (fun u hu => hd u (List.mem_cons_of_mem s hu))]

theorem filter_joinSubsets (d : Int) :
    ∀ ss : List (List Int), (∀ s ∈ ss, ∀ x ∈ s, x ≠ d) →
      (joinSubsets d ss).filter (· != d) = ss.flatten
  | [] => by intro _; rfl
  | [s] => by
      intro hd
      show s.filter (· != d) = [s].flatten
      rw [List.filter_eq_self.mpr (fun a ha => by simpa using hd s (by simp) a ha)]
      simp
  | s :: t :: ts => by
      intro hd
      rw [joinSubsets_cons d s (t :: ts) (by simp), List.filter_append]
      rw [List.filter_eq_self.mpr (fun a ha => by simpa using hd s (by simp) a ha)]
      rw [List.filter_cons_of_neg (by simp)]
      rw [filter_joinSubsets d (t :: ts) (fun u hu => hd u (List.mem_cons_of_mem s hu))]
      simp

theorem joinSubsets_perm (d : Int) :
    ∀ ss ts : List (List Int), List.Forall₂ (fun s t => s.Perm t) ss ts →
      (joinSubsets d ss).Perm (joinSubsets d ts)
  | [], [], _ => by simp
  | s :: ss, t :: ts, h => by
      rcases h with - | ⟨hst, hrest⟩
      cases ss with
      | nil =>
          cases ts with
          | nil => simpa [joinSubsets] using hst
          | cons u us => cases hrest
      | cons s' ss' =>
          cases ts with
          | nil => cases hrest
          | cons t' ts' =>
              rw [joinSubsets_cons d s (s' :: ss') (by simp),
                joinSubsets_cons d t (t' :: ts') (by simp)]
              exact hst.append ((joinSubsets_perm d _ _ hrest).cons d)

theorem chain'_of_forall_left {R : Int → Int → Prop} :
    ∀ l : List Int, (∀ a ∈ l, ∀ b, R a b) → List.Chain' R l
  | [] => fun _ => List.chain'_nil
  | [a] => fun _ => List.chain'_singleton a
  | a :: b :: rest => fun h => List.chain'_cons.mpr
      ⟨h a (by simp) b,
        chain'_of_forall_left (b :: rest) (fun x hx => h x (List.mem_cons_of_mem a hx))⟩

/-- Boolean mask recording which positions of a partition hold the delimiter. -/
def delimMask (d : Int) (l : List Int) : List Bool := l.map (fun c => c == d)

theorem delimMask_dfree (d : Int) :
    ∀ s : List Int, (∀ x ∈ s, x ≠ d) → delimMask d s = List.replicate s.length false
  | [] => by intro _; rfl
  | c :: s => by
      intro h
      have hc : c ≠ d := h c (by simp)
      have ih := delimMask_dfree d s (fun x hx => h x (List.mem_cons_of_mem c hx))
      simp [delimMask, List.replicate, hc] at ih ⊢
      exact ih

theorem delimMask_joinSubsets (d : Int) :
    ∀ ss ts : List (List Int), List.Forall₂ (fun s t => s.length = t.length) ss ts →
      (∀ s ∈ ss, ∀ x ∈ s, x ≠ d) → (∀ s ∈ ts, ∀ x ∈ s, x ≠ d) →
      delimMask d (joinSubsets d ss) = delimMask d (joinSubsets d ts)
  | [], [], _ => by intro _ _; rfl
  | s :: ss, t :: ts, h => by
      intro hss hts
      rcases h with - | ⟨hst, hrest⟩
      have hmask : delimMask d s = delimMask d t := by
        rw [delimMask_dfree d s (hss s (by simp)), delimMask_dfree d t (hts t (by simp)),
          hst]
      cases ss with
      | nil =>
          cases ts with
          | nil => simpa [joinSubsets] using hmask
          | cons u us => cases hrest
      | cons s' ss' =>
          cases ts with
          | nil => cases hrest
          | cons t' ts' =>
              rw [joinSubsets_cons d s (s' :: ss') (by simp),
                joinSubsets_cons d t (t' :: ts') (by simp)]
              have ih := delimMask_joinSubsets d (s' :: ss') (t' :: ts') hrest
                (fun u hu => hss u (List.mem_cons_of_mem s hu))
                (fun u hu => hts u (List.mem_cons_of_mem t hu))
              simp only [delimMask, List.map_append, List.map_cons] at hmask ih ⊢
              rw [hmask, ih]

theorem joinSubsets_ne_nil (d : Int) (s : List Int) (ss : List (List Int))
    (hs : s ≠ []) : joinSubsets d (s :: ss) ≠ [] := by
  cases ss with
  | nil => simpa [joinSubsets] using hs
  | cons t ts =>
      rw [joinSubsets_cons d s (t :: ts) (by simp)]
      simp [hs]

theorem joinSubsets_head? (d : Int) (s : List Int) (ss : List (List Int))
    (hs : s ≠ []) : (joinSubsets d (s :: ss)).head? = s.head? := by
  cases ss with
  | nil => rfl
  | cons t ts =>
      rw [joinSubsets_cons d s (t :: ts) (by simp)]
      exact List.head?_append_of_ne_nil s hs

theorem joinSubsets_getLast? (d : Int) :
    ∀ ss : List (List Int), ∀ t, ss.getLast? = some t → t ≠ [] →
      (joinSubsets d ss).getLast? = t.getLast?
  | [], t => by intro h _; cases h
  | [s], t => by
      intro h _
      have hst : s = t := by simpa using h
      subst hst
      rfl
  | s :: t' :: ts, t => by
      intro h ht
      have h' : (t' :: ts).getLast? = some t := by
        rw [← h, List.getLast?_cons_cons]
      have hne : joinSubsets d (t' :: ts) ≠ [] := by
        cases ts with
        | nil =>
            have : t' = t := by simpa using h'
            exact joinSubsets_ne_nil d t' [] (this ▸ ht)
        | cons u us =>
            rw [joinSubsets_cons d t' (u :: us) (by simp)]
            simp
      rw [joinSubsets_cons d s (t' :: ts) (by simp), List.getLast?_append_cons]
      have ih := joinSubsets_getLast? d (t' :: ts) t h' ht
      cases hj : joinSubsets d (t' :: ts) with
      | nil => exact absurd hj hne
      | cons a l =>
          rw [hj] at ih
          rw [← ih, List.getLast?_cons_cons]

theorem chain'_joinSubsets_notBoth (d : Int) :
    ∀ ts : List (List Int), (∀ s ∈ ts, s ≠ []) → (∀ s ∈ ts, ∀ x ∈ s, x ≠ d) →
      List.Chain' (NotBothDelim d) (joinSubsets d ts)
  | [] => fun _ _ => List.chain'_nil
  | [s] => fun _ hd =>
      chain'_of_forall_left s (fun a ha b => fun hab => (hd s (by simp) a ha) hab.1)
  | s :: t :: ts => by
    intro hne hd
    rw [joinSubsets_cons d s (t :: ts) (by simp)]
    rw [List.chain'_append]
    refine ⟨chain'_of_forall_left s
      (fun a ha b => fun hab => (hd s (by simp) a ha) hab.1), ?_, ?_⟩
    · rw [List.chain'_cons']
      constructor
      · intro y hy
        have hhead : (joinSubsets d (t :: ts)).head? = t.head? :=
          joinSubsets_head? d t ts (hne t (by simp))
        rw [hhead] at hy
        have hyt : y ∈ t := List.mem_of_mem_head? hy
        exact fun hab => (hd t (by simp) y hyt) hab.2
      · exact chain'_joinSubsets_notBoth d (t :: ts)
          (fun u hu => hne u (List.mem_cons_of_mem s hu))
          (fun u hu => hd u (List.mem_cons_of_mem s hu))
    · intro x hx y hy
      have hxs : x ∈ s := List.mem_of_mem_getLast? hx
      exact fun hab => (hd s (by simp) x hxs) hab.1

theorem chain'_joinSubsets_strict (d : Int) :
    ∀ ts : List (List Int),
      (∀ s ∈ ts, s.Sorted (· < ·)) →
      List.Chain' (fun a b => a ≠ d → b ≠ d → a < b) (joinSubsets d ts)
  | [] => fun _ => List.chain'_nil
  | [s] => fun hs =>
      ((hs s (by simp)).chain').imp (fun _ _ hab _ _ => hab)
  | s :: t :: ts => by
    intro hs
    rw [joinSubsets_cons d s (t :: ts) (by simp)]
    rw [List.chain'_append]
    refine ⟨((hs s (by simp)).chain').imp (fun _ _ hab _ _ => hab), ?_, ?_⟩
    · rw [List.chain'_cons']
      refine ⟨fun y _ => fun hd' _ => absurd rfl hd', ?_⟩
      exact chain'_joinSubsets_strict d (t :: ts)
        (fun u hu => hs u (List.mem_cons_of_mem s hu))
    · intro x _ y hy
      have : y = d := by
        have h2 : y ∈ (d :: joinSubsets d (t :: ts)).head? := hy
        exact (by simpa using h2 : d = y).symm
      exact fun _ hyd => absurd this hyd

theorem mem_joinSubsets (d : Int) :
    ∀ ts : List (List Int), ∀ x ∈ joinSubsets d ts, x = d ∨ x ∈ ts.flatten
  | [] => by intro x hx; cases hx
  | [s] => by
      intro x hx
      right
      simpa using hx
  | s :: t :: ts => by
      intro x hx
      rw [joinSubsets_cons d s (t :: ts) (by simp)] at hx
      rcases List.mem_append.mp hx with hx | hx
      · right; simp [hx]
      · rcases List.mem_cons.mp hx with hx | hx
        · left; exact hx
        · rcases mem_joinSubsets d (t :: ts) x hx with hx | hx
          · left; exact hx
          · right
            simp only [List.flatten_cons] at hx ⊢
            exact List.mem_append_right s hx

theorem flatten_perm :
    ∀ ss ts : List (List Int), List.Forall₂ (fun s t => s.Perm t) ss ts →
      ss.flatten.Perm ts.flatten
  | [], [], _ => by simp
  | s :: ss, t :: ts, h => by
      rcases h with - | ⟨hst, hrest⟩
      simpa using hst.append (flatten_perm ss ts hrest)

theorem forall₂_perm_map_insertionSortC :
    ∀ ss : List (List Int), List.Forall₂ (fun s t => s.Perm t) ss (ss.map insertionSortC)
  | [] => List.Forall₂.nil
  | s :: ss =>
      List.Forall₂.cons (insertionSortC_perm s).symm (forall₂_perm_map_insertionSortC ss)

theorem joinSubsets_empty_mem (d : Int) :
    ∀ ss : List (List Int), [] ∈ ss →
      joinSubsets d ss = [] ∨ (joinSubsets d ss).head? = some d ∨
        (joinSubsets d ss).getLast? = some d ∨
        ¬ List.Chain' (NotBothDelim d) (joinSubsets d ss)
  | [] => by intro h; cases h
  | [s] => by
      intro h
      have : s = [] := by simpa using (List.mem_singleton.mp h).symm
      subst this
      left; rfl
  | s :: t :: ts => by
      intro h
      rw [joinSubsets_cons d s (t :: ts) (by simp)]
      by_cases hs : s = []
      · subst hs
        right; left
        simp
      · have hmem : [] ∈ t :: ts := by
          rcases List.mem_cons.mp h with h | h
          · exact absurd h.symm hs
          · exact h
        rcases joinSubsets_empty_mem d (t :: ts) hmem with hj | hj | hj | hj
        · right; right; left
          rw [hj]
          simp
        · right; right; right
          intro hch
          have := (List.chain'_append.mp hch).2.1
          rw [List.chain'_cons'] at this
          have h1 := this.1
          cases hhd : (joinSubsets d (t :: ts)).head? with
          | none => rw [hhd] at hj; cases hj
          | some y =>
              rw [hhd] at hj
              have hy : y = d := by simpa using hj
              exact (h1 y (by simp [hhd])) ⟨rfl, hy⟩
        · right; right; left
          have hne : joinSubsets d (t :: ts) ≠ [] := by
            intro hcon
            rw [hcon] at hj
            cases hj
          rw [List.getLast?_append_cons]
          cases hje : joinSubsets d (t :: ts) with
          | nil => exact absurd hje hne
          | cons a l =>
              rw [hje] at hj
              rw [← hj, List.getLast?_cons_cons]
        · right; right; right
          intro hch
          have := (List.chain'_append.mp hch).2.1
          rw [List.chain'_cons'] at this
          exact hj this.2

theorem validSpec_joinSubsets (d : Int) (ts : List (List Int)) (hne : ts ≠ [])
    (hone : ∀ s ∈ ts, s ≠ []) (hd : ∀ s ∈ ts, ∀ x ∈ s, x ≠ d)
    (hnd : ts.flatten.Nodup) (hle : ∀ x ∈ ts.flatten, x ≤ d) :
    ValidSpec (joinSubsets d ts) d := by
  obtain ⟨s, ss, rfl⟩ := List.exists_cons_of_ne_nil hne
  have hs : s ≠ [] := hone s (by simp)
  refine ⟨joinSubsets_ne_nil d s ss hs, ?_, ?_, ?_, ?_, ?_⟩
  · rw [joinSubsets_head? d s ss hs]
    intro hcon
    have hdmem : d ∈ s := List.mem_of_mem_head? hcon
    exact hd s (by simp) d hdmem rfl
  · obtain ⟨t, ht⟩ : ∃ t, (s :: ss).getLast? = some t :=
      ⟨(s :: ss).getLast (by simp), List.getLast?_eq_getLast _ (by simp)⟩
    have htmem : t ∈ s :: ss := List.mem_of_mem_getLast? (Option.mem_def.mpr ht)
    rw [joinSubsets_getLast? d (s :: ss) t ht (hone t htmem)]
    intro hcon
    exact hd t htmem d (List.mem_of_mem_getLast? hcon) rfl
  · exact chain'_joinSubsets_notBoth d (s :: ss) hone hd
  · intro x hx
    rcases mem_joinSubsets d (s :: ss) x hx with hx | hx
    · simp [hx]
    · exact hle x hx
  · rw [filter_joinSubsets d (s :: ss) hd]
    exact hnd

theorem validSpec_split_ne_nil (d : Int) (chars : List Int) (h : ValidSpec chars d) :
    ∀ s ∈ splitSubsets d chars, s ≠ [] := by
  intro s hs hcon
  subst hcon
  rcases joinSubsets_empty_mem d (splitSubsets d chars) hs with hj | hj | hj | hj <;>
    rw [joinSubsets_splitSubsets d chars] at hj
  · exact h.1 hj
  · exact h.2.1 hj
  · exact h.2.2.1 hj
  · exact hj h.2.2.2.1

theorem filter_eq_flatten_split (d : Int) (chars : List Int) :
    chars.filter (· != d) = (splitSubsets d chars).flatten := by
  have := filter_joinSubsets d (splitSubsets d chars) (mem_splitSubsets_ne_delim d chars)
  rwa [joinSubsets_splitSubsets d chars] at this

theorem validSpec_partitionSortSubsets (d : Int) (chars : List Int)
    (h : ValidSpec chars d) : ValidSpec (partitionSortSubsets d chars) d := by
  have hdfree := mem_splitSubsets_ne_delim d chars
  have hone := validSpec_split_ne_nil d chars h
  have hperm := forall₂_perm_map_insertionSortC (splitSubsets d chars)
  have hflat : ((splitSubsets d chars).map insertionSortC).flatten.Perm
      (splitSubsets d chars).flatten := (flatten_perm _ _ hperm).symm
  refine validSpec_joinSubsets d _ (by simp [splitSubsets_ne_nil]) ?_ ?_ ?_ ?_
  · intro t ht
    obtain ⟨s, hsmem, rfl⟩ := List.mem_map.mp ht
    intro hcon
    have hsp := insertionSortC_perm s
    rw [hcon] at hsp
    exact hone s hsmem hsp.symm.eq_nil
  · intro t ht x hx
    obtain ⟨s, hsmem, rfl⟩ := List.mem_map.mp ht
    exact hdfree s hsmem x ((insertionSortC_perm s).mem_iff.mp hx)
  · rw [hflat.nodup_iff]
    rw [← filter_eq_flatten_split d chars]
    exact h.2.2.2.2.2
  · intro x hx
    have hx' : x ∈ (splitSubsets d chars).flatten := hflat.mem_iff.mp hx
    rw [← filter_eq_flatten_split d chars] at hx'
    exact h.2.2.2.2.1 x (List.mem_of_mem_filter hx')

theorem nodup_of_mem_split (d : Int) (chars : List Int) (h : ValidSpec chars d)
    (s : List Int) (hs : s ∈ splitSubsets d chars) : s.Nodup := by
  have hnd : (splitSubsets d chars).flatten.Nodup := by
    rw [← filter_eq_flatten_split d chars]
    exact h.2.2.2.2.2
  exact hnd.sublist (List.sublist_flatten_of_mem hs)

theorem forall₂_map_insertionSortC_perm :
    ∀ ss : List (List Int), List.Forall₂ (fun s t => s.Perm t) (ss.map insertionSortC) ss
  | [] => List.Forall₂.nil
  | s :: ss =>
      List.Forall₂.cons (insertionSortC_perm s) (forall₂_map_insertionSortC_perm ss)

theorem splitSubsets_partitionSortSubsets (d : Int) (chars : List Int) :
    splitSubsets d (partitionSortSubsets d chars) =
      (splitSubsets d chars).map insertionSortC := by
  unfold partitionSortSubsets
  refine splitSubsets_joinSubsets d _ (by simp [splitSubsets_ne_nil]) ?_
  intro t ht x hx
  obtain ⟨s, hsmem, rfl⟩ := List.mem_map.mp ht
  exact mem_splitSubsets_ne_delim d chars s hsmem x ((insertionSortC_perm s).mem_iff.mp hx)

/-- C3: canonical sort.  On every valid partition, partitionSortSubsets keeps
every delimiter position fixed, permutes characters only within each
delimiter-delimited subset (leaving the inter-subset order unchanged), makes
every pair of consecutive non-delimiter positions strictly increasing, and on
input [3, 1, 2, D, 5, 4] with delimiter D = 6 it yields [1, 2, 3, D, 4, 5]. -/
theorem C3_partitionSortSubsets_canonical :
    (∀ (chars : List Int) (d : Int), chars ≠ [] →
      dpborder_partIsValid chars d = true →
      (delimMask d (partitionSortSubsets d chars) = delimMask d chars ∧
        splitSubsets d (partitionSortSubsets d chars) =
          (splitSubsets d chars).map insertionSortC ∧
        List.Forall₂ (fun s t => s.Perm t)
          (splitSubsets d (partitionSortSubsets d chars)) (splitSubsets d chars) ∧
        List.Chain' (fun a b => a ≠ d → b ≠ d → a < b)
          (partitionSortSubsets d chars))) ∧
    partitionSortSubsets 6 [3, 1, 2, 6, 5, 4] = [1, 2, 3, 6, 4, 5] := by
  constructor
  · intro chars d hne hval
    have h := (partIsValid_iff_validSpec chars d hne).mp hval
    have hdfree := mem_splitSubsets_ne_delim d chars
    refine ⟨?_, splitSubsets_partitionSortSubsets d chars, ?_, ?_⟩
    · unfold partitionSortSubsets
      have hmask := delimMask_joinSubsets d ((splitSubsets d chars).map insertionSortC)
        (splitSubsets d chars)
        (((forall₂_map_insertionSortC_perm (splitSubsets d chars)).imp
          (fun _ _ hp => hp.length_eq)))
        (fun t ht x hx => by
          obtain ⟨s, hsmem, rfl⟩ := List.mem_map.mp ht
          exact hdfree s hsmem x ((insertionSortC_perm s).mem_iff.mp hx))
        hdfree
      rw [hmask, joinSubsets_splitSubsets d chars]
    · rw [splitSubsets_partitionSortSubsets d chars]
      exact forall₂_map_insertionSortC_perm (splitSubsets d chars)
    · unfold partitionSortSubsets
      refine chain'_joinSubsets_strict d _ ?_
      intro t ht
      obtain ⟨s, hsmem, rfl⟩ := List.mem_map.mp ht
      exact insertionSortC_sorted_lt s (nodup_of_mem_split d chars h s hsmem)
  · decide

/-- Closed witness for C3 at the concrete scenario input. -/
theorem C3_partitionSortSubsets_canonical_witness :
    delimMask 6 (partitionSortSubsets 6 [3, 1, 2, 6, 5, 4]) =
        delimMask 6 [3, 1, 2, 6, 5, 4] ∧
      splitSubsets 6 (partitionSortSubsets 6 [3, 1, 2, 6, 5, 4]) =
        (splitSubsets 6 [3, 1, 2, 6, 5, 4]).map insertionSortC ∧
      List.Forall₂ (fun s t => s.Perm t)
        (splitSubsets 6 (partitionSortSubsets 6 [3, 1, 2, 6, 5, 4]))
        (splitSubsets 6 [3, 1, 2, 6, 5, 4]) ∧
      List.Chain' (fun a b => a ≠ 6 → b ≠ 6 → a < b)
        (partitionSortSubsets 6 [3, 1, 2, 6, 5, 4]) :=
  C3_partitionSortSubsets_canonical.1 [3, 1, 2, 6, 5, 4] 6 (by decide) (by decide)

/-- Characters of the subset beginning at position s: the scan from s up to
the next delimiter, as in the inner loops of dpborder_util.c (lines 213-217,
273-283, 330-340). -/
def subsetAt (chars : List Int) (d : Int) (s : Nat) : List Int :=
  (chars.drop s).takeWhile (fun c => c != d)

/-- Downward scan of dpborder_partGetCandstarts (lines 202-206) locating the
last delimiter at or below position i (index 0 is never inspected). -/
def startposLoop (chars : List Int) (d : Int) : Nat → Nat
  | 0 => 0
  | i + 1 => if chars.getD (i + 1) 0 = d then i + 1 else startposLoop chars d i

/-- Start of the subset containing position i (lines 201-209): scan left to
the previous delimiter, then step right past it if one was found. -/
def findStartPos (chars : List Int) (d : Int) (i : Nat) : Nat :=
  if chars.getD (startposLoop chars d i) 0 = d then startposLoop chars d i + 1
  else startposLoop chars d i

/-- Position of the next delimiter at or after i (the skip loop at lines
213-217 of dpborder_partGetCandstarts). -/
def skipSubset (chars : List Int) (d : Int) (i : Nat) : Nat :=
  i + ((chars.drop i).takeWhile (fun c => c != d)).length

/-- Main scan of dpborder_partGetCandstarts (lines 191-219): walk the
characters left to right; on a non-delimiter character whose border distance
is below FARAWAY, record the start of its subset and jump behind the next
delimiter. -/
def candLoop (chars : List Int) (d : Int) (dists : Int → ℚ) (i : Nat) : List Nat :=
  if _h : i < chars.length then
    if chars.getD i 0 = d then candLoop chars d dists (i + 1)
    else if dists (chars.getD i 0) < FARAWAY then
      findStartPos chars d i :: candLoop chars d dists (skipSubset chars d i + 1)
    else candLoop chars d dists (i + 1)
  else []
termination_by chars.length - i
decreasing_by
  · omega
  · have : i ≤ skipSubset chars d i := Nat.le_add_right ..
    omega
  · omega

/-- Translation of dpborder_partGetCandstarts (dpborder_util.c lines 177-222). -/
def dpborder_partGetCandstarts (chars : List Int) (d : Int) (dists : Int → ℚ) :
    List Nat :=
  candLoop chars d dists 0

/-- Position p is the start of a subset: in range, holding a non-delimiter
character, and either position 0 or directly behind a delimiter. -/
def isSubsetStart (chars : List Int) (d : Int) (p : Nat) : Prop :=
  p < chars.length ∧ chars.getD p 0 ≠ d ∧ (p = 0 ∨ chars.getD (p - 1) 0 = d)

instance (chars : List Int) (d : Int) (p : Nat) : Decidable (isSubsetStart chars d p) := by
  unfold isSubsetStart
  infer_instance

/-- Specification of the candidate-starts enumeration, following the spec
text: the subset starts, in left-to-right order, of exactly those subsets
containing at least one character with border distance below FARAWAY. -/
def candStartsSpec (chars : List Int) (d : Int) (dists : Int → ℚ) : List Nat :=
  (List.range chars.length).filter
    (fun p => decide (isSubsetStart chars d p) &&
      (subsetAt chars d p).any (fun c => decide (dists c < FARAWAY)))

theorem getD_eq_getElem (l : List Int) (j : Nat) (h : j < l.length) :
    l.getD j 0 = l[j] := by
  rw [List.getD_eq_getElem?_getD, List.getElem?_eq_getElem h]
  rfl

theorem skipSubset_le_length (chars : List Int) (d : Int) (s : Nat)
    (hs : s ≤ chars.length) : skipSubset chars d s ≤ chars.length := by
  unfold skipSubset
  have h1 : ((chars.drop s).takeWhile (fun c => c != d)).length ≤ (chars.drop s).length :=
    (List.takeWhile_prefix _).sublist.length_le
  rw [List.length_drop] at h1
  omega

theorem skipSubset_mid (chars : List Int) (d : Int) (s j : Nat) (h1 : s ≤ j)
    (h2 : j < skipSubset chars d s) : j < chars.length ∧ chars.getD j 0 ≠ d := by
  unfold skipSubset at h2
  have hlen : ((chars.drop s).takeWhile (fun c => c != d)).length ≤ (chars.drop s).length :=
    (List.takeWhile_prefix _).sublist.length_le
  rw [List.length_drop] at hlen
  have hjlen : j < chars.length := by omega
  refine ⟨hjlen, ?_⟩
  have hjs : j - s < ((chars.drop s).takeWhile (fun c => c != d)).length := by omega
  have hjd : j - s < (chars.drop s).length := by rw [List.length_drop]; omega
  have he1 : ((chars.drop s).takeWhile (fun c => c != d))[j - s] = (chars.drop s)[j - s] :=
    List.IsPrefix.getElem (List.takeWhile_prefix _) hjs
  have hb1 : s + (j - s) < chars.length := by omega
  have he2 : (chars.drop s)[j - s] = chars[s + (j - s)] :=
    List.getElem_drop ..
  have hp := List.mem_takeWhile_imp (List.getElem_mem hjs)
  rw [he1, he2] at hp
  have hsj : s + (j - s) = j := by omega
  rw [getD_eq_getElem chars j hjlen]
  simp only [bne_iff_ne, ne_eq, decide_eq_true_eq] at hp
  intro hcon
  apply hp
  have hidx : chars[s + (j - s)] = chars[j] := by
    congr 1
  rw [hidx, hcon]

theorem takeWhile_stop (p : Int → Bool) :
    ∀ l : List Int, (l.takeWhile p).length < l.length →
      p (l.getD (l.takeWhile p).length 0) = false
  | [] => by simp
  | c :: l => by
      intro h
      by_cases hc : p c = true
      · rw [List.takeWhile_cons_of_pos hc] at h ⊢
        simp only [List.length_cons] at h ⊢
        have := takeWhile_stop p l (by omega)
        simpa using this
      · rw [List.takeWhile_cons_of_neg (by simpa using hc)] at h ⊢
        simpa using hc

theorem skipSubset_stop (chars : List Int) (d : Int) (s : Nat)
    (h : skipSubset chars d s < chars.length) :
    chars.getD (skipSubset chars d s) 0 = d := by
  have hs : s ≤ chars.length := by
    by_contra hcon
    push_neg at hcon
    have : chars.drop s = [] := List.drop_eq_nil_of_le (le_of_lt hcon)
    unfold skipSubset at h
    rw [this] at h
    simp at h
    omega
  unfold skipSubset at h ⊢
  set tw := (chars.drop s).takeWhile (fun c => c != d) with htw
  have hlt : tw.length < (chars.drop s).length := by
    rw [List.length_drop]
    omega
  have hstop := takeWhile_stop (fun c => c != d) (chars.drop s) hlt
  rw [← htw] at hstop
  have hgd : (chars.drop s).getD tw.length 0 = chars.getD (s + tw.length) 0 := by
    rw [getD_eq_getElem _ _ hlt, getD_eq_getElem _ _ (by omega)]
    exact List.getElem_drop ..
  rw [hgd] at hstop
  simpa using hstop

theorem skipSubset_succ (chars : List Int) (d : Int) (j : Nat) (hj : j < chars.length)
    (hne : chars.getD j 0 ≠ d) : skipSubset chars d j = skipSubset chars d (j + 1) := by
  unfold skipSubset
  rw [List.drop_eq_getElem_cons hj]
  rw [List.takeWhile_cons_of_pos (by simpa using (getD_eq_getElem chars j hj ▸ hne))]
  simp only [List.length_cons]
  omega

theorem skipSubset_eq_mid (chars : List Int) (d : Int) (s : Nat) :
    ∀ j, s ≤ j → j < skipSubset chars d s →
      skipSubset chars d j = skipSubset chars d s := by
  intro j
  induction j with
  | zero =>
      intro h1 _
      have : s = 0 := by omega
      rw [this]
  | succ j ih =>
      intro h1 h2
      by_cases hsj : s = j + 1
      · rw [hsj]
      · have hs : s ≤ j := by omega
        have hj2 : j < skipSubset chars d s := by omega
        have heq := ih hs hj2
        obtain ⟨hjl, hjd⟩ := skipSubset_mid chars d s j hs hj2
        rw [← heq]
        exact (skipSubset_succ chars d j hjl hjd).symm

theorem findStartPos_start (chars : List Int) (d : Int) (s : Nat)
    (h : isSubsetStart chars d s) : findStartPos chars d s = s := by
  obtain ⟨hlen, hne, hstart⟩ := h
  cases s with
  | zero =>
      unfold findStartPos startposLoop
      rw [if_neg hne]
  | succ k =>
      have hkd : chars.getD k 0 = d := by
        rcases hstart with h0 | h0
        · cases h0
        · simpa using h0
      have hsl : startposLoop chars d (k + 1) = startposLoop chars d k := by
        simp only [startposLoop]
        rw [if_neg hne]
      have hk : startposLoop chars d k = k := by
        cases k with
        | zero => rfl
        | succ m =>
            simp only [startposLoop]
            rw [if_pos hkd]
      unfold findStartPos
      rw [hsl, hk, if_pos hkd]

theorem findStartPos_succ (chars : List Int) (d : Int) (j : Nat)
    (hne : chars.getD (j + 1) 0 ≠ d) :
    findStartPos chars d (j + 1) = findStartPos chars d j := by
  unfold findStartPos
  have hsl : startposLoop chars d (j + 1) = startposLoop chars d j := by
    simp only [startposLoop]
    rw [if_neg hne]
  rw [hsl]

theorem findStartPos_mid (chars : List Int) (d : Int) (s : Nat)
    (hstart : isSubsetStart chars d s) :
    ∀ j, s ≤ j → j < skipSubset chars d s → findStartPos chars d j = s := by
  intro j
  induction j with
  | zero =>
      intro h1 _
      have h0 : s = 0 := by omega
      subst h0
      exact findStartPos_start chars d 0 hstart
  | succ j ih =>
      intro h1 h2
      by_cases hsj : s = j + 1
      · subst hsj
        exact findStartPos_start chars d (j + 1) hstart
      · have hs : s ≤ j := by omega
        have hd1 := (skipSubset_mid chars d s (j + 1) (by omega) h2).2
        rw [findStartPos_succ chars d j hd1]
        exact ih hs (by omega)

theorem skipSubset_gt_start (chars : List Int) (d : Int) (s : Nat)
    (h : isSubsetStart chars d s) : s < skipSubset chars d s := by
  obtain ⟨hlen, hne, -⟩ := h
  unfold skipSubset
  rw [List.drop_eq_getElem_cons hlen]
  rw [List.takeWhile_cons_of_pos (by simpa using (getD_eq_getElem chars s hlen ▸ hne))]
  simp

theorem any_subsetAt_iff (chars : List Int) (d : Int) (dists : Int → ℚ) (s : Nat) :
    ((subsetAt chars d s).any (fun c => decide (dists c < FARAWAY)) = true) ↔
      ∃ k, s ≤ k ∧ k < skipSubset chars d s ∧ dists (chars.getD k 0) < FARAWAY := by
  rw [List.any_eq_true]
  unfold subsetAt
  constructor
  · rintro ⟨c, hc, hcp⟩
    obtain ⟨m, hm, rfl⟩ := List.mem_iff_getElem.mp hc
    refine ⟨s + m, by omega, ?_, ?_⟩
    · unfold skipSubset
      omega
    · have hmd : m < (chars.drop s).length :=
        lt_of_lt_of_le hm (List.takeWhile_prefix _).sublist.length_le
      have he1 : ((chars.drop s).takeWhile (fun c => c != d))[m] = (chars.drop s)[m] :=
        List.IsPrefix.getElem (List.takeWhile_prefix _) hm
      have hb1 : s + m < chars.length := by
        have := List.length_drop s chars
        omega
      have he2 : (chars.drop s)[m] = chars[s + m] := List.getElem_drop ..
      rw [getD_eq_getElem chars (s + m) hb1]
      rw [← he2, ← he1]
      simpa using hcp
  · rintro ⟨k, hk1, hk2, hk3⟩
    have hm : k - s < ((chars.drop s).takeWhile (fun c => c != d)).length := by
      unfold skipSubset at hk2
      omega
    refine ⟨((chars.drop s).takeWhile (fun c => c != d))[k - s], List.getElem_mem hm, ?_⟩
    have hklen : k < chars.length := (skipSubset_mid chars d s k hk1 hk2).1
    have hmd : k - s < (chars.drop s).length := by
      rw [List.length_drop]
      omega
    have he1 : ((chars.drop s).takeWhile (fun c => c != d))[k - s] = (chars.drop s)[k - s] :=
      List.IsPrefix.getElem (List.takeWhile_prefix _) hm
    have hb1 : s + (k - s) < chars.length := by omega
    have he2 : (chars.drop s)[k - s] = chars[s + (k - s)] :=
      List.getElem_drop ..
    have hidx : chars[s + (k - s)] = chars[k] := by
      congr 1
      omega
    rw [he1, he2, hidx]
    rw [getD_eq_getElem chars k hklen] at hk3
    simpa using hk3

theorem candLoop_stop (chars : List Int) (d : Int) (dists : Int → ℚ) (i : Nat)
    (h : chars.length ≤ i) : candLoop chars d dists i = [] := by
  rw [candLoop]
  rw [dif_neg (by omega)]

theorem subsetAt_cons (chars : List Int) (d : Int) (j : Nat) (hj : j < chars.length)
    (hne : chars.getD j 0 ≠ d) :
    subsetAt chars d j = chars.getD j 0 :: subsetAt chars d (j + 1) := by
  unfold subsetAt
  rw [List.drop_eq_getElem_cons hj]
  rw [List.takeWhile_cons_of_pos (by simpa using (getD_eq_getElem chars j hj ▸ hne))]
  rw [getD_eq_getElem chars j hj]

theorem subsetAt_nil_of_delim (chars : List Int) (d : Int) (j : Nat)
    (h : chars.length ≤ j ∨ chars.getD j 0 = d) : subsetAt chars d j = [] := by
  unfold subsetAt
  rcases h with h | h
  · rw [List.drop_eq_nil_of_le h]
    rfl
  · by_cases hj : j < chars.length
    · rw [List.drop_eq_getElem_cons hj]
      rw [List.takeWhile_cons_of_neg]
      rw [getD_eq_getElem chars j hj] at h
      simpa using h
    · rw [List.drop_eq_nil_of_le (by omega)]
      rfl

theorem candLoop_subset (chars : List Int) (d : Int) (dists : Int → ℚ) (s : Nat)
    (hstart : isSubsetStart chars d s) :
    ∀ n j, skipSubset chars d s - j = n → s ≤ j → j ≤ skipSubset chars d s →
      candLoop chars d dists j =
        (if (subsetAt chars d j).any (fun c => decide (dists c < FARAWAY)) = true
          then [s] else []) ++ candLoop chars d dists (skipSubset chars d s + 1) := by
  have hskiplen := skipSubset_le_length chars d s (le_of_lt hstart.1)
  intro n
  induction n with
  | zero =>
      intro j hn h1 h2
      have hj : j = skipSubset chars d s := by omega
      have hempty : subsetAt chars d j = [] := by
        by_cases hlt : j < chars.length
        · exact subsetAt_nil_of_delim chars d j (Or.inr (hj ▸ skipSubset_stop chars d s (hj ▸ hlt)))
        · exact subsetAt_nil_of_delim chars d j (Or.inl (by omega))
      rw [hempty]
      rw [if_neg (by simp)]
      rw [List.nil_append, hj]
      by_cases hlt : skipSubset chars d s < chars.length
      · rw [candLoop]
        rw [dif_pos hlt, if_pos (skipSubset_stop chars d s hlt)]
      · rw [candLoop_stop chars d dists _ (by omega),
          candLoop_stop chars d dists _ (by omega)]
  | succ n ih =>
      intro j hn h1 h2
      have hj : j < skipSubset chars d s := by omega
      obtain ⟨hjlen, hjd⟩ := skipSubset_mid chars d s j h1 hj
      rw [candLoop]
      rw [dif_pos hjlen, if_neg hjd]
      rw [subsetAt_cons chars d j hjlen hjd]
      by_cases hcon : dists (chars.getD j 0) < FARAWAY
      · rw [if_pos hcon]
        rw [findStartPos_mid chars d s hstart j h1 hj]
        rw [skipSubset_eq_mid chars d s j h1 hj]
        rw [if_pos (by
          simp only [List.any_cons, Bool.or_eq_true, decide_eq_true_eq]
          exact Or.inl hcon)]
        rfl
      · rw [if_neg hcon]
        rw [ih (j + 1) (by omega) (by omega) (by omega)]
        have hfalse : (decide (dists (chars.getD j 0) < FARAWAY)) = false := by
          simpa using hcon
        have hany : ((chars.getD j 0 :: subsetAt chars d (j + 1)).any
            (fun c => decide (dists c < FARAWAY))) =
            ((subsetAt chars d (j + 1)).any (fun c => decide (dists c < FARAWAY))) := by
          simp only [List.any_cons, hfalse, Bool.false_or]
        rw [hany]

/-- Tail of the candidate-start specification from position i onward. -/
def candSpecFrom (chars : List Int) (d : Int) (dists : Int → ℚ) (i : Nat) : List Nat :=
  (List.range' i (chars.length - i)).filter
    (fun p => decide (isSubsetStart chars d p) &&
      (subsetAt chars d p).any (fun c => decide (dists c < FARAWAY)))

theorem candSpecFrom_zero (chars : List Int) (d : Int) (dists : Int → ℚ) :
    candStartsSpec chars d dists = candSpecFrom chars d dists 0 := by
  unfold candStartsSpec candSpecFrom
  rw [List.range_eq_range']
  rfl

theorem candSpecFrom_stop (chars : List Int) (d : Int) (dists : Int → ℚ) (i : Nat)
    (h : chars.length ≤ i) : candSpecFrom chars d dists i = [] := by
  unfold candSpecFrom
  rw [Nat.sub_eq_zero_of_le h]
  rfl

theorem candSpecFrom_step (chars : List Int) (d : Int) (dists : Int → ℚ) (i : Nat)
    (h : i < chars.length) :
    candSpecFrom chars d dists i =
      (if (decide (isSubsetStart chars d i) &&
            (subsetAt chars d i).any (fun c => decide (dists c < FARAWAY))) = true
        then [i] else []) ++ candSpecFrom chars d dists (i + 1) := by
  unfold candSpecFrom
  have hlen : chars.length - i = (chars.length - (i + 1)) + 1 := by omega
  rw [hlen, List.range'_succ]
  rw [List.filter_cons]
  by_cases hp : (decide (isSubsetStart chars d i) &&
      (subsetAt chars d i).any (fun c => decide (dists c < FARAWAY))) = true
  · rw [if_pos hp, if_pos hp]
    rfl
  · rw [if_neg hp, if_neg hp]
    rfl

theorem candSpecFrom_subset (chars : List Int) (d : Int) (dists : Int → ℚ) (s : Nat)
    (hstart : isSubsetStart chars d s) :
    candSpecFrom chars d dists s =
      (if (subsetAt chars d s).any (fun c => decide (dists c < FARAWAY)) = true
        then [s] else []) ++ candSpecFrom chars d dists (skipSubset chars d s + 1) := by
  have hskiplen := skipSubset_le_length chars d s (le_of_lt hstart.1)
  have haux : ∀ n j, skipSubset chars d s - j = n → s < j → j ≤ skipSubset chars d s →
      candSpecFrom chars d dists j =
        candSpecFrom chars d dists (skipSubset chars d s + 1) := by
    intro n
    induction n with
    | zero =>
        intro j hn h1 h2
        have hj : j = skipSubset chars d s := by omega
        rw [hj]
        by_cases hlt : skipSubset chars d s < chars.length
        · rw [candSpecFrom_step chars d dists _ hlt]
          rw [if_neg ?_, List.nil_append]
          · simp only [Bool.and_eq_true, decide_eq_true_eq]
            rintro ⟨⟨-, hne, -⟩, -⟩
            exact hne (skipSubset_stop chars d s hlt)
        · rw [candSpecFrom_stop chars d dists _ (by omega),
            candSpecFrom_stop chars d dists _ (by omega)]
    | succ n ih =>
        intro j hn h1 h2
        have hj : j < skipSubset chars d s := by omega
        obtain ⟨hjlen, -⟩ := skipSubset_mid chars d s j (by omega) hj
        rw [candSpecFrom_step chars d dists j hjlen]
        rw [if_neg ?_, List.nil_append]
        · exact ih (j + 1) (by omega) (by omega) (by omega)
        · simp only [Bool.and_eq_true, decide_eq_true_eq]
          rintro ⟨⟨-, -, hj0⟩, -⟩
          rcases hj0 with hj0 | hj0
          · omega
          · have := (skipSubset_mid chars d s (j - 1) (by omega) (by omega)).2
            exact this hj0
  rw [candSpecFrom_step chars d dists s hstart.1]
  have hnext : candSpecFrom chars d dists (s + 1) =
      candSpecFrom chars d dists (skipSubset chars d s + 1) := by
    have hgt := skipSubset_gt_start chars d s hstart
    exact haux (skipSubset chars d s - (s + 1)) (s + 1) rfl (by omega) (by omega)
  rw [hnext]
  by_cases hc : (subsetAt chars d s).any (fun c => decide (dists c < FARAWAY)) = true
  · rw [if_pos (by simp [hc, hstart]), if_pos hc]
  · rw [if_neg (by simp [hc]), if_neg hc]

theorem validSpec_getD_last_ne (chars : List Int) (d : Int) (h : ValidSpec chars d) :
    chars.getD (chars.length - 1) 0 ≠ d := by
  obtain ⟨a, l, rfl⟩ := List.exists_cons_of_ne_nil h.1
  rw [getD_last_eq_getLast]
  intro hcon
  exact h.2.2.1 (by rw [List.getLast?_eq_getLast _ (by simp), hcon])

theorem validSpec_no_adjacent (chars : List Int) (d : Int) (h : ValidSpec chars d)
    (i : Nat) (hi : i + 1 < chars.length) :
    ¬(chars.getD i 0 = d ∧ chars.getD (i + 1) 0 = d) := by
  have hch := h.2.2.2.1
  rw [List.chain'_iff_get] at hch
  have := hch i (by omega)
  rw [List.get_eq_getElem, List.get_eq_getElem] at this
  rw [getD_eq_getElem chars i (by omega), getD_eq_getElem chars (i + 1) hi]
  exact this

theorem next_subsetStart (chars : List Int) (d : Int) (h : ValidSpec chars d) (s : Nat)
    (hs : isSubsetStart chars d s) :
    chars.length ≤ skipSubset chars d s + 1 ∨
      isSubsetStart chars d (skipSubset chars d s + 1) := by
  by_cases hlt : skipSubset chars d s < chars.length
  · right
    have hde : chars.getD (skipSubset chars d s) 0 = d := skipSubset_stop chars d s hlt
    have he1 : skipSubset chars d s + 1 < chars.length := by
      rcases Nat.lt_or_ge (skipSubset chars d s + 1) chars.length with h1 | h1
      · exact h1
      · exfalso
        have : skipSubset chars d s = chars.length - 1 := by omega
        exact validSpec_getD_last_ne chars d h (this ▸ hde)
    refine ⟨he1, ?_, Or.inr (by simpa using hde)⟩
    intro hcon
    exact validSpec_no_adjacent chars d h (skipSubset chars d s) he1 ⟨hde, hcon⟩
  · left
    omega

theorem candLoop_eq_spec_aux (chars : List Int) (d : Int) (dists : Int → ℚ)
    (h : ValidSpec chars d) :
    ∀ n s, chars.length - s ≤ n →
      (isSubsetStart chars d s ∨ chars.length ≤ s) →
      candLoop chars d dists s = candSpecFrom chars d dists s := by
  intro n
  induction n with
  | zero =>
      intro s hn _
      have hls : chars.length ≤ s := by omega
      rw [candLoop_stop chars d dists s hls, candSpecFrom_stop chars d dists s hls]
  | succ n ih =>
      intro s hn hs0
      rcases hs0 with hs | hs
      · have hgt := skipSubset_gt_start chars d s hs
        rw [candLoop_subset chars d dists s hs (skipSubset chars d s - s) s rfl
          (le_refl s) (le_of_lt hgt)]
        rw [candSpecFrom_subset chars d dists s hs]
        congr 1
        exact ih (skipSubset chars d s + 1) (by omega)
          (next_subsetStart chars d h s hs).symm
      · rw [candLoop_stop chars d dists s hs, candSpecFrom_stop chars d dists s hs]

/-- C6: dpborder_partGetCandstarts returns exactly the left-to-right list of
start positions of those subsets containing a character with border distance
below FARAWAY; a start position is the first position of its subset (position
0 or the position just behind the preceding delimiter), each qualifying
subset contributes exactly one entry, and subsets without a connectable
character contribute none. -/
theorem C6_partGetCandstarts_exact :
    ∀ (chars : List Int) (d : Int) (dists : Int → ℚ), chars ≠ [] →
      dpborder_partIsValid chars d = true →
      dpborder_partGetCandstarts chars d dists = candStartsSpec chars d dists := by
  intro chars d dists hne hval
  have h := (partIsValid_iff_validSpec chars d hne).mp hval
  rw [candSpecFrom_zero]
  apply candLoop_eq_spec_aux chars d dists h chars.length 0 (by omega)
  left
  refine ⟨?_, ?_, Or.inl rfl⟩
  · cases chars with
    | nil => exact absurd rfl hne
    | cons a l => simp
  · obtain ⟨a, l, rfl⟩ := List.exists_cons_of_ne_nil hne
    intro hcon
    exact h.2.1 (by simpa using hcon)

/-- Closed witness for C6 at a concrete input. -/
theorem C6_partGetCandstarts_exact_witness :
    dpborder_partGetCandstarts [0, 2, 3, 1] 3
        (fun c => if c = 0 then 1 else FARAWAY) =
      candStartsSpec [0, 2, 3, 1] 3 (fun c => if c = 0 then 1 else FARAWAY) :=
  C6_partGetCandstarts_exact [0, 2, 3, 1] 3 _ (by decide) (by decide)

/-- Inner loop of dpborder_partGetConnectionCost (dpborder_util.c lines
269-283): running minimum of the border distances over the subset starting at
the candidate start, initialized with FARAWAY. -/
def subsetMinDist (dists : Int → ℚ) (chars : List Int) (dprev : Int) (s : Nat) : ℚ :=
  (subsetAt chars dprev s).foldl (fun m c => if dists c < m then dists c else m) FARAWAY

/-- Outer loop of dpborder_partGetConnectionCost (lines 267-289): accumulate
the per-subset minima, breaking once the running sum reaches FARAWAY. -/
def connCostLoop (dists : Int → ℚ) (chars : List Int) (dprev : Int) :
    List Nat → ℚ → ℚ
  | [], costsum => costsum
  | s :: rest, costsum =>
      if FARAWAY ≤ costsum + subsetMinDist dists chars dprev s then
        costsum + subsetMinDist dists chars dprev s
      else connCostLoop dists chars dprev rest (costsum + subsetMinDist dists chars dprev s)

/-- Translation of dpborder_partGetConnectionCost (dpborder_util.c lines
252-293). -/
def dpborder_partGetConnectionCost (dists : Int → ℚ) (chars : List Int)
    (dprev : Int) (candstarts_sub : List Nat) : ℚ :=
  connCostLoop dists chars dprev candstarts_sub 0

/-- Minimum of a list of rationals, FARAWAY for the empty list. -/
def minimumD : List ℚ → ℚ
  | [] => FARAWAY
  | x :: xs => xs.foldl min x

/-- Summation with early exit of the spec: add the values in order and stop
as soon as the running sum reaches the infinity sentinel. -/
def sumStopFaraway : List ℚ → ℚ → ℚ
  | [], acc => acc
  | m :: rest, acc =>
      if FARAWAY ≤ acc + m then acc + m else sumStopFaraway rest (acc + m)

/-- Specification of the connection cost, following the spec text: for each
chosen start in order take the minimum of the border distances over the
characters of its subset, and sum these minima with early exit at FARAWAY. -/
def connCostSpec (dists : Int → ℚ) (chars : List Int) (dprev : Int)
    (starts : List Nat) : ℚ :=
  sumStopFaraway
    (starts.map (fun s => minimumD ((subsetAt chars dprev s).map dists))) 0

theorem foldl_if_min (dists : Int → ℚ) :
    ∀ (l : List Int) (m : ℚ),
      l.foldl (fun m c => if dists c < m then dists c else m) m =
        (l.map dists).foldl min m
  | [], m => rfl
  | c :: l, m => by
      rw [List.foldl_cons, List.map_cons, List.foldl_cons]
      rw [foldl_if_min dists l]
      congr 1
      by_cases hc : dists c < m
      · rw [if_pos hc, min_eq_right (le_of_lt hc)]
      · rw [if_neg hc, min_eq_left (le_of_not_lt hc)]

theorem subsetMinDist_eq_minimumD (dists : Int → ℚ) (chars : List Int)
    (dprev : Int) (s : Nat) (hs : isSubsetStart chars dprev s)
    (hb : ∀ c, dists c ≤ FARAWAY) :
    subsetMinDist dists chars dprev s =
      minimumD ((subsetAt chars dprev s).map dists) := by
  unfold subsetMinDist
  rw [foldl_if_min]
  rw [subsetAt_cons chars dprev s hs.1 hs.2.1]
  rw [List.map_cons]
  unfold minimumD
  rw [List.foldl_cons]
  rw [min_eq_right (hb (chars.getD s 0))]

theorem connCostLoop_eq_spec (dists : Int → ℚ) (chars : List Int) (dprev : Int) :
    ∀ (starts : List Nat) (acc : ℚ),
      (∀ s ∈ starts, isSubsetStart chars dprev s) → (∀ c, dists c ≤ FARAWAY) →
      connCostLoop dists chars dprev starts acc =
        sumStopFaraway
          (starts.map (fun s => minimumD ((subsetAt chars dprev s).map dists))) acc
  | [], acc => by intro _ _; rfl
  | s :: rest, acc => by
      intro hstarts hb
      rw [List.map_cons]
      unfold connCostLoop sumStopFaraway
      rw [subsetMinDist_eq_minimumD dists chars dprev s (hstarts s (by simp)) hb]
      by_cases hf : FARAWAY ≤ acc + minimumD ((subsetAt chars dprev s).map dists)
      · rw [if_pos hf, if_pos hf]
      · rw [if_neg hf, if_neg hf]
        exact connCostLoop_eq_spec dists chars dprev rest _
          (fun u hu => hstarts u (List.mem_cons_of_mem s hu)) hb

/-- C4: dpborder_partGetConnectionCost computes, over the chosen starts in
order, the sum of the minima of the border distances over the characters of
the subsets beginning at those starts, returning the running sum as soon as
it reaches FARAWAY.  The border distances are bounded by the infinity
sentinel as the data model prescribes. -/
theorem C4_connectionCost_spec :
    ∀ (chars : List Int) (d : Int) (dists : Int → ℚ) (starts : List Nat),
      chars ≠ [] → dpborder_partIsValid chars d = true →
      (∀ s ∈ starts, isSubsetStart chars d s) →
      (∀ c, dists c ≤ FARAWAY) →
      dpborder_partGetConnectionCost dists chars d starts =
        connCostSpec dists chars d starts := by
  intro chars d dists starts _ _ hstarts hb
  exact connCostLoop_eq_spec dists chars d starts 0 hstarts hb

/-- Closed witness for C4 at a concrete input. -/
theorem C4_connectionCost_spec_witness :
    dpborder_partGetConnectionCost (fun _ => 0) [0, 1] 2 [0] =
      connCostSpec (fun _ => 0) [0, 1] 2 [0] :=
  C4_connectionCost_spec [0, 1] 2 (fun _ => 0) [0] (by decide) (by decide)
    (by decide) (fun _ => by norm_num [FARAWAY])

theorem FARAWAY_nonneg : (0 : ℚ) ≤ FARAWAY := by
  norm_num [FARAWAY]

theorem subsetMinDist_nonneg (dists : Int → ℚ) (chars : List Int) (dprev : Int)
    (s : Nat) (hd : ∀ c, 0 ≤ dists c) : 0 ≤ subsetMinDist dists chars dprev s := by
  unfold subsetMinDist
  have haux : ∀ (l : List Int) (m : ℚ), 0 ≤ m →
      0 ≤ l.foldl (fun m c => if dists c < m then dists c else m) m := by
    intro l
    induction l with
    | nil => intro m hm; exact hm
    | cons c l ih =>
        intro m hm
        rw [List.foldl_cons]
        apply ih
        by_cases hc : dists c < m
        · rw [if_pos hc]; exact hd c
        · rw [if_neg hc]; exact hm
  exact haux _ _ FARAWAY_nonneg

theorem connCostLoop_append_le (dists : Int → ℚ) (chars : List Int) (dprev : Int)
    (s : Nat) (hd : ∀ c, 0 ≤ dists c) :
    ∀ (starts : List Nat) (acc : ℚ),
      connCostLoop dists chars dprev starts acc ≤
        connCostLoop dists chars dprev (starts ++ [s]) acc
  | [], acc => by
      show acc ≤ connCostLoop dists chars dprev [s] acc
      unfold connCostLoop
      have hm := subsetMinDist_nonneg dists chars dprev s hd
      by_cases hf : FARAWAY ≤ acc + subsetMinDist dists chars dprev s
      · rw [if_pos hf]; linarith
      · rw [if_neg hf]; show acc ≤ acc + _; linarith
  | x :: rest, acc => by
      rw [List.cons_append]
      unfold connCostLoop
      by_cases hf : FARAWAY ≤ acc + subsetMinDist dists chars dprev x
      · rw [if_pos hf, if_pos hf]
      · rw [if_neg hf, if_neg hf]
        exact connCostLoop_append_le dists chars dprev s hd rest _

/-- C5: monotone connection cost.  With nonnegative border distances, the
value of dpborder_partGetConnectionCost for a list of candidate starts
extended by one further start is at least the value for the original list. -/
theorem C5_connectionCost_monotone :
    ∀ (chars : List Int) (d : Int) (dists : Int → ℚ) (starts : List Nat) (s : Nat),
      chars ≠ [] → dpborder_partIsValid chars d = true →
      (∀ c, 0 ≤ dists c) →
      dpborder_partGetConnectionCost dists chars d starts ≤
        dpborder_partGetConnectionCost dists chars d (starts ++ [s]) := by
  intro chars d dists starts s _ _ hd
  exact connCostLoop_append_le dists chars d s hd starts 0

/-- Closed witness for C5 at a concrete input. -/
theorem C5_connectionCost_monotone_witness :
    dpborder_partGetConnectionCost (fun _ => 0) [0, 1] 2 [0] ≤
      dpborder_partGetConnectionCost (fun _ => 0) [0, 1] 2 ([0] ++ [0]) :=
  C5_connectionCost_monotone [0, 1] 2 (fun _ => 0) [0] 0 (by decide) (by decide)
    (fun _ => le_refl 0)

/-- Per-level border data used by solution reconstruction (the DPBLEVEL
struct of dpborderinterns.h as described by the spec, section 3): the
extension vertex of the level and the map from border characters to
original-graph vertices. -/
structure BLevel where
  extnode : Nat
  bordernodesMapToOrg : List Nat

/-- Border state (the DPBORDER struct): the append-only partition store with
its four side arrays, the level-transition data, and the reconstruction
data.  SCIP_Real entries are modelled as rationals, DPB_Ptype as Int, and
the character buffer as a list written at absolute offsets. -/
structure DPBORDER where
  global_partitions : List Int
  global_partstarts : List Nat
  global_partcosts : List ℚ
  global_predparts : List Int
  global_partsUseExt : List Bool
  global_npartitions : Nat
  bordercharmap : Int → Int
  borderchardists : Int → ℚ
  extborderchar : Int
  topdelimiter : Int
  nnodes : Nat
  global_optposition : Nat
  borderlevels : List BLevel

/-- Modelled from the spec: dpborder_getTopDelimiter is defined in
dpborderinterns.h, which is not part of the excerpt; the spec (section 4.2)
describes it as returning the delimiter of the level being extended to, kept
here as a stored field. -/
def dpborder_getTopDelimiter (dpborder : DPBORDER) : Int :=
  dpborder.topdelimiter

/-- Remap step shared by both builders: map a character through
bordercharmap and keep it unless it is mapped to -1 (dpborder_util.c lines
338-339, 413-414, 500-501). -/
def mapKeep (bordercharmap : Int → Int) (cs : List Int) : List Int :=
  cs.filterMap (fun c => if bordercharmap c = -1 then none else some (bordercharmap c))

/-- Writing a block into the character buffer at an absolute offset: the
effect of the sequence of global_partitions[globalend++] = ... writes
starting at globalstart. -/
def overwriteFrom (pos : Nat) (xs buf : List Int) : List Int :=
  buf.take pos ++ xs ++ buf.drop (pos + xs.length)

/-- Union pass of dpborder_partGetIdxNew (dpborder_util.c lines 325-347):
for each candidate start in order, append the remapped characters of its
subset to the child and then mark the start in the parent by the negation
partitionchars[candstart] = -partitionchars[candstart] - 1. -/
def unionLoop (bordercharmap : Int → Int) (dprev : Int) :
    List Nat → List Int → List Int → List Int × List Int
  | [], parent, acc => (parent, acc)
  | s :: rest, parent, acc =>
      unionLoop bordercharmap dprev rest
        (parent.set s (-(parent.getD s 0) - 1))
        (acc ++ mapKeep bordercharmap (subsetAt parent dprev s))

/-- Restoration of all marked characters (dpborder_util.c lines 358-362). -/
def unmarkAll (parent : List Int) : List Int :=
  parent.map (fun c => if c < 0 then -(c + 1) else c)

/-- Restoration of the marked characters at positions at least k
(dpborder_util.c lines 422-426, entered with k = i + 1). -/
def unmarkFrom (k : Nat) (parent : List Int) : List Int :=
  parent.take k ++ (parent.drop k).map (fun c => if c < 0 then -(c + 1) else c)

/-- Main pass of dpborder_partGetIdxNew (dpborder_util.c lines 380-415),
walking the parent left to right: a marked (negative) character is unmarked
and starts a skipped subset; a previous-level delimiter emits a new
delimiter when the following subset is unchosen, failing on an empty subset;
other characters are remapped and emitted while copying is on.  Returns the
updated parent, the emitted child characters, the failure flag
(globalstart = -1) and the break position.  The first argument counts the
remaining loop iterations (the loop runs from i to partsize, so it is
invoked with partsize below and hits zero exactly when the index check
fails). -/
def mainLoop (bordercharmap : Int → Int) (dprev dnew : Int) :
    Nat → Nat → List Int → List Int → Bool → List Int × List Int × Bool × Nat
  | 0, i, parent, acc, _doCopy => (parent, acc, false, i)
  | fuel + 1, i, parent, acc, doCopy =>
      if i < parent.length then
        if parent.getD i 0 < 0 then
          mainLoop bordercharmap dprev dnew fuel (i + 1)
            (parent.set i (-(parent.getD i 0 + 1))) acc false
        else if parent.getD i 0 = dprev then
          if 0 ≤ parent.getD (i + 1) 0 then
            if acc.getLast? = some dnew then (parent, acc, true, i)
            else mainLoop bordercharmap dprev dnew fuel (i + 1) parent
              (acc ++ [dnew]) true
          else mainLoop bordercharmap dprev dnew fuel (i + 1) parent acc doCopy
        else if doCopy = false then
          mainLoop bordercharmap dprev dnew fuel (i + 1) parent acc doCopy
        else if bordercharmap (parent.getD i 0) = -1 then
          mainLoop bordercharmap dprev dnew fuel (i + 1) parent acc doCopy
        else
          mainLoop bordercharmap dprev dnew fuel (i + 1) parent
            (acc ++ [bordercharmap (parent.getD i 0)]) doCopy
      else (parent, acc, false, i)

/-- Translation of dpborder_partGetIdxNew (dpborder_util.c lines 298-466).
The borderpartition is given by its character list and previous-level
delimiter; the function returns the result (a new global index or -1), the
parent's character array after the call, and the updated border state. -/
def dpborder_partGetIdxNew (borderpartition : List Int) (delimiter_prev : Int)
    (candstarts_sub : List Nat) (dpborder : DPBORDER) :
    Int × List Int × DPBORDER :=
  let globalstart := dpborder.global_partstarts.getD dpborder.global_npartitions 0
  let delimiter_new := dpborder_getTopDelimiter dpborder
  let r1 := unionLoop dpborder.bordercharmap delimiter_prev candstarts_sub
    borderpartition []
  let acc2 := if 0 ≤ dpborder.extborderchar then r1.2 ++ [dpborder.extborderchar]
    else r1.2
  if acc2 = [] then (-1, unmarkAll r1.1, dpborder)
  else
    let acc4 := if 0 ≤ r1.1.getD 0 0 then acc2 ++ [delimiter_new] else acc2
    let r5 := mainLoop dpborder.bordercharmap delimiter_prev delimiter_new
      borderpartition.length 0 r1.1 acc4 true
    if r5.2.2.1 = true ∨ r5.2.1.getLast? = some delimiter_new then
      (-1, unmarkFrom (r5.2.2.2 + 1) r5.1,
        { dpborder with
          global_partitions := overwriteFrom globalstart r5.2.1
            dpborder.global_partitions })
    else
      ((dpborder.global_npartitions : Int), r5.1,
        { dpborder with
          global_partitions := overwriteFrom globalstart
            (partitionSortSubsets delimiter_new r5.2.1) dpborder.global_partitions,
          global_partstarts := dpborder.global_partstarts ++
            [globalstart + r5.2.1.length],
          global_partcosts := dpborder.global_partcosts ++ [FARAWAY],
          global_partsUseExt := dpborder.global_partsUseExt ++ [true],
          global_predparts := dpborder.global_predparts ++ [-1],
          global_npartitions := dpborder.global_npartitions + 1 })

/-- Translation of dpborder_partGetIdxNewExclusive (dpborder_util.c lines
473-546): remap all parent characters (the delimiter included, which the
asserted precondition sends to the new delimiter), dropping those mapped to
-1; reject an empty, delimiter-led, delimiter-ended or
adjacent-delimiter child with -1, otherwise sort and append. -/
def dpborder_partGetIdxNewExclusive (borderpartition : List Int)
    (delimiter_prev : Int) (dpborder : DPBORDER) : Int × DPBORDER :=
  let globalstart := dpborder.global_partstarts.getD dpborder.global_npartitions 0
  let delimiter_new := dpborder_getTopDelimiter dpborder
  let acc := mapKeep dpborder.bordercharmap borderpartition
  if acc = [] ∨ acc.head? = some delimiter_new ∨ acc.getLast? = some delimiter_new then
    (-1, { dpborder with
      global_partitions := overwriteFrom globalstart acc dpborder.global_partitions })
  else if noAdjacentDelim delimiter_new acc = false then
    (-1, { dpborder with
      global_partitions := overwriteFrom globalstart acc dpborder.global_partitions })
  else
    ((dpborder.global_npartitions : Int),
      { dpborder with
        global_partitions := overwriteFrom globalstart
          (partitionSortSubsets delimiter_new acc) dpborder.global_partitions,
        global_partstarts := dpborder.global_partstarts ++
          [globalstart + acc.length],
        global_partcosts := dpborder.global_partcosts ++ [FARAWAY],
        global_predparts := dpborder.global_predparts ++ [-1],
        global_partsUseExt := dpborder.global_partsUseExt ++ [false],
        global_npartitions := dpborder.global_npartitions + 1 })

/-- Reading back a block written by overwriteFrom. -/
theorem overwriteFrom_read (gs : Nat) (xs buf : List Int) (h : gs ≤ buf.length) :
    ((overwriteFrom gs xs buf).drop gs).take xs.length = xs := by
  have haux : ∀ t rest : List Int, t.length = gs →
      ((t ++ (xs ++ rest)).drop gs).take xs.length = xs := by
    intro t rest ht
    rw [← ht, List.drop_left, List.take_left]
  unfold overwriteFrom
  rw [List.append_assoc]
  exact haux _ _ (by rw [List.length_take]; omega)

/-- Prefix of the buffer below the write offset is untouched by
overwriteFrom. -/
theorem overwriteFrom_take (gs : Nat) (xs buf : List Int) (h : gs ≤ buf.length) :
    (overwriteFrom gs xs buf).take gs = buf.take gs := by
  have haux : ∀ t rest : List Int, t.length = gs → (t ++ rest).take gs = t := by
    intro t rest ht
    rw [← ht, List.take_left]
  unfold overwriteFrom
  rw [List.append_assoc]
  exact haux _ _ (by rw [List.length_take]; omega)

/-- Lockstep invariant of the partition store. -/
def StoreLockstep (B : DPBORDER) : Prop :=
  B.global_partstarts.length = B.global_npartitions + 1 ∧
  B.global_partcosts.length = B.global_npartitions ∧
  B.global_predparts.length = B.global_npartitions ∧
  B.global_partsUseExt.length = B.global_npartitions

/-- Successor state of a successful append through dpborder_partGetIdxNew. -/
def appendUnionState (B : DPBORDER) (acc : List Int) : DPBORDER :=
  { B with
    global_partitions :=
      overwriteFrom (B.global_partstarts.getD B.global_npartitions 0)
        (partitionSortSubsets B.topdelimiter acc) B.global_partitions
    global_partstarts :=
      B.global_partstarts ++
        [B.global_partstarts.getD B.global_npartitions 0 + acc.length]
    global_partcosts := B.global_partcosts ++ [FARAWAY]
    global_partsUseExt := B.global_partsUseExt ++ [true]
    global_predparts := B.global_predparts ++ [-1]
    global_npartitions := B.global_npartitions + 1 }

/-- State with only scratch writes in the character buffer. -/
def scratchState (B : DPBORDER) (acc : List Int) : DPBORDER :=
  { B with
    global_partitions :=
      overwriteFrom (B.global_partstarts.getD B.global_npartitions 0) acc
        B.global_partitions }

/-- Outcome shapes of dpborder_partGetIdxNew: early rejection with untouched
state, late rejection with only scratch buffer writes, or a successful
append of one partition. -/
theorem getIdxNew_shape (parent : List Int) (dprev : Int) (starts : List Nat)
    (B : DPBORDER) :
    (∃ P', dpborder_partGetIdxNew parent dprev starts B = (-1, P', B)) ∨
    (∃ P' acc, dpborder_partGetIdxNew parent dprev starts B =
      (-1, P', scratchState B acc)) ∨
    (∃ P' acc, dpborder_partGetIdxNew parent dprev starts B =
      ((B.global_npartitions : Int), P', appendUnionState B acc)) := by
  unfold dpborder_partGetIdxNew scratchState appendUnionState
  dsimp only
  repeat' split
  all_goals first
    | exact Or.inl ⟨_, rfl⟩
    | exact Or.inr (Or.inl ⟨_, _, rfl⟩)
    | exact Or.inr (Or.inr ⟨_, _, rfl⟩)

/-- Successor state of a successful append through
dpborder_partGetIdxNewExclusive. -/
def appendExclState (B : DPBORDER) (acc : List Int) : DPBORDER :=
  { B with
    global_partitions :=
      overwriteFrom (B.global_partstarts.getD B.global_npartitions 0)
        (partitionSortSubsets B.topdelimiter acc) B.global_partitions
    global_partstarts :=
      B.global_partstarts ++
        [B.global_partstarts.getD B.global_npartitions 0 + acc.length]
    global_partcosts := B.global_partcosts ++ [FARAWAY]
    global_predparts := B.global_predparts ++ [-1]
    global_partsUseExt := B.global_partsUseExt ++ [false]
    global_npartitions := B.global_npartitions + 1 }

/-- Outcome shapes of dpborder_partGetIdxNewExclusive. -/
theorem getIdxNewExclusive_shape (parent : List Int) (dprev : Int) (B : DPBORDER) :
    (dpborder_partGetIdxNewExclusive parent dprev B =
      (-1, scratchState B (mapKeep B.bordercharmap parent))) ∨
    (dpborder_partGetIdxNewExclusive parent dprev B =
      ((B.global_npartitions : Int),
        appendExclState B (mapKeep B.bordercharmap parent))) := by
  unfold dpborder_partGetIdxNewExclusive scratchState appendExclState
  dsimp only
  repeat' split
  all_goals first
    | exact Or.inl rfl
    | exact Or.inr rfl

/-- Small concrete border state used by the witnesses: empty store with one
sentinel offset, identity character map, no extension character. -/
def exampleB : DPBORDER :=
  { global_partitions := [7, 7, 7, 7, 7, 7, 7], global_partstarts := [1],
    global_partcosts := [], global_predparts := [], global_partsUseExt := [],
    global_npartitions := 0, bordercharmap := fun c => c,
    borderchardists := fun _ => 0, extborderchar := -1, topdelimiter := 1,
    nnodes := 0, global_optposition := 0, borderlevels := [] }

/-- C9: arena consistency.  If the four side arrays are in lockstep before a
call to dpborder_partGetIdxNew or dpborder_partGetIdxNewExclusive, they are
in lockstep afterwards, whether the call returns a new index or -1; on a
successful append each side array receives exactly one new entry and
npartitions increases by exactly one. -/
theorem C9_arena_consistency (parent : List Int) (dprev : Int) (starts : List Nat)
    (B : DPBORDER) (h : StoreLockstep B) :
    (StoreLockstep (dpborder_partGetIdxNew parent dprev starts B).2.2 ∧
      (0 ≤ (dpborder_partGetIdxNew parent dprev starts B).1 →
        (dpborder_partGetIdxNew parent dprev starts B).2.2.global_npartitions =
            B.global_npartitions + 1 ∧
          (∃ v, (dpborder_partGetIdxNew parent dprev starts B).2.2.global_partstarts =
            B.global_partstarts ++ [v]) ∧
          (∃ v, (dpborder_partGetIdxNew parent dprev starts B).2.2.global_partcosts =
            B.global_partcosts ++ [v]) ∧
          (∃ v, (dpborder_partGetIdxNew parent dprev starts B).2.2.global_predparts =
            B.global_predparts ++ [v]) ∧
          (∃ v, (dpborder_partGetIdxNew parent dprev starts B).2.2.global_partsUseExt =
            B.global_partsUseExt ++ [v]))) ∧
    (StoreLockstep (dpborder_partGetIdxNewExclusive parent dprev B).2 ∧
      (0 ≤ (dpborder_partGetIdxNewExclusive parent dprev B).1 →
        (dpborder_partGetIdxNewExclusive parent dprev B).2.global_npartitions =
            B.global_npartitions + 1 ∧
          (∃ v, (dpborder_partGetIdxNewExclusive parent dprev B).2.global_partstarts =
            B.global_partstarts ++ [v]) ∧
          (∃ v, (dpborder_partGetIdxNewExclusive parent dprev B).2.global_partcosts =
            B.global_partcosts ++ [v]) ∧
          (∃ v, (dpborder_partGetIdxNewExclusive parent dprev B).2.global_predparts =
            B.global_predparts ++ [v]) ∧
          (∃ v, (dpborder_partGetIdxNewExclusive parent dprev B).2.global_partsUseExt =
            B.global_partsUseExt ++ [v]))) := by
  obtain ⟨h1, h2, h3, h4⟩ := h
  constructor
  · rcases getIdxNew_shape parent dprev starts B with ⟨P', heq⟩ | ⟨P', acc, heq⟩ |
      ⟨P', acc, heq⟩
    · rw [heq]
      exact ⟨⟨h1, h2, h3, h4⟩, fun hcon => absurd hcon (by norm_num)⟩
    · rw [heq]
      exact ⟨⟨h1, h2, h3, h4⟩, fun hcon => absurd hcon (by norm_num)⟩
    · rw [heq]
      refine ⟨⟨?_, ?_, ?_, ?_⟩, fun _ => ⟨rfl, ⟨_, rfl⟩, ⟨_, rfl⟩, ⟨_, rfl⟩, ⟨_, rfl⟩⟩⟩
      all_goals
        simp only [appendUnionState, List.length_append, List.length_cons,
          List.length_nil]
        omega
  · rcases getIdxNewExclusive_shape parent dprev B with heq | heq
    · rw [heq]
      exact ⟨⟨h1, h2, h3, h4⟩, fun hcon => absurd hcon (by norm_num)⟩
    · rw [heq]
      refine ⟨⟨?_, ?_, ?_, ?_⟩, fun _ => ⟨rfl, ⟨_, rfl⟩, ⟨_, rfl⟩, ⟨_, rfl⟩, ⟨_, rfl⟩⟩⟩
      all_goals
        simp only [appendExclState, List.length_append, List.length_cons,
          List.length_nil]
        omega

/-- Closed witness for C9 at a concrete input. -/
theorem C9_arena_consistency_witness :
    (StoreLockstep (dpborder_partGetIdxNew [0] 1 [0] exampleB).2.2 ∧
      (0 ≤ (dpborder_partGetIdxNew [0] 1 [0] exampleB).1 →
        (dpborder_partGetIdxNew [0] 1 [0] exampleB).2.2.global_npartitions =
            exampleB.global_npartitions + 1 ∧
          (∃ v, (dpborder_partGetIdxNew [0] 1 [0] exampleB).2.2.global_partstarts =
            exampleB.global_partstarts ++ [v]) ∧
          (∃ v, (dpborder_partGetIdxNew [0] 1 [0] exampleB).2.2.global_partcosts =
            exampleB.global_partcosts ++ [v]) ∧
          (∃ v, (dpborder_partGetIdxNew [0] 1 [0] exampleB).2.2.global_predparts =
            exampleB.global_predparts ++ [v]) ∧
          (∃ v, (dpborder_partGetIdxNew [0] 1 [0] exampleB).2.2.global_partsUseExt =
            exampleB.global_partsUseExt ++ [v]))) ∧
    (StoreLockstep (dpborder_partGetIdxNewExclusive [0] 1 exampleB).2 ∧
      (0 ≤ (dpborder_partGetIdxNewExclusive [0] 1 exampleB).1 →
        (dpborder_partGetIdxNewExclusive [0] 1 exampleB).2.global_npartitions =
            exampleB.global_npartitions + 1 ∧
          (∃ v, (dpborder_partGetIdxNewExclusive [0] 1 exampleB).2.global_partstarts =
            exampleB.global_partstarts ++ [v]) ∧
          (∃ v, (dpborder_partGetIdxNewExclusive [0] 1 exampleB).2.global_partcosts =
            exampleB.global_partcosts ++ [v]) ∧
          (∃ v, (dpborder_partGetIdxNewExclusive [0] 1 exampleB).2.global_predparts =
            exampleB.global_predparts ++ [v]) ∧
          (∃ v, (dpborder_partGetIdxNewExclusive [0] 1 exampleB).2.global_partsUseExt =
            exampleB.global_partsUseExt ++ [v]))) :=
  C9_arena_consistency [0] 1 [0] exampleB ⟨rfl, rfl, rfl, rfl⟩

theorem joinSubsets_length_congr (d : Int) :
    ∀ ss ts : List (List Int), List.Forall₂ (fun s t => s.length = t.length) ss ts →
      (joinSubsets d ss).length = (joinSubsets d ts).length
  | [], [], _ => rfl
  | s :: ss, t :: ts, h => by
      rcases h with - | ⟨hst, hrest⟩
      cases ss with
      | nil =>
          cases ts with
          | nil => simpa [joinSubsets] using hst
          | cons u us => cases hrest
      | cons s' ss' =>
          cases ts with
          | nil => cases hrest
          | cons t' ts' =>
              rw [joinSubsets_cons d s (s' :: ss') (by simp),
                joinSubsets_cons d t (t' :: ts') (by simp)]
              simp only [List.length_append, List.length_cons]
              rw [hst, joinSubsets_length_congr d (s' :: ss') (t' :: ts') hrest]

theorem partitionSortSubsets_length (d : Int) (l : List Int) :
    (partitionSortSubsets d l).length = l.length := by
  unfold partitionSortSubsets
  have h := joinSubsets_length_congr d ((splitSubsets d l).map insertionSortC)
    (splitSubsets d l)
    ((forall₂_map_insertionSortC_perm (splitSubsets d l)).imp
      (fun _ _ hp => hp.length_eq))
  rw [h, joinSubsets_splitSubsets d l]

theorem getIdxNewExclusive_eq_reject1 (parent : List Int) (dprev : Int)
    (B : DPBORDER)
    (h : mapKeep B.bordercharmap parent = [] ∨
      (mapKeep B.bordercharmap parent).head? = some (dpborder_getTopDelimiter B) ∨
      (mapKeep B.bordercharmap parent).getLast? = some (dpborder_getTopDelimiter B)) :
    dpborder_partGetIdxNewExclusive parent dprev B =
      (-1, scratchState B (mapKeep B.bordercharmap parent)) := by
  unfold dpborder_partGetIdxNewExclusive scratchState
  dsimp only
  rw [if_pos h]

theorem getIdxNewExclusive_eq_reject2 (parent : List Int) (dprev : Int)
    (B : DPBORDER)
    (h1 : ¬(mapKeep B.bordercharmap parent = [] ∨
      (mapKeep B.bordercharmap parent).head? = some (dpborder_getTopDelimiter B) ∨
      (mapKeep B.bordercharmap parent).getLast? = some (dpborder_getTopDelimiter B)))
    (h2 : noAdjacentDelim (dpborder_getTopDelimiter B)
      (mapKeep B.bordercharmap parent) = false) :
    dpborder_partGetIdxNewExclusive parent dprev B =
      (-1, scratchState B (mapKeep B.bordercharmap parent)) := by
  unfold dpborder_partGetIdxNewExclusive scratchState
  dsimp only
  rw [if_neg h1, if_pos h2]

theorem getIdxNewExclusive_eq_accept (parent : List Int) (dprev : Int)
    (B : DPBORDER)
    (h1 : ¬(mapKeep B.bordercharmap parent = [] ∨
      (mapKeep B.bordercharmap parent).head? = some (dpborder_getTopDelimiter B) ∨
      (mapKeep B.bordercharmap parent).getLast? = some (dpborder_getTopDelimiter B)))
    (h2 : ¬noAdjacentDelim (dpborder_getTopDelimiter B)
      (mapKeep B.bordercharmap parent) = false) :
    dpborder_partGetIdxNewExclusive parent dprev B =
      ((B.global_npartitions : Int),
        appendExclState B (mapKeep B.bordercharmap parent)) := by
  unfold dpborder_partGetIdxNewExclusive appendExclState
  dsimp only
  rw [if_neg h1, if_neg h2]
  rfl

theorem natCast_ne_negOne (n : Nat) : (n : Int) ≠ -1 := by
  omega

/-- C7: contract of the exclusive builder.  With the parent's delimiter
remapped to the new top delimiter, dpborder_partGetIdxNewExclusive forms the
left-to-right bordercharmap image of the parent's characters (dropping those
mapped to -1), returns -1 exactly when that sequence is empty, starts with
the new delimiter, ends with it, or contains two adjacent new delimiters
(any remap of the form [x, D, D, y] in particular); on rejection npartitions
and the four side arrays are unchanged, and otherwise the canonically sorted
sequence is appended with use_ext = false and initial cost FARAWAY and its
index is returned. -/
theorem C7_exclusive_contract (parent : List Int) (dprev : Int) (B : DPBORDER)
    (hpne : parent ≠ []) (hval : dpborder_partIsValid parent dprev = true)
    (hmapd : B.bordercharmap dprev = dpborder_getTopDelimiter B) :
    (((dpborder_partGetIdxNewExclusive parent dprev B).1 = -1) ↔
      (mapKeep B.bordercharmap parent = [] ∨
        (mapKeep B.bordercharmap parent).head? = some (dpborder_getTopDelimiter B) ∨
        (mapKeep B.bordercharmap parent).getLast? =
          some (dpborder_getTopDelimiter B) ∨
        noAdjacentDelim (dpborder_getTopDelimiter B)
          (mapKeep B.bordercharmap parent) = false)) ∧
    ((dpborder_partGetIdxNewExclusive parent dprev B).1 = -1 →
      ((dpborder_partGetIdxNewExclusive parent dprev B).2.global_npartitions =
          B.global_npartitions ∧
        (dpborder_partGetIdxNewExclusive parent dprev B).2.global_partstarts =
          B.global_partstarts ∧
        (dpborder_partGetIdxNewExclusive parent dprev B).2.global_partcosts =
          B.global_partcosts ∧
        (dpborder_partGetIdxNewExclusive parent dprev B).2.global_predparts =
          B.global_predparts ∧
        (dpborder_partGetIdxNewExclusive parent dprev B).2.global_partsUseExt =
          B.global_partsUseExt)) ∧
    ((dpborder_partGetIdxNewExclusive parent dprev B).1 ≠ -1 →
      ((dpborder_partGetIdxNewExclusive parent dprev B).1 =
          (B.global_npartitions : Int) ∧
        (dpborder_partGetIdxNewExclusive parent dprev B).2.global_npartitions =
          B.global_npartitions + 1 ∧
        (dpborder_partGetIdxNewExclusive parent dprev B).2.global_partstarts =
          B.global_partstarts ++
            [B.global_partstarts.getD B.global_npartitions 0 +
              (mapKeep B.bordercharmap parent).length] ∧
        (dpborder_partGetIdxNewExclusive parent dprev B).2.global_partcosts =
          B.global_partcosts ++ [FARAWAY] ∧
        (dpborder_partGetIdxNewExclusive parent dprev B).2.global_predparts =
          B.global_predparts ++ [-1] ∧
        (dpborder_partGetIdxNewExclusive parent dprev B).2.global_partsUseExt =
          B.global_partsUseExt ++ [false] ∧
        (B.global_partstarts.getD B.global_npartitions 0 ≤
            B.global_partitions.length →
          (((dpborder_partGetIdxNewExclusive parent dprev B).2.global_partitions.drop
              (B.global_partstarts.getD B.global_npartitions 0)).take
              (mapKeep B.bordercharmap parent).length =
            partitionSortSubsets (dpborder_getTopDelimiter B)
              (mapKeep B.bordercharmap parent))))) ∧
    (∀ x y : Int,
      mapKeep B.bordercharmap parent =
        [x, dpborder_getTopDelimiter B, dpborder_getTopDelimiter B, y] →
      (dpborder_partGetIdxNewExclusive parent dprev B).1 = -1) := by
  by_cases h1 : mapKeep B.bordercharmap parent = [] ∨
      (mapKeep B.bordercharmap parent).head? = some (dpborder_getTopDelimiter B) ∨
      (mapKeep B.bordercharmap parent).getLast? = some (dpborder_getTopDelimiter B)
  · rw [getIdxNewExclusive_eq_reject1 parent dprev B h1]
    refine ⟨iff_of_true rfl (by tauto), fun _ => ⟨rfl, rfl, rfl, rfl, rfl⟩,
      fun hcon => absurd rfl hcon, fun x y _ => rfl⟩
  · by_cases h2 : noAdjacentDelim (dpborder_getTopDelimiter B)
        (mapKeep B.bordercharmap parent) = false
    · rw [getIdxNewExclusive_eq_reject2 parent dprev B h1 h2]
      refine ⟨iff_of_true rfl (by tauto), fun _ => ⟨rfl, rfl, rfl, rfl, rfl⟩,
        fun hcon => absurd rfl hcon, fun x y _ => rfl⟩
    · rw [getIdxNewExclusive_eq_accept parent dprev B h1 h2]
      push_neg at h1
      refine ⟨iff_of_false (by exact natCast_ne_negOne B.global_npartitions)
        (by tauto), ?_, ?_, ?_⟩
      · intro hcon
        exact absurd hcon (natCast_ne_negOne B.global_npartitions)
      · intro _
        refine ⟨rfl, rfl, rfl, rfl, rfl, rfl, ?_⟩
        intro hcap
        show ((appendExclState B (mapKeep B.bordercharmap parent)).global_partitions.drop
            _).take _ = _
        unfold appendExclState
        dsimp only
        have hlen := partitionSortSubsets_length B.topdelimiter
          (mapKeep B.bordercharmap parent)
        rw [← hlen]
        exact overwriteFrom_read _ _ _ hcap
      · intro x y hacc
        exfalso
        apply h2
        rw [hacc]
        simp [noAdjacentDelim]

/-- Closed witness for C7 at a concrete input. -/
theorem C7_exclusive_contract_witness :
    (((dpborder_partGetIdxNewExclusive [0] 1 exampleB).1 = -1) ↔
      (mapKeep exampleB.bordercharmap [0] = [] ∨
        (mapKeep exampleB.bordercharmap [0]).head? =
          some (dpborder_getTopDelimiter exampleB) ∨
        (mapKeep exampleB.bordercharmap [0]).getLast? =
          some (dpborder_getTopDelimiter exampleB) ∨
        noAdjacentDelim (dpborder_getTopDelimiter exampleB)
          (mapKeep exampleB.bordercharmap [0]) = false)) ∧
    ((dpborder_partGetIdxNewExclusive [0] 1 exampleB).1 = -1 →
      ((dpborder_partGetIdxNewExclusive [0] 1 exampleB).2.global_npartitions =
          exampleB.global_npartitions ∧
        (dpborder_partGetIdxNewExclusive [0] 1 exampleB).2.global_partstarts =
          exampleB.global_partstarts ∧
        (dpborder_partGetIdxNewExclusive [0] 1 exampleB).2.global_partcosts =
          exampleB.global_partcosts ∧
        (dpborder_partGetIdxNewExclusive [0] 1 exampleB).2.global_predparts =
          exampleB.global_predparts ∧
        (dpborder_partGetIdxNewExclusive [0] 1 exampleB).2.global_partsUseExt =
          exampleB.global_partsUseExt)) ∧
    ((dpborder_partGetIdxNewExclusive [0] 1 exampleB).1 ≠ -1 →
      ((dpborder_partGetIdxNewExclusive [0] 1 exampleB).1 =
          (exampleB.global_npartitions : Int) ∧
        (dpborder_partGetIdxNewExclusive [0] 1 exampleB).2.global_npartitions =
          exampleB.global_npartitions + 1 ∧
        (dpborder_partGetIdxNewExclusive [0] 1 exampleB).2.global_partstarts =
          exampleB.global_partstarts ++
            [exampleB.global_partstarts.getD exampleB.global_npartitions 0 +
              (mapKeep exampleB.bordercharmap [0]).length] ∧
        (dpborder_partGetIdxNewExclusive [0] 1 exampleB).2.global_partcosts =
          exampleB.global_partcosts ++ [FARAWAY] ∧
        (dpborder_partGetIdxNewExclusive [0] 1 exampleB).2.global_predparts =
          exampleB.global_predparts ++ [-1] ∧
        (dpborder_partGetIdxNewExclusive [0] 1 exampleB).2.global_partsUseExt =
          exampleB.global_partsUseExt ++ [false] ∧
        (exampleB.global_partstarts.getD exampleB.global_npartitions 0 ≤
            exampleB.global_partitions.length →
          (((dpborder_partGetIdxNewExclusive [0] 1
              exampleB).2.global_partitions.drop
              (exampleB.global_partstarts.getD exampleB.global_npartitions 0)).take
              (mapKeep exampleB.bordercharmap [0]).length =
            partitionSortSubsets (dpborder_getTopDelimiter exampleB)
              (mapKeep exampleB.bordercharmap [0]))))) ∧
    (∀ x y : Int,
      mapKeep exampleB.bordercharmap [0] =
        [x, dpborder_getTopDelimiter exampleB, dpborder_getTopDelimiter exampleB, y] →
      (dpborder_partGetIdxNewExclusive [0] 1 exampleB).1 = -1) :=
  C7_exclusive_contract [0] 1 exampleB (by decide) (by decide) rfl

/-- All subset start positions of a partition, in left-to-right order. -/
def subsetStartsList (chars : List Int) (d : Int) : List Nat :=
  (List.range chars.length).filter (fun p => decide (isSubsetStart chars d p))

theorem subsetStartsList_mem (chars : List Int) (d : Int) (S : List Nat)
    (hS : S.Sublist (subsetStartsList chars d)) :
    ∀ s ∈ S, isSubsetStart chars d s := by
  intro s hs
  have hmem := hS.subset hs
  unfold subsetStartsList at hmem
  have := List.of_mem_filter hmem
  simpa using this

theorem subsetStartsList_pairwise (chars : List Int) (d : Int) (S : List Nat)
    (hS : S.Sublist (subsetStartsList chars d)) : S.Pairwise (· < ·) := by
  refine List.Pairwise.sublist hS ?_
  exact List.Pairwise.filter _ (List.pairwise_lt_range _)

theorem getD_set_self (l : List Int) (i : Nat) (v : Int) (h : i < l.length) :
    (l.set i v).getD i 0 = v := by
  rw [List.getD_eq_getElem?_getD, List.getElem?_set_self h]
  rfl

theorem getD_set_ne (l : List Int) (i j : Nat) (v : Int) (h : i ≠ j) :
    (l.set i v).getD j 0 = l.getD j 0 := by
  rw [List.getD_eq_getElem?_getD, List.getD_eq_getElem?_getD, List.getElem?_set_ne h]

theorem drop_eq_of_agree (P Q : List Int) (s : Nat) (hlen : P.length = Q.length)
    (hag : ∀ j, s ≤ j → j < P.length → P.getD j 0 = Q.getD j 0) :
    P.drop s = Q.drop s := by
  apply List.ext_getElem
  · simp [hlen]
  · intro k h1 h2
    have hk : s + k < P.length := by
      simp at h1
      omega
    have := hag (s + k) (by omega) hk
    rw [getD_eq_getElem _ _ hk, getD_eq_getElem _ _ (by omega : s + k < Q.length)] at this
    have hkq : s + k < Q.length := by omega
    have e1 : (P.drop s)[k] = P[s + k] := List.getElem_drop ..
    have e2 : (Q.drop s)[k] = Q[s + k] := List.getElem_drop ..
    rw [e1, e2, this]

theorem subsetAt_eq_of_agree (P Q : List Int) (d : Int) (s : Nat)
    (hlen : P.length = Q.length)
    (hag : ∀ j, s ≤ j → j < P.length → P.getD j 0 = Q.getD j 0) :
    subsetAt P d s = subsetAt Q d s := by
  unfold subsetAt
  rw [drop_eq_of_agree P Q s hlen hag]

theorem mapKeep_append (bmap : Int → Int) (a b : List Int) :
    mapKeep bmap (a ++ b) = mapKeep bmap a ++ mapKeep bmap b := by
  unfold mapKeep
  rw [List.filterMap_append]

theorem unionLoop_spec (bmap : Int → Int) (dprev : Int) (P0 : List Int) :
    ∀ (S : List Nat) (P acc : List Int),
      P.length = P0.length →
      (∀ s ∈ S, isSubsetStart P0 dprev s) →
      S.Pairwise (· < ·) →
      (∀ j, (∃ s ∈ S, s ≤ j) → j < P0.length → P.getD j 0 = P0.getD j 0) →
      ((unionLoop bmap dprev S P acc).1.length = P0.length ∧
       (∀ j, j < P0.length → (unionLoop bmap dprev S P acc).1.getD j 0 =
         (if j ∈ S then -(P0.getD j 0) - 1 else P.getD j 0)) ∧
       (unionLoop bmap dprev S P acc).2 =
         acc ++ mapKeep bmap ((S.map (fun s => subsetAt P0 dprev s)).flatten))
  | [], P, acc => by
      intro hlen _ _ _
      refine ⟨hlen, ?_, by simp [unionLoop, mapKeep]⟩
      intro j hj
      simp [unionLoop]
  | s :: S', P, acc => by
      intro hlen hmem hpw hag
      have hs0 := hmem s (by simp)
      have hslen : s < P.length := by
        rw [hlen]
        exact hs0.1
      have hpw' := List.pairwise_cons.mp hpw
      have hsub : subsetAt P dprev s = subsetAt P0 dprev s := by
        refine subsetAt_eq_of_agree P P0 dprev s hlen ?_
        intro j hj hjl
        exact hag j ⟨s, by simp, hj⟩ (by omega)
      have hPs : P.getD s 0 = P0.getD s 0 :=
        hag s ⟨s, by simp, le_refl s⟩ hs0.1
      have ih := unionLoop_spec bmap dprev P0 S'
        (P.set s (-(P.getD s 0) - 1)) (acc ++ mapKeep bmap (subsetAt P dprev s))
        (by rw [List.length_set]; exact hlen)
        (fun u hu => hmem u (List.mem_cons_of_mem s hu))
        hpw'.2
        (by
          intro j hj hjl
          obtain ⟨s', hs'1, hs'2⟩ := hj
          have hne : j ≠ s := by
            have := hpw'.1 s' hs'1
            omega
          rw [getD_set_ne _ _ _ _ (fun hcon => hne hcon.symm)]
          exact hag j ⟨s', List.mem_cons_of_mem s hs'1, hs'2⟩ hjl)
      show (unionLoop bmap dprev (s :: S') P acc).1.length = P0.length ∧ _ ∧ _
      have heq : unionLoop bmap dprev (s :: S') P acc =
          unionLoop bmap dprev S' (P.set s (-(P.getD s 0) - 1))
            (acc ++ mapKeep bmap (subsetAt P dprev s)) := rfl
      rw [heq]
      refine ⟨ih.1, ?_, ?_⟩
      · intro j hj
        rw [ih.2.1 j hj]
        by_cases hjS : j ∈ S'
        · rw [if_pos hjS, if_pos (List.mem_cons_of_mem s hjS)]
        · by_cases hjs : j = s
          · subst hjs
            rw [if_neg hjS, if_pos (by simp)]
            rw [getD_set_self _ _ _ hslen, hPs]
          · rw [if_neg hjS, if_neg (by
              intro hcon
              rcases List.mem_cons.mp hcon with h | h
              · exact hjs h
              · exact hjS h)]
            rw [getD_set_ne _ _ _ _ (fun hcon => hjs hcon.symm)]
      · rw [ih.2.2, hsub]
        rw [List.map_cons, List.flatten_cons, mapKeep_append, List.append_assoc]

theorem mem_subsetAt_iff (chars : List Int) (d : Int) (s : Nat) (x : Int) :
    x ∈ subsetAt chars d s ↔
      ∃ k, s ≤ k ∧ k < skipSubset chars d s ∧ chars.getD k 0 = x := by
  unfold subsetAt
  constructor
  · intro hc
    obtain ⟨m, hm, rfl⟩ := List.mem_iff_getElem.mp hc
    refine ⟨s + m, by omega, ?_, ?_⟩
    · unfold skipSubset
      omega
    · have hmd : m < (chars.drop s).length :=
        lt_of_lt_of_le hm (List.takeWhile_prefix _).sublist.length_le
      have he1 : ((chars.drop s).takeWhile (fun c => c != d))[m] = (chars.drop s)[m] :=
        List.IsPrefix.getElem (List.takeWhile_prefix _) hm
      have hb1 : s + m < chars.length := by
        have := List.length_drop s chars
        omega
      have he2 : (chars.drop s)[m] = chars[s + m] := List.getElem_drop ..
      rw [getD_eq_getElem chars (s + m) hb1]
      rw [he1, he2]
  · rintro ⟨k, hk1, hk2, hk3⟩
    have hm : k - s < ((chars.drop s).takeWhile (fun c => c != d)).length := by
      unfold skipSubset at hk2
      omega
    have hklen : k < chars.length := (skipSubset_mid chars d s k hk1 hk2).1
    have hmd : k - s < (chars.drop s).length := by
      rw [List.length_drop]
      omega
    have he1 : ((chars.drop s).takeWhile (fun c => c != d))[k - s] = (chars.drop s)[k - s] :=
      List.IsPrefix.getElem (List.takeWhile_prefix _) hm
    have hb1 : s + (k - s) < chars.length := by omega
    have he2 : (chars.drop s)[k - s] = chars[s + (k - s)] :=
      List.getElem_drop ..
    have hidx : chars[s + (k - s)] = chars[k] := by
      congr 1
      omega
    rw [← hk3, getD_eq_getElem chars k hklen]
    rw [← hidx, ← he2, ← he1]
    exact List.getElem_mem hm

theorem getD_inj_of_nodup_filter (P0 : List Int) (d : Int)
    (hnd : (P0.filter (· != d)).Nodup) :
    ∀ j1 j2, j1 < P0.length → j2 < P0.length → P0.getD j1 0 ≠ d →
      P0.getD j2 0 ≠ d → P0.getD j1 0 = P0.getD j2 0 → j1 = j2 := by
  have haux : ∀ j1 j2, j1 < j2 → j2 < P0.length → P0.getD j1 0 ≠ d →
      P0.getD j1 0 = P0.getD j2 0 → False := by
    intro j1 j2 hlt hlen hne heq
    set v := P0.getD j1 0 with hv
    have h1 : v ∈ P0.take (j1 + 1) := by
      have ht : j1 < (P0.take (j1 + 1)).length := by
        rw [List.length_take]
        omega
      have hj1l : j1 < P0.length := by omega
      have : (P0.take (j1 + 1))[j1] = P0[j1] := List.getElem_take ..
      rw [hv, getD_eq_getElem _ _ hj1l, ← this]
      exact List.getElem_mem ht
    have h2 : v ∈ P0.drop (j1 + 1) := by
      have hd : j2 - (j1 + 1) < (P0.drop (j1 + 1)).length := by
        rw [List.length_drop]
        omega
      have hb2 : (j1 + 1) + (j2 - (j1 + 1)) < P0.length := by omega
      have he : (P0.drop (j1 + 1))[j2 - (j1 + 1)] = P0[(j1 + 1) + (j2 - (j1 + 1))] :=
        List.getElem_drop ..
      have hidx : P0[(j1 + 1) + (j2 - (j1 + 1))] = P0[j2] := by
        congr 1
        omega
      rw [heq, getD_eq_getElem _ _ hlen, ← hidx, ← he]
      exact List.getElem_mem hd
    have hsub : [v, v].Sublist P0 := by
      have := List.Sublist.append (List.singleton_sublist.mpr h1)
        (List.singleton_sublist.mpr h2)
      simpa [List.take_append_drop] using this
    have hsubf : [v, v].Sublist (P0.filter (· != d)) := by
      have := hsub.filter (· != d)
      rwa [List.filter_cons_of_pos (by simpa using hne),
        List.filter_cons_of_pos (by simpa using hne), List.filter_nil] at this
    have := hnd.sublist hsubf
    simp at this
  intro j1 j2 h1 h2 hne1 hne2 heq
  rcases Nat.lt_trichotomy j1 j2 with h | h | h
  · exact absurd (haux j1 j2 h h2 hne1 heq) (by simp)
  · exact h
  · exact absurd (haux j2 j1 h h1 hne2 heq.symm) (by simp)

theorem mem_mapKeep (bmap : Int → Int) (L : List Int) (v : Int) :
    v ∈ mapKeep bmap L ↔ ∃ c ∈ L, bmap c ≠ -1 ∧ bmap c = v := by
  unfold mapKeep
  rw [List.mem_filterMap]
  constructor
  · rintro ⟨c, hc, hv⟩
    by_cases h : bmap c = -1
    · rw [if_pos h] at hv
      cases hv
    · rw [if_neg h] at hv
      exact ⟨c, hc, h, by simpa using hv⟩
  · rintro ⟨c, hc, h1, h2⟩
    exact ⟨c, hc, by rw [if_neg h1, h2]⟩

theorem mapKeep_nodup (bmap : Int → Int) (dprev : Int) (L : List Int)
    (hnd : L.Nodup) (hdom : ∀ c ∈ L, 0 ≤ c ∧ c < dprev)
    (hinj : ∀ c c' : Int, 0 ≤ c → c < dprev → 0 ≤ c' → c' < dprev →
      bmap c ≠ -1 → bmap c = bmap c' → c = c') :
    (mapKeep bmap L).Nodup := by
  induction L with
  | nil => exact List.nodup_nil
  | cons c L ih =>
      have hnd' := List.nodup_cons.mp hnd
      have hihr := ih hnd'.2 (fun u hu => hdom u (List.mem_cons_of_mem c hu))
      unfold mapKeep
      rw [List.filterMap_cons]
      by_cases h : bmap c = -1
      · rw [if_pos h]
        exact hihr
      · rw [if_neg h]
        rw [List.nodup_cons]
        refine ⟨?_, hihr⟩
        intro hmem
        obtain ⟨c', hc', h1, h2⟩ := (mem_mapKeep bmap L (bmap c)).mp hmem
        have hdc := hdom c (by simp)
        have hdc' := hdom c' (List.mem_cons_of_mem c hc')
        have : c' = c := hinj c' c hdc'.1 hdc'.2 hdc.1 hdc.2 h1 h2
        rw [this] at hc'
        exact hnd'.1 hc'

/-- Characters of the parent copied by the main pass so far: non-delimiter
positions below i whose subset start was not among the chosen starts. -/
def unchosenPrefix (P0 : List Int) (dprev : Int) (S : List Nat) (i : Nat) : List Int :=
  ((List.range i).filter (fun j => (P0.getD j 0 != dprev) &&
    !(decide (findStartPos P0 dprev j ∈ S)))).map (fun j => P0.getD j 0)

theorem unchosenPrefix_succ (P0 : List Int) (dprev : Int) (S : List Nat) (i : Nat) :
    unchosenPrefix P0 dprev S (i + 1) =
      unchosenPrefix P0 dprev S i ++
        (if P0.getD i 0 ≠ dprev ∧ findStartPos P0 dprev i ∉ S
          then [P0.getD i 0] else []) := by
  unfold unchosenPrefix
  rw [List.range_succ, List.filter_append, List.map_append]
  congr 1
  by_cases h1 : P0.getD i 0 = dprev
  · rw [List.filter_cons, if_neg (by
      simp only [Bool.and_eq_true, bne_iff_ne, ne_eq, Bool.not_eq_true',
        decide_eq_false_iff_not]
      exact fun hcon => hcon.1 h1), if_neg (fun hcon => hcon.1 h1)]
    rfl
  · by_cases h2 : findStartPos P0 dprev i ∈ S
    · rw [List.filter_cons, if_neg (by
        simp only [Bool.and_eq_true, bne_iff_ne, ne_eq, Bool.not_eq_true',
          decide_eq_false_iff_not]
        exact fun hcon => hcon.2 h2), if_neg (fun hcon => hcon.2 h2)]
      rfl
    · rw [List.filter_cons, if_pos (by
        simp only [Bool.and_eq_true, bne_iff_ne, ne_eq, Bool.not_eq_true',
          decide_eq_false_iff_not]
        exact ⟨h1, h2⟩), if_pos ⟨h1, h2⟩]
      rfl

theorem getD_mem (l : List Int) (i : Nat) (h : i < l.length) : l.getD i 0 ∈ l := by
  rw [getD_eq_getElem l i h]
  exact List.getElem_mem h

theorem chain'_snoc (R : Int → Int → Prop) (l : List Int) (x : Int)
    (hc : List.Chain' R l) (hl : ∀ y ∈ l.getLast?, R y x) :
    List.Chain' R (l ++ [x]) := by
  rw [List.chain'_append]
  exact ⟨hc, List.chain'_singleton x, fun y hy z hz => by
    have hzx : z = x := by
      have : x = z := by simpa using hz
      exact this.symm
    rw [hzx]
    exact hl y hy⟩

/-- Postcondition bundle of the main pass: the parent keeps marks exactly on
chosen starts strictly beyond the break position of a failed run (so none on
a completed run), and on a completed run the child buffer is nonempty, does
not start with the new delimiter, has no adjacent new delimiters, has all
characters at most the new delimiter, and its non-delimiter characters are
the kept remapped characters of the union part followed by those of the
unchosen subsets. -/
def MainLoopPost (bmap : Int → Int) (dprev dnew : Int) (P0 : List Int)
    (S : List Nat) (F0 : List Int) (r : List Int × List Int × Bool × Nat) : Prop :=
  r.1.length = P0.length ∧
  (∀ j, j < P0.length → r.1.getD j 0 =
    (if j ∈ S ∧ r.2.2.1 = true ∧ r.2.2.2 + 1 ≤ j then -(P0.getD j 0) - 1
      else P0.getD j 0)) ∧
  (r.2.2.1 = false →
    (r.2.1 ≠ [] ∧ (∀ h ∈ r.2.1.head?, h ≠ dnew) ∧
     List.Chain' (NotBothDelim dnew) r.2.1 ∧
     (∀ x ∈ r.2.1, x = dnew ∨ x < dnew) ∧
     r.2.1.filter (· != dnew) =
       F0 ++ mapKeep bmap (unchosenPrefix P0 dprev S P0.length)))

theorem mainLoop_master (bmap : Int → Int) (dprev dnew : Int) (P0 : List Int)
    (S : List Nat) (F0 : List Int)
    (hval : ValidSpec P0 dprev)
    (hnn : ∀ x ∈ P0, 0 ≤ x)
    (hSmem : ∀ s ∈ S, isSubsetStart P0 dprev s)
    (hm1 : ∀ c : Int, 0 ≤ c → c < dprev → (bmap c = -1 ∨ bmap c < dnew)) :
    ∀ (fuel : Nat) (i : Nat) (P acc : List Int) (doCopy : Bool),
      fuel + i = P0.length →
      P.length = P0.length →
      (∀ j, j < P0.length → P.getD j 0 =
        (if j ∈ S ∧ i ≤ j then -(P0.getD j 0) - 1 else P0.getD j 0)) →
      acc ≠ [] →
      (∀ h ∈ acc.head?, h ≠ dnew) →
      List.Chain' (NotBothDelim dnew) acc →
      (∀ x ∈ acc, x = dnew ∨ x < dnew) →
      acc.filter (· != dnew) = F0 ++ mapKeep bmap (unchosenPrefix P0 dprev S i) →
      (P0.getD i 0 ≠ dprev → i ∉ S → i < P0.length →
        (doCopy = true ↔ findStartPos P0 dprev i ∉ S)) →
      MainLoopPost bmap dprev dnew P0 S F0
        (mainLoop bmap dprev dnew fuel i P acc doCopy) := by
  intro fuel
  induction fuel with
  | zero =>
      intro i P acc doCopy hfi hP hPc hane hhead hchain helem hfilter hdc
      have hin : i = P0.length := by omega
      show MainLoopPost bmap dprev dnew P0 S F0 (P, acc, false, i)
      unfold MainLoopPost
      dsimp only
      refine ⟨hP, ?_, ?_⟩
      · intro j hj
        rw [hPc j hj, if_neg (by omega),
          if_neg (fun hcon => Bool.noConfusion hcon.2.1)]
      · intro _
        refine ⟨hane, hhead, hchain, helem, ?_⟩
        rw [hfilter, hin]
  | succ fuel ih =>
      intro i P acc doCopy hfi hP hPc hane hhead hchain helem hfilter hdc
      have hi : i < P0.length := by omega
      have hnni : 0 ≤ P0.getD i 0 := hnn _ (getD_mem P0 i hi)
      have hlei : P0.getD i 0 ≤ dprev := hval.2.2.2.2.1 _ (getD_mem P0 i hi)
      have hgetDi := hPc i hi
      have hstep : mainLoop bmap dprev dnew (fuel + 1) i P acc doCopy =
          (if P.getD i 0 < 0 then
            mainLoop bmap dprev dnew fuel (i + 1)
              (P.set i (-(P.getD i 0 + 1))) acc false
          else if P.getD i 0 = dprev then
            if 0 ≤ P.getD (i + 1) 0 then
              if acc.getLast? = some dnew then (P, acc, true, i)
              else mainLoop bmap dprev dnew fuel (i + 1) P (acc ++ [dnew]) true
            else mainLoop bmap dprev dnew fuel (i + 1) P acc doCopy
          else if doCopy = false then
            mainLoop bmap dprev dnew fuel (i + 1) P acc doCopy
          else if bmap (P.getD i 0) = -1 then
            mainLoop bmap dprev dnew fuel (i + 1) P acc doCopy
          else
            mainLoop bmap dprev dnew fuel (i + 1) P
              (acc ++ [bmap (P.getD i 0)]) doCopy) := by
        simp only [mainLoop]
        rw [if_pos (by rw [hP]; exact hi)]
      rw [hstep]
      by_cases hneg : P.getD i 0 < 0
      · -- marked chosen start: unmark it and switch copying off
        rw [if_pos hneg]
        have hiS : i ∈ S := by
          by_contra hcon
          rw [hgetDi, if_neg (fun hc => hcon hc.1)] at hneg
          omega
        have hPi : P.getD i 0 = -(P0.getD i 0) - 1 := by
          rw [hgetDi, if_pos ⟨hiS, le_refl i⟩]
        have hstart_i := hSmem i hiS
        have hndim : P0.getD i 0 ≠ dprev := hstart_i.2.1
        apply ih (i + 1) (P.set i (-(P.getD i 0 + 1))) acc false (by omega)
          (by rw [List.length_set]; exact hP)
        · intro j hj
          by_cases hji : j = i
          · subst hji
            rw [getD_set_self _ _ _ (by rw [hP]; exact hi), hPi]
            rw [if_neg (by omega)]
            ring
          · rw [getD_set_ne _ _ _ _ (fun hc => hji hc.symm), hPc j hj]
            by_cases hjS : j ∈ S
            · by_cases hij : i ≤ j
              · rw [if_pos ⟨hjS, hij⟩, if_pos ⟨hjS, by omega⟩]
              · rw [if_neg (fun hc => hij hc.2), if_neg (fun hc => by omega)]
            · rw [if_neg (fun hc => hjS hc.1), if_neg (fun hc => hjS hc.1)]
        · exact hane
        · exact hhead
        · exact hchain
        · exact helem
        · rw [hfilter, unchosenPrefix_succ]
          rw [if_neg (fun hc => hc.2 (by
            rw [findStartPos_start P0 dprev i hstart_i]
            exact hiS))]
          rw [List.append_nil]
        · intro hd1 hd2 hd3
          constructor
          · intro hcon
            cases hcon
          · intro hcon
            exfalso
            apply hcon
            rw [findStartPos_succ P0 dprev i hd1, findStartPos_start P0 dprev i hstart_i]
            exact hiS
      · rw [if_neg hneg]
        have hiS : i ∉ S := by
          intro hcon
          rw [hgetDi, if_pos ⟨hcon, le_refl i⟩] at hneg
          omega
        have hPi : P.getD i 0 = P0.getD i 0 := by
          rw [hgetDi, if_neg (fun hc => hiS hc.1)]
        by_cases hdelim : P.getD i 0 = dprev
        · -- previous-level delimiter
          rw [if_pos hdelim]
          have hdelim0 : P0.getD i 0 = dprev := by rw [← hPi]; exact hdelim
          have hi1 : i + 1 < P0.length := by
            rcases Nat.lt_or_ge (i + 1) P0.length with h | h
            · exact h
            · exfalso
              have : i = P0.length - 1 := by omega
              exact validSpec_getD_last_ne P0 dprev hval (this ▸ hdelim0)
          have hadj : P0.getD (i + 1) 0 ≠ dprev := by
            intro hcon
            exact validSpec_no_adjacent P0 dprev hval i hi1 ⟨hdelim0, hcon⟩
          have hstart1 : isSubsetStart P0 dprev (i + 1) :=
            ⟨hi1, hadj, Or.inr (by simpa using hdelim0)⟩
          by_cases hnext : 0 ≤ P.getD (i + 1) 0
          · rw [if_pos hnext]
            have hS1 : i + 1 ∉ S := by
              intro hcon
              rw [hPc (i + 1) hi1, if_pos ⟨hcon, by omega⟩] at hnext
              have := hnn _ (getD_mem P0 (i + 1) hi1)
              omega
            by_cases hlast : acc.getLast? = some dnew
            · -- empty-subset failure: break out
              rw [if_pos hlast]
              unfold MainLoopPost
              dsimp only
              refine ⟨hP, ?_, fun hcon => Bool.noConfusion hcon⟩
              intro j hj
              rw [hPc j hj]
              by_cases hjS : j ∈ S
              · by_cases hij : i ≤ j
                · have hji : j ≠ i := fun hc => hiS (hc ▸ hjS)
                  rw [if_pos ⟨hjS, hij⟩, if_pos ⟨hjS, rfl, by omega⟩]
                · rw [if_neg (fun hc => hij hc.2), if_neg (fun hc => by
                    have := hc.2.2
                    omega)]
              · rw [if_neg (fun hc => hjS hc.1), if_neg (fun hc => hjS hc.1)]
            · -- emit one new delimiter and switch copying on
              rw [if_neg hlast]
              apply ih (i + 1) P (acc ++ [dnew]) true (by omega) hP
              · intro j hj
                rw [hPc j hj]
                by_cases hjS : j ∈ S
                · by_cases hij : i + 1 ≤ j
                  · rw [if_pos ⟨hjS, by omega⟩, if_pos ⟨hjS, hij⟩]
                  · have hji : j ≠ i := fun hc => hiS (hc ▸ hjS)
                    rw [if_neg (fun hc => by omega), if_neg (fun hc => hij hc.2)]
                · rw [if_neg (fun hc => hjS hc.1), if_neg (fun hc => hjS hc.1)]
              · simp
              · rw [List.head?_append_of_ne_nil acc hane]
                exact hhead
              · exact chain'_snoc _ acc dnew hchain (fun y hy => by
                  intro hcon
                  apply hlast
                  rw [hcon.1] at hy
                  exact Option.mem_def.mp hy)
              · intro x hx
                rcases List.mem_append.mp hx with hx | hx
                · exact helem x hx
                · left
                  simpa using hx
              · rw [List.filter_append, hfilter]
                rw [List.filter_cons_of_neg (by simp), List.filter_nil,
                  List.append_nil]
                rw [unchosenPrefix_succ]
                rw [if_neg (fun hc => hc.1 hdelim0), List.append_nil]
              · intro hd1 hd2 hd3
                constructor
                · intro _
                  rw [findStartPos_start P0 dprev (i + 1) hstart1]
                  exact hS1
                · intro _
                  rfl
          · -- next subset is chosen: no delimiter, keep walking
            rw [if_neg hnext]
            have hS1 : i + 1 ∈ S := by
              by_contra hcon
              rw [hPc (i + 1) hi1, if_neg (fun hc => hcon hc.1)] at hnext
              exact hnext (hnn _ (getD_mem P0 (i + 1) hi1))
            apply ih (i + 1) P acc doCopy (by omega) hP
            · intro j hj
              rw [hPc j hj]
              by_cases hjS : j ∈ S
              · by_cases hij : i + 1 ≤ j
                · rw [if_pos ⟨hjS, by omega⟩, if_pos ⟨hjS, hij⟩]
                · have hji : j ≠ i := fun hc => hiS (hc ▸ hjS)
                  rw [if_neg (fun hc => by omega), if_neg (fun hc => hij hc.2)]
              · rw [if_neg (fun hc => hjS hc.1), if_neg (fun hc => hjS hc.1)]
            · exact hane
            · exact hhead
            · exact hchain
            · exact helem
            · rw [hfilter, unchosenPrefix_succ]
              rw [if_neg (fun hc => hc.1 hdelim0), List.append_nil]
            · intro hd1 hd2 _
              exact absurd hS1 hd2
        · -- ordinary character of an unchosen or chosen subset
          rw [if_neg hdelim]
          have hdelim0 : P0.getD i 0 ≠ dprev := by
            rw [← hPi]
            exact hdelim
          have hdci := hdc hdelim0 hiS hi
          have hchar : 0 ≤ P0.getD i 0 ∧ P0.getD i 0 < dprev :=
            ⟨hnni, lt_of_le_of_ne hlei hdelim0⟩
          have hsucc_aux : ∀ doCopy' : Bool,
              (P0.getD (i + 1) 0 ≠ dprev → i + 1 ∉ S → i + 1 < P0.length →
                (doCopy' = true ↔ findStartPos P0 dprev i ∉ S)) →
              (P0.getD (i + 1) 0 ≠ dprev → i + 1 ∉ S → i + 1 < P0.length →
                (doCopy' = true ↔ findStartPos P0 dprev (i + 1) ∉ S)) := by
            intro doCopy' hbase hd1 hd2 hd3
            rw [findStartPos_succ P0 dprev i hd1]
            exact hbase hd1 hd2 hd3
          have hPc1 : ∀ j, j < P0.length → P.getD j 0 =
              (if j ∈ S ∧ i + 1 ≤ j then -(P0.getD j 0) - 1 else P0.getD j 0) := by
            intro j hj
            rw [hPc j hj]
            by_cases hjS : j ∈ S
            · by_cases hij : i + 1 ≤ j
              · rw [if_pos ⟨hjS, by omega⟩, if_pos ⟨hjS, hij⟩]
              · have hji : j ≠ i := fun hc => hiS (hc ▸ hjS)
                rw [if_neg (fun hc => by omega), if_neg (fun hc => hij hc.2)]
            · rw [if_neg (fun hc => hjS hc.1), if_neg (fun hc => hjS hc.1)]
          by_cases hcopy : doCopy = false
          · rw [if_pos hcopy]
            have hfsi : findStartPos P0 dprev i ∈ S := by
              by_contra hcon
              rw [hcopy] at hdci
              exact absurd (hdci.mpr hcon) (by simp)
            apply ih (i + 1) P acc doCopy (by omega) hP hPc1 hane hhead hchain helem
            · rw [hfilter, unchosenPrefix_succ]
              rw [if_neg (fun hc => hc.2 hfsi), List.append_nil]
            · exact hsucc_aux doCopy (fun _ _ _ => hdci)
          · have hfsi : findStartPos P0 dprev i ∉ S := by
              apply hdci.mp
              simpa using hcopy
            rw [if_neg hcopy]
            have hpref : unchosenPrefix P0 dprev S (i + 1) =
                unchosenPrefix P0 dprev S i ++ [P0.getD i 0] := by
              rw [unchosenPrefix_succ, if_pos ⟨hdelim0, hfsi⟩]
            by_cases hdrop : bmap (P.getD i 0) = -1
            · rw [if_pos hdrop]
              rw [hPi] at hdrop
              apply ih (i + 1) P acc doCopy (by omega) hP hPc1 hane hhead hchain helem
              · rw [hfilter, hpref, mapKeep_append]
                rw [show mapKeep bmap [P0.getD i 0] = [] from by
                  unfold mapKeep
                  rw [List.filterMap_cons, if_pos hdrop, List.filterMap_nil]]
                rw [List.append_nil]
              · exact hsucc_aux doCopy (fun _ _ _ => hdci)
            · rw [if_neg hdrop]
              rw [hPi] at hdrop
              rw [hPi]
              have hlt : bmap (P0.getD i 0) < dnew := by
                rcases hm1 _ hchar.1 hchar.2 with h | h
                · exact absurd h hdrop
                · exact h
              apply ih (i + 1) P (acc ++ [bmap (P0.getD i 0)]) doCopy (by omega) hP
                hPc1
              · simp
              · rw [List.head?_append_of_ne_nil acc hane]
                exact hhead
              · refine chain'_snoc _ acc _ hchain (fun y _ => ?_)
                intro hcon
                exact absurd hcon.2 (by omega)
              · intro x hx
                rcases List.mem_append.mp hx with hx | hx
                · exact helem x hx
                · right
                  have : x = bmap (P0.getD i 0) := by simpa using hx
                  omega
              · rw [List.filter_append, hfilter]
                rw [List.filter_cons_of_pos (by
                  simp only [bne_iff_ne, ne_eq, decide_eq_true_eq]
                  omega), List.filter_nil]
                rw [hpref, mapKeep_append]
                rw [show mapKeep bmap [P0.getD i 0] = [bmap (P0.getD i 0)] from by
                  unfold mapKeep
                  rw [List.filterMap_cons, if_neg hdrop, List.filterMap_nil]]
                rw [List.append_assoc]
              · exact hsucc_aux doCopy (fun _ _ _ => hdci)

theorem eq_of_getD_agree (P Q : List Int) (hlen : P.length = Q.length)
    (h : ∀ j, j < P.length → P.getD j 0 = Q.getD j 0) : P = Q := by
  have := drop_eq_of_agree P Q 0 hlen (fun j _ hj => h j hj)
  simpa using this

/-- Restoration: unmarking from position k recovers the original array when
every entry is either untouched or a mark -(original)-1 at a position at
least k, and the original is nonnegative. -/
theorem unmarkFrom_restore (P0 P : List Int) (k : Nat)
    (hnn : ∀ x ∈ P0, 0 ≤ x)
    (hlen : P.length = P0.length)
    (hc : ∀ j, j < P0.length → P.getD j 0 = P0.getD j 0 ∨
      (k ≤ j ∧ P.getD j 0 = -(P0.getD j 0) - 1)) :
    unmarkFrom k P = P0 := by
  unfold unmarkFrom
  apply List.ext_getElem
  · rw [List.length_append, List.length_take, List.length_map, List.length_drop]
    omega
  intro j h1 h2
  have hjP : j < P.length := by omega
  have hPj : P.getD j 0 = P[j] := getD_eq_getElem P j hjP
  have hP0j : P0.getD j 0 = P0[j] := getD_eq_getElem P0 j h2
  have hnnj : 0 ≤ P0.getD j 0 := hnn _ (getD_mem P0 j h2)
  rcases Nat.lt_or_ge j k with hjk | hjk
  · have hjt : j < (P.take k).length := by
      rw [List.length_take]
      omega
    rw [List.getElem_append_left hjt]
    have he : (P.take k)[j] = P[j] := List.getElem_take ..
    rw [he, ← hPj, ← hP0j]
    rcases hc j h2 with h | h
    · exact h
    · omega
  · have hmin : (P.take k).length = k := by
      rw [List.length_take]
      omega
    have hjt : (P.take k).length ≤ j := by omega
    rw [List.getElem_append_right hjt]
    simp only [List.getElem_map]
    have hdl : j - (P.take k).length < (P.drop k).length := by
      rw [List.length_drop]
      omega
    have hb2 : k + (j - (P.take k).length) < P.length := by omega
    have he2 : (P.drop k)[j - (P.take k).length] =
        P[k + (j - (P.take k).length)] := List.getElem_drop ..
    have hidx : P[k + (j - (P.take k).length)] = P[j] := by
      congr 1
      omega
    rw [he2, hidx, ← hPj, ← hP0j]
    rcases hc j h2 with h | h
    · rw [h, if_neg (by omega)]
    · rw [h.2, if_pos (by omega)]
      ring

theorem unmarkAll_eq_unmarkFrom_zero (P : List Int) :
    unmarkAll P = unmarkFrom 0 P := by
  unfold unmarkAll unmarkFrom
  simp

/-- The subset starting at s, written as the image of its position range. -/
theorem subsetAt_eq_range_map (chars : List Int) (d : Int) (s : Nat) :
    subsetAt chars d s =
      (List.range' s (skipSubset chars d s - s)).map (fun k => chars.getD k 0) := by
  apply List.ext_getElem
  · rw [List.length_map, List.length_range']
    unfold subsetAt skipSubset
    omega
  intro i h1 h2
  have hlt : i < ((chars.drop s).takeWhile (fun c => c != d)).length := by
    unfold subsetAt at h1
    exact h1
  have hdl : i < (chars.drop s).length :=
    lt_of_lt_of_le hlt (List.takeWhile_prefix _).sublist.length_le
  have hcl : s + i < chars.length := by
    rw [List.length_drop] at hdl
    omega
  have he1 : ((chars.drop s).takeWhile (fun c => c != d))[i] = (chars.drop s)[i] :=
    List.IsPrefix.getElem (List.takeWhile_prefix _) hlt
  have he2 : (chars.drop s)[i] = chars[s + i] := List.getElem_drop ..
  show ((chars.drop s).takeWhile (fun c => c != d))[i] = _
  rw [he1, he2]
  simp only [List.getElem_map]
  have hri : i < (List.range' s (skipSubset chars d s - s)).length := by
    rw [List.length_range']
    unfold skipSubset
    omega
  have hr : (List.range' s (skipSubset chars d s - s))[i] = s + i := by
    rw [List.getElem_range']
    omega
  rw [hr, getD_eq_getElem chars (s + i) hcl]

theorem flatten_map_comm (f : Nat → Int) :
    ∀ L : List (List Nat), (L.map (fun l => l.map f)).flatten = L.flatten.map f
  | [] => rfl
  | l :: L => by
      simp only [List.map_cons, List.flatten_cons, List.map_append,
        flatten_map_comm f L]

/-- Disjointness of subsets: the scan of an earlier start stops at or before a
later start. -/
theorem skipSubset_le_next (chars : List Int) (d : Int) (s t : Nat)
    (hs : isSubsetStart chars d s) (ht : isSubsetStart chars d t) (hlt : s < t) :
    skipSubset chars d s ≤ t := by
  by_contra hcon
  push_neg at hcon
  have h1 : s ≤ t - 1 := by omega
  have h2 : t - 1 < skipSubset chars d s := by omega
  have hne := (skipSubset_mid chars d s (t - 1) h1 h2).2
  rcases ht.2.2 with h0 | h0
  · omega
  · exact hne h0

/-- Positions scanned by the union pass: nodup and covered by the chosen
subsets. -/
theorem chosenPos_spec (chars : List Int) (d : Int) :
    ∀ S : List Nat, (∀ s ∈ S, isSubsetStart chars d s) → S.Pairwise (· < ·) →
      ((S.map (fun s => List.range' s (skipSubset chars d s - s))).flatten.Nodup ∧
       (∀ k ∈ (S.map (fun s => List.range' s (skipSubset chars d s - s))).flatten,
         ∃ s ∈ S, s ≤ k ∧ k < skipSubset chars d s))
  | [], _, _ => ⟨List.nodup_nil, by simp⟩
  | s :: S', hmem, hpw => by
      have hs := hmem s (by simp)
      have hpw' := List.pairwise_cons.mp hpw
      obtain ⟨ih1, ih2⟩ := chosenPos_spec chars d S'
        (fun u hu => hmem u (List.mem_cons_of_mem s hu)) hpw'.2
      have hge : s ≤ skipSubset chars d s := Nat.le_add_right ..
      simp only [List.map_cons, List.flatten_cons]
      constructor
      · rw [List.nodup_append]
        refine ⟨List.nodup_range' .., ih1, ?_⟩
        intro k hk1 hk2
        have hb1 := List.mem_range'_1.mp hk1
        obtain ⟨t, htS, ht1, ht2⟩ := ih2 k hk2
        have hst : s < t := hpw'.1 t htS
        have hle := skipSubset_le_next chars d s t hs (hmem t (List.mem_cons_of_mem s htS)) hst
        omega
      · intro k hk
        rcases List.mem_append.mp hk with hk | hk
        · have hb := List.mem_range'_1.mp hk
          exact ⟨s, by simp, by omega, by omega⟩
        · obtain ⟨t, htS, ht1, ht2⟩ := ih2 k hk
          exact ⟨t, List.mem_cons_of_mem s htS, ht1, ht2⟩

/-- The characters of the chosen subsets followed by those of the unchosen
non-delimiter positions form a duplicate-free list of non-delimiter
characters of the partition. -/
theorem chosen_unchosen_nodup (chars : List Int) (d : Int) (S : List Nat)
    (hval : ValidSpec chars d)
    (hSmem : ∀ s ∈ S, isSubsetStart chars d s)
    (hSpw : S.Pairwise (· < ·)) :
    ((S.map (fun s => subsetAt chars d s)).flatten ++
      unchosenPrefix chars d S chars.length).Nodup ∧
    (∀ c ∈ (S.map (fun s => subsetAt chars d s)).flatten ++
      unchosenPrefix chars d S chars.length, c ∈ chars ∧ c ≠ d) := by
  obtain ⟨hC1, hC2⟩ := chosenPos_spec chars d S hSmem hSpw
  have hvals : (S.map (fun s => subsetAt chars d s)).flatten ++
      unchosenPrefix chars d S chars.length =
      ((S.map (fun s => List.range' s (skipSubset chars d s - s))).flatten ++
        (List.range chars.length).filter (fun j => (chars.getD j 0 != d) &&
          !(decide (findStartPos chars d j ∈ S)))).map (fun k => chars.getD k 0) := by
    rw [List.map_append]
    congr 1
    · have h1 : S.map (fun s => subsetAt chars d s) =
          (S.map (fun s => List.range' s (skipSubset chars d s - s))).map
            (fun l => l.map (fun k => chars.getD k 0)) := by
        rw [List.map_map]
        apply List.map_congr_left
        intro s _
        exact subsetAt_eq_range_map chars d s
      rw [h1, flatten_map_comm]
  have hmemPC : ∀ k ∈ (S.map (fun s =>
      List.range' s (skipSubset chars d s - s))).flatten,
      k < chars.length ∧ chars.getD k 0 ≠ d := by
    intro k hk
    obtain ⟨s, _, hk1, hk2⟩ := hC2 k hk
    exact skipSubset_mid chars d s k hk1 hk2
  have hmemPU : ∀ k ∈ (List.range chars.length).filter
      (fun j => (chars.getD j 0 != d) && !(decide (findStartPos chars d j ∈ S))),
      k < chars.length ∧ chars.getD k 0 ≠ d := by
    intro k hk
    have h1 := List.mem_range.mp (List.mem_of_mem_filter hk)
    have h2 := List.of_mem_filter hk
    simp only [Bool.and_eq_true, bne_iff_ne, ne_eq, Bool.not_eq_true',
      decide_eq_false_iff_not] at h2
    exact ⟨h1, h2.1⟩
  have hmemBoth : ∀ k ∈ (S.map (fun s =>
      List.range' s (skipSubset chars d s - s))).flatten ++
      (List.range chars.length).filter (fun j => (chars.getD j 0 != d) &&
        !(decide (findStartPos chars d j ∈ S))),
      k < chars.length ∧ chars.getD k 0 ≠ d := by
    intro k hk
    rcases List.mem_append.mp hk with hk | hk
    · exact hmemPC k hk
    · exact hmemPU k hk
  constructor
  · rw [hvals]
    apply List.Nodup.map_on
    · intro k1 hk1 k2 hk2 heq
      obtain ⟨hl1, hd1⟩ := hmemBoth k1 hk1
      obtain ⟨hl2, hd2⟩ := hmemBoth k2 hk2
      exact getD_inj_of_nodup_filter chars d hval.2.2.2.2.2 k1 k2 hl1 hl2 hd1 hd2 heq
    · rw [List.nodup_append]
      refine ⟨hC1, (List.nodup_range _).filter _, ?_⟩
      intro k hkC hkU
      obtain ⟨s, hsS, hk1, hk2⟩ := hC2 k hkC
      have hfp : findStartPos chars d k = s :=
        findStartPos_mid chars d s (hSmem s hsS) k hk1 hk2
      have h2 := List.of_mem_filter hkU
      simp only [Bool.and_eq_true, bne_iff_ne, ne_eq, Bool.not_eq_true',
        decide_eq_false_iff_not] at h2
      exact h2.2 (hfp ▸ hsS)
  · intro c hc
    rw [hvals] at hc
    obtain ⟨k, hk, rfl⟩ := List.mem_map.mp hc
    obtain ⟨hkl, hkd⟩ := hmemBoth k hk
    exact ⟨getD_mem chars k hkl, hkd⟩

/-- Full characterization of dpborder_partGetIdxNew under the level
preconditions (nonnegative valid parent, increasing chosen subset starts,
bordercharmap dropping or lowering every non-delimiter character below the
new delimiter, injective on kept characters, never hitting the extension
character, and an extension character that is absent or below the new
delimiter): either the call returns -1 with the parent array restored and at
most scratch writes beyond the used buffer region, or it appends one child
partition that is valid for the new delimiter. -/
theorem getIdxNew_main (parent : List Int) (dprev : Int) (S : List Nat)
    (B : DPBORDER)
    (hval : ValidSpec parent dprev)
    (hnn : ∀ x ∈ parent, 0 ≤ x)
    (hSmem : ∀ s ∈ S, isSubsetStart parent dprev s)
    (hSpw : S.Pairwise (· < ·))
    (hm1 : ∀ c : Int, 0 ≤ c → c < dprev →
      (B.bordercharmap c = -1 ∨ B.bordercharmap c < B.topdelimiter))
    (hminj : ∀ c c' : Int, 0 ≤ c → c < dprev → 0 ≤ c' → c' < dprev →
      B.bordercharmap c ≠ -1 → B.bordercharmap c = B.bordercharmap c' → c = c')
    (hmext : ∀ c : Int, 0 ≤ c → c < dprev → B.bordercharmap c ≠ B.extborderchar)
    (hext : B.extborderchar = -1 ∨
      (0 ≤ B.extborderchar ∧ B.extborderchar < B.topdelimiter)) :
    ((dpborder_partGetIdxNew parent dprev S B).1 = -1 ∧
      (dpborder_partGetIdxNew parent dprev S B).2.1 = parent ∧
      ((dpborder_partGetIdxNew parent dprev S B).2.2 = B ∨
        ∃ acc, (dpborder_partGetIdxNew parent dprev S B).2.2 =
          scratchState B acc)) ∨
    (∃ acc, dpborder_partGetIdxNew parent dprev S B =
        ((B.global_npartitions : Int), parent, appendUnionState B acc) ∧
      ValidSpec acc B.topdelimiter) := by
  obtain ⟨hu1, hu2, hu3⟩ := unionLoop_spec B.bordercharmap dprev parent S parent []
    rfl hSmem hSpw (fun _ _ _ => rfl)
  have hCU := chosen_unchosen_nodup parent dprev S hval hSmem hSpw
  have hdomCU : ∀ c ∈ (S.map (fun s => subsetAt parent dprev s)).flatten ++
      unchosenPrefix parent dprev S parent.length, 0 ≤ c ∧ c < dprev := by
    intro c hc
    have h := hCU.2 c hc
    exact ⟨hnn c h.1, lt_of_le_of_ne (hval.2.2.2.2.1 c h.1) h.2⟩
  have hr12lt : ∀ x ∈ (unionLoop B.bordercharmap dprev S parent []).2,
      x < B.topdelimiter := by
    intro x hx
    rw [hu3] at hx
    simp only [List.nil_append] at hx
    obtain ⟨c, hc, hne, hbc⟩ := (mem_mapKeep _ _ x).mp hx
    obtain ⟨h0, h1⟩ := hdomCU c (List.mem_append.mpr (Or.inl hc))
    rcases hm1 c h0 h1 with h | h
    · exact absurd h hne
    · rw [← hbc]
      exact h
  unfold dpborder_partGetIdxNew
  dsimp only
  simp only [dpborder_getTopDelimiter]
  set r1 := unionLoop B.bordercharmap dprev S parent [] with hr1
  set acc2 := (if 0 ≤ B.extborderchar then r1.2 ++ [B.extborderchar] else r1.2)
    with hacc2
  have hu3' : r1.2 = mapKeep B.bordercharmap
      ((S.map (fun s => subsetAt parent dprev s)).flatten) := by
    rw [hu3]
    exact List.nil_append _
  by_cases hA : acc2 = []
  · rw [if_pos hA]
    left
    refine ⟨rfl, ?_, Or.inl rfl⟩
    show unmarkAll r1.1 = parent
    rw [unmarkAll_eq_unmarkFrom_zero]
    apply unmarkFrom_restore parent r1.1 0 hnn hu1
    intro j hj
    rw [hu2 j hj]
    by_cases hjS : j ∈ S
    · rw [if_pos hjS]
      exact Or.inr ⟨Nat.zero_le j, rfl⟩
    · rw [if_neg hjS]
      exact Or.inl rfl
  · rw [if_neg hA]
    set acc4 := (if 0 ≤ r1.1.getD 0 0 then acc2 ++ [B.topdelimiter] else acc2)
      with hacc4
    set r5 := mainLoop B.bordercharmap dprev B.topdelimiter parent.length 0
      r1.1 acc4 true with hr5
    have hacc2lt : ∀ x ∈ acc2, x < B.topdelimiter := by
      intro x hx
      rw [hacc2] at hx
      by_cases hE : 0 ≤ B.extborderchar
      · rw [if_pos hE] at hx
        rcases List.mem_append.mp hx with hx | hx
        · exact hr12lt x hx
        · have hxe : x = B.extborderchar := by simpa using hx
          rcases hext with h | h
          · omega
          · rw [hxe]
            exact h.2
      · rw [if_neg hE] at hx
        exact hr12lt x hx
    have hfacc2 : acc2.filter (· != B.topdelimiter) = acc2 :=
      List.filter_eq_self.mpr (fun a ha => by
        simpa using ne_of_lt (hacc2lt a ha))
    have hPc4 : ∀ j, j < parent.length → r1.1.getD j 0 =
        (if j ∈ S ∧ 0 ≤ j then -(parent.getD j 0) - 1 else parent.getD j 0) := by
      intro j hj
      rw [hu2 j hj]
      by_cases hjS : j ∈ S
      · rw [if_pos hjS, if_pos ⟨hjS, Nat.zero_le j⟩]
      · rw [if_neg hjS, if_neg (fun hc => hjS hc.1)]
    have hane4 : acc4 ≠ [] := by
      rw [hacc4]
      by_cases h0 : 0 ≤ r1.1.getD 0 0
      · rw [if_pos h0]
        simp
      · rw [if_neg h0]
        exact hA
    have hhead4 : ∀ h ∈ acc4.head?, h ≠ B.topdelimiter := by
      intro h hh
      have hmem : h ∈ acc2 := by
        rw [hacc4] at hh
        by_cases h0 : 0 ≤ r1.1.getD 0 0
        · rw [if_pos h0, List.head?_append_of_ne_nil acc2 hA] at hh
          exact List.mem_of_mem_head? hh
        · rw [if_neg h0] at hh
          exact List.mem_of_mem_head? hh
      exact ne_of_lt (hacc2lt h hmem)
    have hchain2 : List.Chain' (NotBothDelim B.topdelimiter) acc2 :=
      chain'_of_forall_left acc2 (fun a ha b hcon =>
        absurd hcon.1 (ne_of_lt (hacc2lt a ha)))
    have hchain4 : List.Chain' (NotBothDelim B.topdelimiter) acc4 := by
      rw [hacc4]
      by_cases h0 : 0 ≤ r1.1.getD 0 0
      · rw [if_pos h0]
        refine chain'_snoc _ acc2 _ hchain2 (fun y hy => ?_)
        have hmem := List.mem_of_mem_getLast? hy
        exact fun hcon => absurd hcon.1 (ne_of_lt (hacc2lt y hmem))
      · rw [if_neg h0]
        exact hchain2
    have helem4 : ∀ x ∈ acc4, x = B.topdelimiter ∨ x < B.topdelimiter := by
      intro x hx
      rw [hacc4] at hx
      by_cases h0 : 0 ≤ r1.1.getD 0 0
      · rw [if_pos h0] at hx
        rcases List.mem_append.mp hx with hx | hx
        · exact Or.inr (hacc2lt x hx)
        · exact Or.inl (by simpa using hx)
      · rw [if_neg h0] at hx
        exact Or.inr (hacc2lt x hx)
    have hfilter4 : acc4.filter (· != B.topdelimiter) =
        acc2 ++ mapKeep B.bordercharmap (unchosenPrefix parent dprev S 0) := by
      rw [show unchosenPrefix parent dprev S 0 = [] from rfl,
        show mapKeep B.bordercharmap [] = [] from rfl, List.append_nil]
      rw [hacc4]
      by_cases h0 : 0 ≤ r1.1.getD 0 0
      · rw [if_pos h0, List.filter_append, hfacc2,
          List.filter_cons_of_neg (by simp), List.filter_nil, List.append_nil]
      · rw [if_neg h0]
        exact hfacc2
    have hdc4 : parent.getD 0 0 ≠ dprev → 0 ∉ S → 0 < parent.length →
        (true = true ↔ findStartPos parent dprev 0 ∉ S) := by
      intro h1 h2 h3
      have hst : isSubsetStart parent dprev 0 := ⟨h3, h1, Or.inl rfl⟩
      rw [findStartPos_start parent dprev 0 hst]
      exact ⟨fun _ => h2, fun _ => rfl⟩
    have hpost := mainLoop_master B.bordercharmap dprev B.topdelimiter parent S
      acc2 hval hnn hSmem hm1 parent.length 0 r1.1 acc4 true rfl hu1 hPc4
      hane4 hhead4 hchain4 helem4 hfilter4 hdc4
    rw [← hr5] at hpost
    obtain ⟨hp1, hp2, hp3⟩ := hpost
    by_cases hfail : r5.2.2.1 = true ∨ r5.2.1.getLast? = some B.topdelimiter
    · rw [if_pos hfail]
      left
      refine ⟨rfl, ?_, Or.inr ⟨r5.2.1, rfl⟩⟩
      show unmarkFrom (r5.2.2.2 + 1) r5.1 = parent
      apply unmarkFrom_restore parent r5.1 (r5.2.2.2 + 1) hnn hp1
      intro j hj
      rw [hp2 j hj]
      by_cases hcond : j ∈ S ∧ r5.2.2.1 = true ∧ r5.2.2.2 + 1 ≤ j
      · rw [if_pos hcond]
        exact Or.inr ⟨hcond.2.2, rfl⟩
      · rw [if_neg hcond]
        exact Or.inl rfl
    · rw [if_neg hfail]
      push_neg at hfail
      obtain ⟨hfail1, hfail2⟩ := hfail
      have hf1 : r5.2.2.1 = false := by simpa using hfail1
      obtain ⟨hne5, hhead5, hchain5, helem5, hfilter5⟩ := hp3 hf1
      have hparent5 : r5.1 = parent := by
        apply eq_of_getD_agree r5.1 parent (by rw [hp1])
        intro j hj
        rw [hp1] at hj
        rw [hp2 j hj, if_neg (fun hc => by
          rw [hf1] at hc
          exact Bool.noConfusion hc.2.1)]
      right
      refine ⟨r5.2.1, ?_, ?_⟩
      · rw [hparent5]
        rfl
      · refine ⟨hne5, ?_, hfail2, hchain5, ?_, ?_⟩
        · intro hcon
          exact hhead5 B.topdelimiter (Option.mem_def.mpr hcon) rfl
        · intro x hx
          rcases helem5 x hx with h | h
          · exact le_of_eq h
          · exact le_of_lt h
        · rw [hfilter5, hacc2, hu3']
          have hndCU : (mapKeep B.bordercharmap
              ((S.map (fun s => subsetAt parent dprev s)).flatten ++
               unchosenPrefix parent dprev S parent.length)).Nodup :=
            mapKeep_nodup B.bordercharmap dprev _ hCU.1 hdomCU hminj
          by_cases hE : 0 ≤ B.extborderchar
          · rw [if_pos hE, List.append_assoc, List.singleton_append,
              List.nodup_middle, List.nodup_cons]
            constructor
            · intro hmem
              rw [← mapKeep_append] at hmem
              obtain ⟨c, hc, hne, hbc⟩ := (mem_mapKeep _ _ _).mp hmem
              obtain ⟨h0, h1⟩ := hdomCU c hc
              exact hmext c h0 h1 hbc
            · rw [← mapKeep_append]
              exact hndCU
          · rw [if_neg hE, ← mapKeep_append]
            exact hndCU

/-- With the previous delimiter remapped to the new one, dropping the new
delimiters from the remapped child is the same as remapping the non-delimiter
characters of the parent. -/
theorem mapKeep_cons_drop (bmap : Int → Int) (c : Int) (L : List Int)
    (h : bmap c = -1) : mapKeep bmap (c :: L) = mapKeep bmap L := by
  simp [mapKeep, h]

theorem mapKeep_cons_keep (bmap : Int → Int) (c : Int) (L : List Int)
    (h : bmap c ≠ -1) : mapKeep bmap (c :: L) = bmap c :: mapKeep bmap L := by
  simp [mapKeep, h]

theorem filter_mapKeep_delim (bmap : Int → Int) (dprev dnew : Int)
    (hmapd : bmap dprev = dnew)
    (hm1 : ∀ c : Int, 0 ≤ c → c < dprev → (bmap c = -1 ∨ bmap c < dnew)) :
    ∀ L : List Int, (∀ x ∈ L, x = dprev ∨ (0 ≤ x ∧ x < dprev)) →
      (mapKeep bmap L).filter (· != dnew) = mapKeep bmap (L.filter (· != dprev))
  | [] => fun _ => rfl
  | c :: L => by
      intro hdom
      have ih := filter_mapKeep_delim bmap dprev dnew hmapd hm1 L
        (fun x hx => hdom x (List.mem_cons_of_mem c hx))
      rcases hdom c (by simp) with hc | hc
      · rw [List.filter_cons_of_neg (by simp [hc])]
        by_cases hd : bmap c = -1
        · rw [mapKeep_cons_drop bmap c L hd]
          exact ih
        · rw [mapKeep_cons_keep bmap c L hd]
          rw [List.filter_cons_of_neg (by
            rw [hc, hmapd]
            simp)]
          exact ih
      · rw [List.filter_cons_of_pos (by
          simp only [bne_iff_ne, ne_eq, decide_eq_true_eq]
          omega)]
        by_cases hd : bmap c = -1
        · rw [mapKeep_cons_drop bmap c L hd,
            mapKeep_cons_drop bmap c (L.filter (· != dprev)) hd]
          exact ih
        · have hlt : bmap c < dnew := by
            rcases hm1 c hc.1 hc.2 with h | h
            · exact absurd h hd
            · exact h
          rw [mapKeep_cons_keep bmap c L hd,
            mapKeep_cons_keep bmap c (L.filter (· != dprev)) hd]
          rw [List.filter_cons_of_pos (by
            simp only [bne_iff_ne, ne_eq, decide_eq_true_eq]
            omega)]
          rw [ih]

theorem getD_append_lt (l l' : List Nat) (n : Nat) (h : n < l.length) :
    (l ++ l').getD n 0 = l.getD n 0 := by
  rw [List.getD_eq_getElem?_getD, List.getD_eq_getElem?_getD,
    List.getElem?_append, if_pos h]

theorem getD_append_len (l : List Nat) (v : Nat) :
    (l ++ [v]).getD l.length 0 = v := by
  rw [List.getD_eq_getElem?_getD,
    List.getElem?_append_right (le_refl l.length)]
  simp

/-- Reading the newly appended partition back from the store between its
recorded start and end offsets yields the canonically sorted child, which is
valid whenever the child is. -/
theorem append_read_valid (B : DPBORDER) (acc : List Int)
    (hlock : StoreLockstep B)
    (hcap : B.global_partstarts.getD B.global_npartitions 0 ≤
      B.global_partitions.length)
    (hvalacc : ValidSpec acc B.topdelimiter) :
    dpborder_partIsValid
      (((overwriteFrom (B.global_partstarts.getD B.global_npartitions 0)
          (partitionSortSubsets B.topdelimiter acc) B.global_partitions).drop
        ((B.global_partstarts ++
          [B.global_partstarts.getD B.global_npartitions 0 + acc.length]).getD
            B.global_npartitions 0)).take
        ((B.global_partstarts ++
          [B.global_partstarts.getD B.global_npartitions 0 + acc.length]).getD
            (B.global_npartitions + 1) 0 -
         (B.global_partstarts ++
          [B.global_partstarts.getD B.global_npartitions 0 + acc.length]).getD
            B.global_npartitions 0))
      B.topdelimiter = true := by
  have hst : (B.global_partstarts ++
      [B.global_partstarts.getD B.global_npartitions 0 + acc.length]).getD
        B.global_npartitions 0 = B.global_partstarts.getD B.global_npartitions 0 :=
    getD_append_lt _ _ _ (by rw [hlock.1]; omega)
  have hen : (B.global_partstarts ++
      [B.global_partstarts.getD B.global_npartitions 0 + acc.length]).getD
        (B.global_npartitions + 1) 0 =
      B.global_partstarts.getD B.global_npartitions 0 + acc.length := by
    rw [← hlock.1]
    exact getD_append_len _ _
  rw [hst, hen]
  have harith : B.global_partstarts.getD B.global_npartitions 0 + acc.length -
      B.global_partstarts.getD B.global_npartitions 0 = acc.length := by omega
  rw [harith]
  have hlenacc : acc.length = (partitionSortSubsets B.topdelimiter acc).length :=
    (partitionSortSubsets_length B.topdelimiter acc).symm
  rw [hlenacc, overwriteFrom_read _ _ _ hcap]
  have hvsort := validSpec_partitionSortSubsets B.topdelimiter acc hvalacc
  exact (partIsValid_iff_validSpec _ _ hvsort.1).mpr hvsort

/-- C1 (amended): validity closure.  For a valid nonnegative parent partition,
chosen starts drawn (in order) from the subset starts of the parent, and the
level preconditions on bordercharmap (each non-delimiter character below the
previous delimiter is dropped or sent below the new top delimiter, kept
characters injectively and never onto the extension character, the previous
delimiter onto the new delimiter) together with an extension character that
is absent (-1) or a nonnegative value below the new delimiter, whenever
dpborder_partGetIdxNew or dpborder_partGetIdxNewExclusive returns an index
at least 0, the characters stored between the recorded start and end offsets
of the new partition satisfy dpborder_partIsValid for the new top delimiter.
The amendment adds the nonnegativity of the parent characters (not implied
by dpborder_partIsValid) and the requirement that the extension character is
-1 or below the new delimiter; without them the claim is refuted by
C1_validity_closure_cex. -/
theorem C1_validity_closure (parent : List Int) (dprev : Int) (S : List Nat)
    (B : DPBORDER)
    (hpne : parent ≠ [])
    (hval : dpborder_partIsValid parent dprev = true)
    (hnn : ∀ x ∈ parent, 0 ≤ x)
    (hS : S.Sublist (subsetStartsList parent dprev))
    (hm1 : ∀ c : Int, 0 ≤ c → c < dprev →
      (B.bordercharmap c = -1 ∨ B.bordercharmap c < dpborder_getTopDelimiter B))
    (hminj : ∀ c c' : Int, 0 ≤ c → c < dprev → 0 ≤ c' → c' < dprev →
      B.bordercharmap c ≠ -1 → B.bordercharmap c = B.bordercharmap c' → c = c')
    (hmext : ∀ c : Int, 0 ≤ c → c < dprev → B.bordercharmap c ≠ B.extborderchar)
    (hmapd : B.bordercharmap dprev = dpborder_getTopDelimiter B)
    (hext : B.extborderchar = -1 ∨
      (0 ≤ B.extborderchar ∧ B.extborderchar < dpborder_getTopDelimiter B))
    (hlock : StoreLockstep B)
    (hcap : B.global_partstarts.getD B.global_npartitions 0 ≤
      B.global_partitions.length) :
    (0 ≤ (dpborder_partGetIdxNew parent dprev S B).1 →
      dpborder_partIsValid
        ((((dpborder_partGetIdxNew parent dprev S B).2.2.global_partitions).drop
            ((dpborder_partGetIdxNew parent dprev S B).2.2.global_partstarts.getD
              B.global_npartitions 0)).take
          ((dpborder_partGetIdxNew parent dprev S B).2.2.global_partstarts.getD
              (B.global_npartitions + 1) 0 -
            (dpborder_partGetIdxNew parent dprev S B).2.2.global_partstarts.getD
              B.global_npartitions 0))
        (dpborder_getTopDelimiter B) = true) ∧
    (0 ≤ (dpborder_partGetIdxNewExclusive parent dprev B).1 →
      dpborder_partIsValid
        ((((dpborder_partGetIdxNewExclusive parent dprev B).2.global_partitions).drop
            ((dpborder_partGetIdxNewExclusive parent dprev B).2.global_partstarts.getD
              B.global_npartitions 0)).take
          ((dpborder_partGetIdxNewExclusive parent dprev B).2.global_partstarts.getD
              (B.global_npartitions + 1) 0 -
            (dpborder_partGetIdxNewExclusive parent dprev B).2.global_partstarts.getD
              B.global_npartitions 0))
        (dpborder_getTopDelimiter B) = true) := by
  have hvs := (partIsValid_iff_validSpec parent dprev hpne).mp hval
  have hSmem := subsetStartsList_mem parent dprev S hS
  have hSpw := subsetStartsList_pairwise parent dprev S hS
  have htop : dpborder_getTopDelimiter B = B.topdelimiter := rfl
  rw [htop] at hm1 hmapd hext ⊢
  constructor
  · intro hge
    rcases getIdxNew_main parent dprev S B hvs hnn hSmem hSpw hm1 hminj hmext hext
      with ⟨hneg, -, -⟩ | ⟨acc, heq, hvalacc⟩
    · rw [hneg] at hge
      exact absurd hge (by norm_num)
    · rw [heq]
      exact append_read_valid B acc hlock hcap hvalacc
  · intro hge
    have hdomP : ∀ x ∈ parent, x = dprev ∨ (0 ≤ x ∧ x < dprev) := by
      intro x hx
      rcases eq_or_ne x dprev with h | h
      · exact Or.inl h
      · exact Or.inr ⟨hnn x hx, lt_of_le_of_ne (hvs.2.2.2.2.1 x hx) h⟩
    by_cases h1 : mapKeep B.bordercharmap parent = [] ∨
        (mapKeep B.bordercharmap parent).head? = some (dpborder_getTopDelimiter B) ∨
        (mapKeep B.bordercharmap parent).getLast? = some (dpborder_getTopDelimiter B)
    · rw [getIdxNewExclusive_eq_reject1 parent dprev B h1] at hge
      exact absurd hge (by norm_num)
    · by_cases h2 : noAdjacentDelim (dpborder_getTopDelimiter B)
          (mapKeep B.bordercharmap parent) = false
      · rw [getIdxNewExclusive_eq_reject2 parent dprev B h1 h2] at hge
        exact absurd hge (by norm_num)
      · rw [getIdxNewExclusive_eq_accept parent dprev B h1 h2]
        push_neg at h1
        obtain ⟨h1a, h1b, h1c⟩ := h1
        have h2' : noAdjacentDelim (dpborder_getTopDelimiter B)
            (mapKeep B.bordercharmap parent) = true := by
          simpa using h2
        have hvalacc : ValidSpec (mapKeep B.bordercharmap parent) B.topdelimiter := by
          refine ⟨h1a, h1b, h1c, (noAdjacentDelim_iff _ _).mp h2', ?_, ?_⟩
          · intro x hx
            obtain ⟨c, hc, hne, hbc⟩ := (mem_mapKeep _ _ x).mp hx
            rcases hdomP c hc with h | h
            · rw [← hbc, h, hmapd]
            · rcases hm1 c h.1 h.2 with hh | hh
              · exact absurd hh hne
              · rw [← hbc]
                exact le_of_lt hh
          · rw [filter_mapKeep_delim B.bordercharmap dprev B.topdelimiter hmapd
              hm1 parent hdomP]
            apply mapKeep_nodup B.bordercharmap dprev _ hvs.2.2.2.2.2 ?_ hminj
            intro c hc
            have hcp := List.mem_of_mem_filter hc
            have hcd := List.of_mem_filter hc
            simp only [bne_iff_ne, ne_eq, decide_eq_true_eq] at hcd
            exact ⟨hnn c hcp, lt_of_le_of_ne (hvs.2.2.2.2.1 c hcp) hcd⟩
        exact append_read_valid B (mapKeep B.bordercharmap parent) hlock hcap hvalacc

/-- Closed witness for C1 at a concrete input. -/
theorem C1_validity_closure_witness :
    (0 ≤ (dpborder_partGetIdxNew [0] 1 [0] exampleB).1 →
      dpborder_partIsValid
        ((((dpborder_partGetIdxNew [0] 1 [0] exampleB).2.2.global_partitions).drop
            ((dpborder_partGetIdxNew [0] 1 [0] exampleB).2.2.global_partstarts.getD
              exampleB.global_npartitions 0)).take
          ((dpborder_partGetIdxNew [0] 1 [0] exampleB).2.2.global_partstarts.getD
              (exampleB.global_npartitions + 1) 0 -
            (dpborder_partGetIdxNew [0] 1 [0] exampleB).2.2.global_partstarts.getD
              exampleB.global_npartitions 0))
        (dpborder_getTopDelimiter exampleB) = true) ∧
    (0 ≤ (dpborder_partGetIdxNewExclusive [0] 1 exampleB).1 →
      dpborder_partIsValid
        ((((dpborder_partGetIdxNewExclusive [0] 1 exampleB).2.global_partitions).drop
            ((dpborder_partGetIdxNewExclusive [0] 1 exampleB).2.global_partstarts.getD
              exampleB.global_npartitions 0)).take
          ((dpborder_partGetIdxNewExclusive [0] 1 exampleB).2.global_partstarts.getD
              (exampleB.global_npartitions + 1) 0 -
            (dpborder_partGetIdxNewExclusive [0] 1 exampleB).2.global_partstarts.getD
              exampleB.global_npartitions 0))
        (dpborder_getTopDelimiter exampleB) = true) :=
  C1_validity_closure [0] 1 [0] exampleB (by decide) (by decide) (by decide)
    (by decide)
    (fun _ _ h2 => Or.inr h2)
    (fun _ _ _ _ _ _ _ heq => heq)
    (fun c h1 _ hcon => by
      have hc : c = (-1 : Int) := hcon
      omega)
    rfl
    (Or.inl rfl)
    ⟨rfl, rfl, rfl, rfl⟩
    (by decide)

/-- Character map of the C1 counterexample: the identity on the previous
level's characters 0, 1 and its delimiter 2, dropping everything else. -/
def cexMap1 : Int → Int :=
  fun c => if c = 0 then 0 else if c = 1 then 1 else if c = 2 then 2 else -1

/-- Border state of the C1 counterexample: its extension character equals
the new top delimiter, which the frozen claim does not exclude. -/
def cexB1 : DPBORDER :=
  { exampleB with bordercharmap := cexMap1, extborderchar := 2, topdelimiter := 2 }

/-- C1 counterexample to the claim as frozen: the parent [0, 2, 1] with
previous delimiter 2 is valid, the chosen start 2 is drawn from the subset
starts, the character map satisfies every stated level precondition (the
non-delimiter characters 0 and 1 are kept below the new delimiter,
injectively and away from the extension character, and the previous
delimiter is sent to the new delimiter), dpborder_partGetIdxNew returns
index 0 ≥ 0, yet the partition stored between the recorded offsets is
[1, 2, 2, 0], which fails dpborder_partIsValid because of its two adjacent
delimiters; the claim misses that an extension character equal to the new
delimiter (here 2) breaks validity closure. -/
theorem C1_validity_closure_cex :
    dpborder_partIsValid [0, 2, 1] 2 = true ∧
    [2].Sublist (subsetStartsList [0, 2, 1] 2) ∧
    (cexB1.bordercharmap 0 = -1 ∨
      cexB1.bordercharmap 0 < dpborder_getTopDelimiter cexB1) ∧
    (cexB1.bordercharmap 1 = -1 ∨
      cexB1.bordercharmap 1 < dpborder_getTopDelimiter cexB1) ∧
    cexB1.bordercharmap 0 ≠ cexB1.bordercharmap 1 ∧
    cexB1.bordercharmap 0 ≠ cexB1.extborderchar ∧
    cexB1.bordercharmap 1 ≠ cexB1.extborderchar ∧
    cexB1.bordercharmap 2 = dpborder_getTopDelimiter cexB1 ∧
    StoreLockstep cexB1 ∧
    cexB1.global_partstarts.getD cexB1.global_npartitions 0 ≤
      cexB1.global_partitions.length ∧
    0 ≤ (dpborder_partGetIdxNew [0, 2, 1] 2 [2] cexB1).1 ∧
    dpborder_partIsValid
      ((((dpborder_partGetIdxNew [0, 2, 1] 2 [2] cexB1).2.2.global_partitions).drop
          ((dpborder_partGetIdxNew [0, 2, 1] 2 [2]
              cexB1).2.2.global_partstarts.getD cexB1.global_npartitions 0)).take
        ((dpborder_partGetIdxNew [0, 2, 1] 2 [2]
            cexB1).2.2.global_partstarts.getD (cexB1.global_npartitions + 1) 0 -
          (dpborder_partGetIdxNew [0, 2, 1] 2 [2]
              cexB1).2.2.global_partstarts.getD cexB1.global_npartitions 0))
      (dpborder_getTopDelimiter cexB1) = false := by
  refine ⟨by decide, by decide, by decide, by decide, by decide, by decide,
    by decide, by decide, ⟨rfl, rfl, rfl, rfl⟩, by decide, by decide, by decide⟩

/-- Parent-array part of the main pass on its own: independent of the child
accumulator, the parent keeps marks exactly on chosen starts strictly beyond
the break position of a failed run. -/
theorem mainLoop_restore (bmap : Int → Int) (dprev dnew : Int) (P0 : List Int)
    (S : List Nat)
    (hnn : ∀ x ∈ P0, 0 ≤ x) :
    ∀ (fuel : Nat) (i : Nat) (P acc : List Int) (doCopy : Bool),
      fuel + i = P0.length →
      P.length = P0.length →
      (∀ j, j < P0.length → P.getD j 0 =
        (if j ∈ S ∧ i ≤ j then -(P0.getD j 0) - 1 else P0.getD j 0)) →
      ((mainLoop bmap dprev dnew fuel i P acc doCopy).1.length = P0.length ∧
       (∀ j, j < P0.length →
         (mainLoop bmap dprev dnew fuel i P acc doCopy).1.getD j 0 =
           (if j ∈ S ∧ (mainLoop bmap dprev dnew fuel i P acc doCopy).2.2.1 = true ∧
               (mainLoop bmap dprev dnew fuel i P acc doCopy).2.2.2 + 1 ≤ j
             then -(P0.getD j 0) - 1 else P0.getD j 0))) := by
  intro fuel
  induction fuel with
  | zero =>
      intro i P acc doCopy hfi hP hPc
      have hz : mainLoop bmap dprev dnew 0 i P acc doCopy = (P, acc, false, i) := rfl
      rw [hz]
      refine ⟨hP, ?_⟩
      intro j hj
      rw [hPc j hj, if_neg (by omega),
        if_neg (fun hcon => Bool.noConfusion hcon.2.1)]
  | succ fuel ih =>
      intro i P acc doCopy hfi hP hPc
      have hi : i < P0.length := by omega
      have hstep : mainLoop bmap dprev dnew (fuel + 1) i P acc doCopy =
          (if P.getD i 0 < 0 then
            mainLoop bmap dprev dnew fuel (i + 1)
              (P.set i (-(P.getD i 0 + 1))) acc false
          else if P.getD i 0 = dprev then
            if 0 ≤ P.getD (i + 1) 0 then
              if acc.getLast? = some dnew then (P, acc, true, i)
              else mainLoop bmap dprev dnew fuel (i + 1) P (acc ++ [dnew]) true
            else mainLoop bmap dprev dnew fuel (i + 1) P acc doCopy
          else if doCopy = false then
            mainLoop bmap dprev dnew fuel (i + 1) P acc doCopy
          else if bmap (P.getD i 0) = -1 then
            mainLoop bmap dprev dnew fuel (i + 1) P acc doCopy
          else
            mainLoop bmap dprev dnew fuel (i + 1) P
              (acc ++ [bmap (P.getD i 0)]) doCopy) := by
        simp only [mainLoop]
        rw [if_pos (by rw [hP]; exact hi)]
      rw [hstep]
      have hgetDi := hPc i hi
      by_cases hneg : P.getD i 0 < 0
      · rw [if_pos hneg]
        have hiS : i ∈ S := by
          by_contra hcon
          rw [hgetDi, if_neg (fun hc => hcon hc.1)] at hneg
          have := hnn _ (getD_mem P0 i hi)
          omega
        have hPi : P.getD i 0 = -(P0.getD i 0) - 1 := by
          rw [hgetDi, if_pos ⟨hiS, le_refl i⟩]
        apply ih (i + 1) (P.set i (-(P.getD i 0 + 1))) acc false (by omega)
          (by rw [List.length_set]; exact hP)
        intro j hj
        by_cases hji : j = i
        · subst hji
          rw [getD_set_self _ _ _ (by rw [hP]; exact hi), hPi]
          rw [if_neg (by omega)]
          ring
        · rw [getD_set_ne _ _ _ _ (fun hc => hji hc.symm), hPc j hj]
          by_cases hjS : j ∈ S
          · by_cases hij : i ≤ j
            · rw [if_pos ⟨hjS, hij⟩, if_pos ⟨hjS, by omega⟩]
            · rw [if_neg (fun hc => hij hc.2), if_neg (fun hc => by omega)]
          · rw [if_neg (fun hc => hjS hc.1), if_neg (fun hc => hjS hc.1)]
      · rw [if_neg hneg]
        have hiS : i ∉ S := by
          intro hcon
          rw [hgetDi, if_pos ⟨hcon, le_refl i⟩] at hneg
          have := hnn _ (getD_mem P0 i hi)
          omega
        have hshift : ∀ j, j < P0.length → P.getD j 0 =
            (if j ∈ S ∧ i + 1 ≤ j then -(P0.getD j 0) - 1 else P0.getD j 0) := by
          intro j hj
          rw [hPc j hj]
          by_cases hjS : j ∈ S
          · by_cases hij : i + 1 ≤ j
            · rw [if_pos ⟨hjS, by omega⟩, if_pos ⟨hjS, hij⟩]
            · have hji : j ≠ i := fun hc => hiS (hc ▸ hjS)
              rw [if_neg (fun hc => by omega), if_neg (fun hc => hij hc.2)]
          · rw [if_neg (fun hc => hjS hc.1), if_neg (fun hc => hjS hc.1)]
        by_cases hdelim : P.getD i 0 = dprev
        · rw [if_pos hdelim]
          by_cases hnext : 0 ≤ P.getD (i + 1) 0
          · rw [if_pos hnext]
            by_cases hlast : acc.getLast? = some dnew
            · rw [if_pos hlast]
              refine ⟨hP, ?_⟩
              intro j hj
              show P.getD j 0 = (if j ∈ S ∧ (P, acc, true, i).2.2.1 = true ∧
                  (P, acc, true, i).2.2.2 + 1 ≤ j
                then -(P0.getD j 0) - 1 else P0.getD j 0)
              rw [hPc j hj]
              by_cases hjS : j ∈ S
              · by_cases hij : i ≤ j
                · have hji : j ≠ i := fun hc => hiS (hc ▸ hjS)
                  rw [if_pos ⟨hjS, hij⟩, if_pos ⟨hjS, rfl, by
                    show i + 1 ≤ j
                    omega⟩]
                · rw [if_neg (fun hc => hij hc.2), if_neg (fun hc => by
                    have : i + 1 ≤ j := hc.2.2
                    omega)]
              · rw [if_neg (fun hc => hjS hc.1), if_neg (fun hc => hjS hc.1)]
            · rw [if_neg hlast]
              exact ih (i + 1) P (acc ++ [dnew]) true (by omega) hP hshift
          · rw [if_neg hnext]
            exact ih (i + 1) P acc doCopy (by omega) hP hshift
        · rw [if_neg hdelim]
          by_cases hcopy : doCopy = false
          · rw [if_pos hcopy]
            exact ih (i + 1) P acc doCopy (by omega) hP hshift
          · rw [if_neg hcopy]
            by_cases hdrop : bmap (P.getD i 0) = -1
            · rw [if_pos hdrop]
              exact ih (i + 1) P acc doCopy (by omega) hP hshift
            · rw [if_neg hdrop]
              exact ih (i + 1) P (acc ++ [bmap (P.getD i 0)]) doCopy (by omega)
                hP hshift

/-- C2 (corrected): rollback on failure.  For a valid nonnegative parent
partition and chosen starts drawn in order from its subset starts, if
dpborder_partGetIdxNew returns -1 then the side arrays (partstarts,
partcosts, predparts, partsUseExt) and npartitions are unchanged, the
character buffer is unchanged below the first free offset (the claim's
byte-identical buffer is refuted by C2_failure_rollback_cex: the failure
paths of the source leave their partial child writes in the free region of
the buffer), and the parent's character array is restored byte-for-byte, so
it satisfies dpborder_partIsValid again.  The amendment also adds the
nonnegativity of the parent characters, without which the transient
sign-marks cannot be distinguished from original characters. -/
theorem C2_failure_rollback (parent : List Int) (dprev : Int) (S : List Nat)
    (B : DPBORDER)
    (hpne : parent ≠ [])
    (hval : dpborder_partIsValid parent dprev = true)
    (hnn : ∀ x ∈ parent, 0 ≤ x)
    (hS : S.Sublist (subsetStartsList parent dprev))
    (hcap : B.global_partstarts.getD B.global_npartitions 0 ≤
      B.global_partitions.length) :
    (dpborder_partGetIdxNew parent dprev S B).1 = -1 →
      ((dpborder_partGetIdxNew parent dprev S B).2.2.global_partitions.take
          (B.global_partstarts.getD B.global_npartitions 0) =
        B.global_partitions.take
          (B.global_partstarts.getD B.global_npartitions 0) ∧
       (dpborder_partGetIdxNew parent dprev S B).2.2.global_partstarts =
         B.global_partstarts ∧
       (dpborder_partGetIdxNew parent dprev S B).2.2.global_partcosts =
         B.global_partcosts ∧
       (dpborder_partGetIdxNew parent dprev S B).2.2.global_predparts =
         B.global_predparts ∧
       (dpborder_partGetIdxNew parent dprev S B).2.2.global_partsUseExt =
         B.global_partsUseExt ∧
       (dpborder_partGetIdxNew parent dprev S B).2.2.global_npartitions =
         B.global_npartitions ∧
       (dpborder_partGetIdxNew parent dprev S B).2.1 = parent ∧
       dpborder_partIsValid (dpborder_partGetIdxNew parent dprev S B).2.1
         dprev = true) := by
  have hSmem := subsetStartsList_mem parent dprev S hS
  have hSpw := subsetStartsList_pairwise parent dprev S hS
  obtain ⟨hu1, hu2, hu3⟩ := unionLoop_spec B.bordercharmap dprev parent S parent []
    rfl hSmem hSpw (fun _ _ _ => rfl)
  unfold dpborder_partGetIdxNew
  dsimp only
  simp only [dpborder_getTopDelimiter]
  set r1 := unionLoop B.bordercharmap dprev S parent [] with hr1
  set acc2 := (if 0 ≤ B.extborderchar then r1.2 ++ [B.extborderchar] else r1.2)
    with hacc2
  by_cases hA : acc2 = []
  · rw [if_pos hA]
    intro _
    have hrest : unmarkAll r1.1 = parent := by
      rw [unmarkAll_eq_unmarkFrom_zero]
      apply unmarkFrom_restore parent r1.1 0 hnn hu1
      intro j hj
      rw [hu2 j hj]
      by_cases hjS : j ∈ S
      · rw [if_pos hjS]
        exact Or.inr ⟨Nat.zero_le j, rfl⟩
      · rw [if_neg hjS]
        exact Or.inl rfl
    refine ⟨rfl, rfl, rfl, rfl, rfl, rfl, hrest, ?_⟩
    show dpborder_partIsValid (unmarkAll r1.1) dprev = true
    rw [hrest]
    exact hval
  · rw [if_neg hA]
    set acc4 := (if 0 ≤ r1.1.getD 0 0 then acc2 ++ [B.topdelimiter] else acc2)
      with hacc4
    set r5 := mainLoop B.bordercharmap dprev B.topdelimiter parent.length 0
      r1.1 acc4 true with hr5
    have hPc0 : ∀ j, j < parent.length → r1.1.getD j 0 =
        (if j ∈ S ∧ 0 ≤ j then -(parent.getD j 0) - 1 else parent.getD j 0) := by
      intro j hj
      rw [hu2 j hj]
      by_cases hjS : j ∈ S
      · rw [if_pos hjS, if_pos ⟨hjS, Nat.zero_le j⟩]
      · rw [if_neg hjS, if_neg (fun hc => hjS hc.1)]
    have hpost := mainLoop_restore B.bordercharmap dprev B.topdelimiter parent S
      hnn parent.length 0 r1.1 acc4 true rfl hu1 hPc0
    rw [← hr5] at hpost
    obtain ⟨hp1, hp2⟩ := hpost
    by_cases hfail : r5.2.2.1 = true ∨ r5.2.1.getLast? = some B.topdelimiter
    · rw [if_pos hfail]
      intro _
      have hrest : unmarkFrom (r5.2.2.2 + 1) r5.1 = parent := by
        apply unmarkFrom_restore parent r5.1 (r5.2.2.2 + 1) hnn hp1
        intro j hj
        rw [hp2 j hj]
        by_cases hcond : j ∈ S ∧ r5.2.2.1 = true ∧ r5.2.2.2 + 1 ≤ j
        · rw [if_pos hcond]
          exact Or.inr ⟨hcond.2.2, rfl⟩
        · rw [if_neg hcond]
          exact Or.inl rfl
      refine ⟨?_, rfl, rfl, rfl, rfl, rfl, hrest, ?_⟩
      · show (overwriteFrom (B.global_partstarts.getD B.global_npartitions 0)
            r5.2.1 B.global_partitions).take
            (B.global_partstarts.getD B.global_npartitions 0) = _
        exact overwriteFrom_take _ _ _ hcap
      · show dpborder_partIsValid (unmarkFrom (r5.2.2.2 + 1) r5.1) dprev = true
        rw [hrest]
        exact hval
    · rw [if_neg hfail]
      intro hcon
      exact absurd hcon (natCast_ne_negOne B.global_npartitions)

/-- Character map of the C2 counterexample: it keeps only the character 0. -/
def cexMap2 : Int → Int := fun c => if c = 0 then 0 else -1

/-- Border state of the C2 counterexample. -/
def cexB2 : DPBORDER :=
  { exampleB with bordercharmap := cexMap2, topdelimiter := 1 }

/-- Closed witness for C2 at a concrete failing input. -/
theorem C2_failure_rollback_witness :
    ((dpborder_partGetIdxNew [0, 2, 1] 2 [0] cexB2).2.2.global_partitions.take
          (cexB2.global_partstarts.getD cexB2.global_npartitions 0) =
        cexB2.global_partitions.take
          (cexB2.global_partstarts.getD cexB2.global_npartitions 0) ∧
       (dpborder_partGetIdxNew [0, 2, 1] 2 [0] cexB2).2.2.global_partstarts =
         cexB2.global_partstarts ∧
       (dpborder_partGetIdxNew [0, 2, 1] 2 [0] cexB2).2.2.global_partcosts =
         cexB2.global_partcosts ∧
       (dpborder_partGetIdxNew [0, 2, 1] 2 [0] cexB2).2.2.global_predparts =
         cexB2.global_predparts ∧
       (dpborder_partGetIdxNew [0, 2, 1] 2 [0] cexB2).2.2.global_partsUseExt =
         cexB2.global_partsUseExt ∧
       (dpborder_partGetIdxNew [0, 2, 1] 2 [0] cexB2).2.2.global_npartitions =
         cexB2.global_npartitions ∧
       (dpborder_partGetIdxNew [0, 2, 1] 2 [0] cexB2).2.1 = [0, 2, 1] ∧
       dpborder_partIsValid (dpborder_partGetIdxNew [0, 2, 1] 2 [0] cexB2).2.1
         2 = true) :=
  C2_failure_rollback [0, 2, 1] 2 [0] cexB2 (by decide) (by decide) (by decide)
    (by decide) (by decide) (by decide)

/-- C2 counterexample to the claim as frozen: the parent [0, 2, 1] with
previous delimiter 2 is valid, the chosen start 0 is drawn from its subset
starts, and dpborder_partGetIdxNew returns -1 (the walk emits a trailing new
delimiter for the empty unchosen remainder), yet the character buffer is not
byte-identical to its pre-call state: the rejected child's characters remain
written in the free region of the buffer. -/
theorem C2_failure_rollback_cex :
    dpborder_partIsValid [0, 2, 1] 2 = true ∧
    [0].Sublist (subsetStartsList [0, 2, 1] 2) ∧
    (dpborder_partGetIdxNew [0, 2, 1] 2 [0] cexB2).1 = -1 ∧
    (dpborder_partGetIdxNew [0, 2, 1] 2 [0] cexB2).2.2.global_partitions ≠
      cexB2.global_partitions :=
  ⟨by decide, by decide, by decide, by decide⟩

/-- Modelled from the spec: dpborder_getDelimiter is defined in
dpborderinterns.h, which is not part of the excerpt; the spec (section 2,
border level) states that the delimiter of a level equals the number of
border characters at that level, i.e. the length of its node map (also
asserted at dpborder_util.c line 579). -/
def dpborder_getDelimiter (B : DPBORDER) (level : Nat) : Int :=
  ((B.borderlevels.getD level ⟨0, []⟩).bordernodesMapToOrg).length

/-- Predecessor walk of dpborder_markSolNodes (dpborder_util.c lines 606-607
and 609): the list of visited positions from the start position down to (and
excluding) the root sentinel 0.  The C loops have no bound, so the walk is
fuel-limited and returns none when 0 is not reached, modelling a diverging
predecessor chain. -/
def solChain (predparts : List Int) : Nat → Int → Option (List Nat)
  | 0, pos => if pos = 0 then some [] else none
  | fuel + 1, pos =>
      if pos = 0 then some []
      else
        match solChain predparts fuel (predparts.getD pos.toNat 0) with
        | none => none
        | some rest => some (pos.toNat :: rest)

/-- Marking performed for one visited partition (dpborder_util.c lines
611-636): mark the level's extension node if the partition used the
extension vertex, then mark the mapped original vertex of every
non-delimiter character stored between the partition's start and end
offsets. -/
def markPart (B : DPBORDER) (pos level : Nat) (arr : List Bool) : List Bool :=
  (List.range' (B.global_partstarts.getD pos 0)
      (B.global_partstarts.getD (pos + 1) 0 -
        B.global_partstarts.getD pos 0)).foldl
    (fun a i =>
      if B.global_partitions.getD i 0 != dpborder_getDelimiter B level then
        a.set ((B.borderlevels.getD level ⟨0, []⟩).bordernodesMapToOrg.getD
          (B.global_partitions.getD i 0).toNat 0) true
      else a)
    (if B.global_partsUseExt.getD pos false then
      arr.set (B.borderlevels.getD level ⟨0, []⟩).extnode true
    else arr)

/-- Second loop of dpborder_markSolNodes (lines 609-637): walk the visited
positions with the level counting down from the number of levels. -/
def solLevelLoop (B : DPBORDER) : List Nat → Nat → List Bool → List Bool
  | [], _, arr => arr
  | pos :: rest, level, arr =>
      solLevelLoop B rest (level - 1) (markPart B pos level arr)

/-- Translation of dpborder_markSolNodes (dpborder_util.c lines 550-612):
clear the solution array, count the levels by the predecessor walk, mark the
visited partitions with descending level, and finally mark the root
extension node.  The fuel bounds only the unbounded predecessor walks of the
C loops. -/
def dpborder_markSolNodes (B : DPBORDER) (fuel : Nat) : Option (List Bool) :=
  match solChain B.global_predparts fuel (B.global_optposition : Int) with
  | none => none
  | some chain =>
      some ((solLevelLoop B chain chain.length
          (List.replicate B.nnodes false)).set
        (B.borderlevels.getD 0 ⟨0, []⟩).extnode true)

/-- Indices marked for one visited partition, as a list. -/
def partMarks (B : DPBORDER) (pos level : Nat) : List Nat :=
  (if B.global_partsUseExt.getD pos false then
    [(B.borderlevels.getD level ⟨0, []⟩).extnode]
  else []) ++
  ((List.range' (B.global_partstarts.getD pos 0)
      (B.global_partstarts.getD (pos + 1) 0 -
        B.global_partstarts.getD pos 0)).filter
    (fun i => B.global_partitions.getD i 0 !=
      dpborder_getDelimiter B level)).map
    (fun i => (B.borderlevels.getD level ⟨0, []⟩).bordernodesMapToOrg.getD
      (B.global_partitions.getD i 0).toNat 0)

/-- Indices marked by the level walk, as a list. -/
def solMarks (B : DPBORDER) : List Nat → Nat → List Nat
  | [], _ => []
  | pos :: rest, level => partMarks B pos level ++ solMarks B rest (level - 1)

theorem getD_set_self_b (l : List Bool) (i : Nat) (v : Bool) (h : i < l.length) :
    (l.set i v).getD i false = v := by
  rw [List.getD_eq_getElem?_getD, List.getElem?_set_self h]
  rfl

theorem getD_set_ne_b (l : List Bool) (i j : Nat) (v : Bool) (h : i ≠ j) :
    (l.set i v).getD j false = l.getD j false := by
  rw [List.getD_eq_getElem?_getD, List.getD_eq_getElem?_getD,
    List.getElem?_set_ne h]

theorem getD_replicate_false (n v : Nat) :
    (List.replicate n false).getD v false = false := by
  by_cases h : v < n
  · simp [List.getD_eq_getElem?_getD, List.getElem?_replicate, h]
  · simp [List.getD_eq_getElem?_getD, List.getElem?_replicate, h]

theorem foldl_set_true_length : ∀ (idxs : List Nat) (arr : List Bool),
    (idxs.foldl (fun a i => a.set i true) arr).length = arr.length
  | [], _ => rfl
  | i :: idxs, arr => by
      simp only [List.foldl_cons]
      rw [foldl_set_true_length idxs (arr.set i true), List.length_set]

theorem foldl_set_true_getD : ∀ (idxs : List Nat) (arr : List Bool) (v : Nat),
    ((idxs.foldl (fun a i => a.set i true) arr).getD v false = true ↔
      (arr.getD v false = true ∨ (v ∈ idxs ∧ v < arr.length)))
  | [], arr, v => by simp
  | i :: idxs, arr, v => by
      simp only [List.foldl_cons]
      rw [foldl_set_true_getD idxs (arr.set i true) v, List.length_set]
      by_cases hvi : v = i
      · subst hvi
        by_cases hil : v < arr.length
        · rw [getD_set_self_b arr v true hil]
          constructor
          · intro _
            exact Or.inr ⟨List.mem_cons_self v idxs, hil⟩
          · intro _
            exact Or.inl rfl
        · rw [List.set_eq_of_length_le (by omega)]
          constructor
          · intro h
            rcases h with h | h
            · exact Or.inl h
            · exact Or.inr ⟨List.mem_cons_of_mem v h.1, h.2⟩
          · intro h
            rcases h with h | h
            · exact Or.inl h
            · rcases List.mem_cons.mp h.1 with h1 | h1
              · omega
              · exact Or.inr ⟨h1, h.2⟩
      · rw [getD_set_ne_b arr i v true (fun hc => hvi hc.symm)]
        constructor
        · intro h
          rcases h with h | h
          · exact Or.inl h
          · exact Or.inr ⟨List.mem_cons_of_mem i h.1, h.2⟩
        · intro h
          rcases h with h | h
          · exact Or.inl h
          · rcases List.mem_cons.mp h.1 with h1 | h1
            · exact absurd h1 hvi
            · exact Or.inr ⟨h1, h.2⟩

theorem foldl_condSet (p : Nat → Bool) (f : Nat → Nat) :
    ∀ (l : List Nat) (arr : List Bool),
      l.foldl (fun a i => if p i then a.set (f i) true else a) arr =
        ((l.filter p).map f).foldl (fun a i => a.set i true) arr
  | [], _ => rfl
  | i :: l, arr => by
      by_cases hp : p i = true
      · rw [List.filter_cons_of_pos hp, List.map_cons]
        simp only [List.foldl_cons, if_pos hp]
        exact foldl_condSet p f l (arr.set (f i) true)
      · rw [List.filter_cons_of_neg (by simpa using hp)]
        simp only [List.foldl_cons, if_neg hp]
        exact foldl_condSet p f l arr

theorem markPart_eq_fold (B : DPBORDER) (pos level : Nat) (arr : List Bool) :
    markPart B pos level arr =
      (partMarks B pos level).foldl (fun a i => a.set i true) arr := by
  unfold markPart partMarks
  rw [List.foldl_append, foldl_condSet]
  congr 1
  by_cases hu : B.global_partsUseExt.getD pos false = true
  · rw [if_pos hu, if_pos hu]
    rfl
  · rw [if_neg hu, if_neg hu]
    rfl

theorem solLevelLoop_eq_fold (B : DPBORDER) :
    ∀ (chain : List Nat) (level : Nat) (arr : List Bool),
      solLevelLoop B chain level arr =
        (solMarks B chain level).foldl (fun a i => a.set i true) arr
  | [], _, _ => rfl
  | pos :: rest, level, arr => by
      show solLevelLoop B rest (level - 1) (markPart B pos level arr) = _
      rw [solLevelLoop_eq_fold B rest (level - 1) (markPart B pos level arr)]
      show _ = (partMarks B pos level ++ solMarks B rest (level - 1)).foldl _ arr
      rw [List.foldl_append, markPart_eq_fold]

theorem mem_partMarks (B : DPBORDER) (pos level v : Nat) :
    v ∈ partMarks B pos level ↔
      ((B.global_partsUseExt.getD pos false = true ∧
        v = (B.borderlevels.getD level ⟨0, []⟩).extnode) ∨
       (∃ i, B.global_partstarts.getD pos 0 ≤ i ∧
          i < B.global_partstarts.getD (pos + 1) 0 ∧
          (B.global_partitions.getD i 0 !=
            dpborder_getDelimiter B level) = true ∧
          v = (B.borderlevels.getD level ⟨0, []⟩).bordernodesMapToOrg.getD
            (B.global_partitions.getD i 0).toNat 0)) := by
  unfold partMarks
  rw [List.mem_append]
  constructor
  · intro h
    rcases h with h | h
    · left
      by_cases hu : B.global_partsUseExt.getD pos false = true
      · rw [if_pos hu] at h
        exact ⟨hu, by simpa using h⟩
      · rw [if_neg hu] at h
        simp at h
    · right
      obtain ⟨i, hi, hfi⟩ := List.mem_map.mp h
      have h1 := List.mem_of_mem_filter hi
      have h2 := List.of_mem_filter hi
      have h3 := List.mem_range'_1.mp h1
      exact ⟨i, h3.1, by omega, h2, hfi.symm⟩
  · intro h
    rcases h with ⟨hu, hv⟩ | ⟨i, h1, h2, h3, hv⟩
    · left
      rw [if_pos hu, hv]
      simp
    · right
      refine List.mem_map.mpr ⟨i, ?_, hv.symm⟩
      exact List.mem_filter.mpr ⟨List.mem_range'_1.mpr ⟨h1, by omega⟩, h3⟩

theorem mem_solMarks (B : DPBORDER) :
    ∀ (chain : List Nat) (level : Nat) (v : Nat),
      v ∈ solMarks B chain level ↔
        ∃ k, k < chain.length ∧ v ∈ partMarks B (chain.getD k 0) (level - k)
  | [], level, v => by simp [solMarks]
  | pos :: rest, level, v => by
      show v ∈ partMarks B pos level ++ solMarks B rest (level - 1) ↔ _
      rw [List.mem_append, mem_solMarks B rest (level - 1) v]
      constructor
      · intro h
        rcases h with h | ⟨k, hk, hv⟩
        · refine ⟨0, by simp, ?_⟩
          rw [List.getD_cons_zero, Nat.sub_zero]
          exact h
        · refine ⟨k + 1, by rw [List.length_cons]; omega, ?_⟩
          rw [List.getD_cons_succ, show level - (k + 1) = level - 1 - k from by
            omega]
          exact hv
      · rintro ⟨k, hk, hv⟩
        cases k with
        | zero =>
            left
            rw [List.getD_cons_zero, Nat.sub_zero] at hv
            exact hv
        | succ k =>
            right
            refine ⟨k, by rw [List.length_cons] at hk; omega, ?_⟩
            rw [List.getD_cons_succ, show level - (k + 1) = level - 1 - k from by
              omega] at hv
            exact hv

/-- C8: reconstruction well-formedness.  If the predecessor walk from the
optimal position reaches the root sentinel 0 (solChain succeeds), the root
extension node is within [0, nnodes), and every index the level walk marks
is within [0, nnodes) (which the claim's node-map and extnode range
conditions guarantee), then dpborder_markSolNodes terminates with an array
of length nnodes, marks only vertices below nnodes, marks the root extension
node unconditionally (so the marked set is nonempty), and marks exactly the
root extension node together with, for each visited partition at its level,
the level's extension node when the partition used the extension vertex and
the mapped original vertex of every stored non-delimiter character of the
partition — and no other vertex. -/
theorem C8_markSolNodes_wellformed (B : DPBORDER) (fuel : Nat) (chain : List Nat)
    (hchain : solChain B.global_predparts fuel (B.global_optposition : Int) =
      some chain)
    (hext0 : (B.borderlevels.getD 0 ⟨0, []⟩).extnode < B.nnodes)
    (hbound : ∀ v ∈ solMarks B chain chain.length, v < B.nnodes) :
    ∃ arr, dpborder_markSolNodes B fuel = some arr ∧
      arr.length = B.nnodes ∧
      (∀ v, arr.getD v false = true → v < B.nnodes) ∧
      arr.getD (B.borderlevels.getD 0 ⟨0, []⟩).extnode false = true ∧
      (∃ v, v < B.nnodes ∧ arr.getD v false = true) ∧
      (∀ v, arr.getD v false = true ↔
        (v = (B.borderlevels.getD 0 ⟨0, []⟩).extnode ∨
         ∃ k, k < chain.length ∧
           ((B.global_partsUseExt.getD (chain.getD k 0) false = true ∧
              v = (B.borderlevels.getD (chain.length - k) ⟨0, []⟩).extnode) ∨
            (∃ i, B.global_partstarts.getD (chain.getD k 0) 0 ≤ i ∧
               i < B.global_partstarts.getD (chain.getD k 0 + 1) 0 ∧
               (B.global_partitions.getD i 0 !=
                 dpborder_getDelimiter B (chain.length - k)) = true ∧
               v = (B.borderlevels.getD (chain.length - k)
                 ⟨0, []⟩).bordernodesMapToOrg.getD
                   (B.global_partitions.getD i 0).toNat 0)))) := by
  have hres : dpborder_markSolNodes B fuel =
      some ((solLevelLoop B chain chain.length
          (List.replicate B.nnodes false)).set
        (B.borderlevels.getD 0 ⟨0, []⟩).extnode true) := by
    unfold dpborder_markSolNodes
    rw [hchain]
  have hFfold : solLevelLoop B chain chain.length (List.replicate B.nnodes false) =
      (solMarks B chain chain.length).foldl (fun a i => a.set i true)
        (List.replicate B.nnodes false) :=
    solLevelLoop_eq_fold B chain chain.length _
  have hFlen : (solLevelLoop B chain chain.length
      (List.replicate B.nnodes false)).length = B.nnodes := by
    rw [hFfold, foldl_set_true_length, List.length_replicate]
  have hFgetD : ∀ v, (solLevelLoop B chain chain.length
      (List.replicate B.nnodes false)).getD v false = true ↔
      (v ∈ solMarks B chain chain.length ∧ v < B.nnodes) := by
    intro v
    rw [hFfold, foldl_set_true_getD, getD_replicate_false, List.length_replicate]
    simp
  have hAlen : ((solLevelLoop B chain chain.length
      (List.replicate B.nnodes false)).set
        (B.borderlevels.getD 0 ⟨0, []⟩).extnode true).length = B.nnodes := by
    rw [List.length_set, hFlen]
  have hAgetD : ∀ v, ((solLevelLoop B chain chain.length
      (List.replicate B.nnodes false)).set
        (B.borderlevels.getD 0 ⟨0, []⟩).extnode true).getD v false = true ↔
      (v = (B.borderlevels.getD 0 ⟨0, []⟩).extnode ∨
        (solLevelLoop B chain chain.length
          (List.replicate B.nnodes false)).getD v false = true) := by
    intro v
    by_cases hv : v = (B.borderlevels.getD 0 ⟨0, []⟩).extnode
    · subst hv
      rw [getD_set_self_b _ _ true (by rw [hFlen]; exact hext0)]
      simp
    · rw [getD_set_ne_b _ _ v true (fun hc => hv hc.symm)]
      constructor
      · exact fun h => Or.inr h
      · intro h
        rcases h with h | h
        · exact absurd h hv
        · exact h
  refine ⟨_, hres, hAlen, ?_, ?_, ?_, ?_⟩
  · intro v hv
    rcases (hAgetD v).mp hv with h | h
    · rw [h]
      exact hext0
    · exact ((hFgetD v).mp h).2
  · rw [hAgetD]
    exact Or.inl rfl
  · exact ⟨_, hext0, by rw [hAgetD]; exact Or.inl rfl⟩
  · intro v
    rw [hAgetD, hFgetD]
    constructor
    · intro h
      rcases h with h | ⟨hmem, -⟩
      · exact Or.inl h
      · right
        obtain ⟨k, hk, hv⟩ := (mem_solMarks B chain chain.length v).mp hmem
        exact ⟨k, hk,
          (mem_partMarks B (chain.getD k 0) (chain.length - k) v).mp hv⟩
    · intro h
      rcases h with h | ⟨k, hk, hv⟩
      · exact Or.inl h
      · right
        have hmem : v ∈ solMarks B chain chain.length :=
          (mem_solMarks B chain chain.length v).mpr
            ⟨k, hk, (mem_partMarks B (chain.getD k 0) (chain.length - k) v).mpr hv⟩
        exact ⟨hmem, hbound v hmem⟩

/-- Border state of the C8 witness, following the spec scenario S6: root
extension vertex 7, level-1 extension vertex 9, one level-1 partition
holding the single character 0 with node map [4] and use_ext set. -/
def exB8 : DPBORDER :=
  { global_partitions := [0], global_partstarts := [0, 0, 1],
    global_partcosts := [0, 0], global_predparts := [-1, 0],
    global_partsUseExt := [false, true], global_npartitions := 2,
    bordercharmap := fun c => c, borderchardists := fun _ => 0,
    extborderchar := -1, topdelimiter := 1, nnodes := 10,
    global_optposition := 1, borderlevels := [⟨7, []⟩, ⟨9, [4]⟩] }

/-- Closed witness for C8 at the spec scenario S6 state. -/
theorem C8_markSolNodes_wellformed_witness :
    ∃ arr, dpborder_markSolNodes exB8 2 = some arr ∧
      arr.length = exB8.nnodes ∧
      (∀ v, arr.getD v false = true → v < exB8.nnodes) ∧
      arr.getD (exB8.borderlevels.getD 0 ⟨0, []⟩).extnode false = true ∧
      (∃ v, v < exB8.nnodes ∧ arr.getD v false = true) ∧
      (∀ v, arr.getD v false = true ↔
        (v = (exB8.borderlevels.getD 0 ⟨0, []⟩).extnode ∨
         ∃ k, k < ([1] : List Nat).length ∧
           ((exB8.global_partsUseExt.getD (([1] : List Nat).getD k 0) false = true ∧
              v = (exB8.borderlevels.getD (([1] : List Nat).length - k)
                ⟨0, []⟩).extnode) ∨
            (∃ i, exB8.global_partstarts.getD (([1] : List Nat).getD k 0) 0 ≤ i ∧
               i < exB8.global_partstarts.getD (([1] : List Nat).getD k 0 + 1) 0 ∧
               (exB8.global_partitions.getD i 0 !=
                 dpborder_getDelimiter exB8 (([1] : List Nat).length - k)) = true ∧
               v = (exB8.borderlevels.getD (([1] : List Nat).length - k)
                 ⟨0, []⟩).bordernodesMapToOrg.getD
                   (exB8.global_partitions.getD i 0).toNat 0)))) :=
  C8_markSolNodes_wellformed exB8 2 [1] (by decide) (by decide) (by decide)
